import Mathlib

/-!
# The tracing collector of `src/gc/collector.{h,cpp}`

A shallow embedding of the mark/sweep collector: the `TraceStack` worklist, the
`TraceStackGCVisitor` operations, the root registry and `markPhase` /
`runCollection`, followed by the properties of the specification.

Conventions of the embedding.

* An address (`void*`) is a natural number, `NULL` is `0`; pointer-sized slots are 8 bytes.
* A `GCAllocation*` is represented by the address of its `user_data` member, which sits at
  a fixed offset after the header: `a->user_data` and `GCAllocation::fromUserData(p)` are
  the two directions of that representation.
* The build is the one with assertions enabled (`NDEBUG` undefined): a failed `assert`,
  `ASSERT` or `RELEASE_ASSERT` is an `Except.error`.
* The member `user_data` is an inline array, so `a->user_data` is the address of the member
  and reads no memory: on the `NULL` result of `getAllocationFromInteriorPointer` it is the
  address `NULL + offsetof(GCAllocation, user_data)`.
* The drain loop of `markPhase`, whose trip count is not bounded by its arguments, carries
  a fuel argument; its result is `none` when the fuel runs out, `some (.error e)` when an
  assertion fails and `some (.ok H)` when it completes.
-/

namespace pyston
namespace gc

/-- The null pointer.  Addresses, the values of a `void*`, are natural numbers. -/
def NULL : Nat := 0

/-- A `GCAllocation*`, represented by the address of the allocation's `user_data` member. -/
structure GCAllocation where
  user_data : Nat
deriving DecidableEq

/-- The function `GCAllocation::fromUserData(p)`: the header whose `user_data` member is at `p`. -/
def GCAllocation.fromUserData (p : Nat) : GCAllocation := ⟨p⟩

/-- The shape-kind tag `al->kind_id`; `unhandled` stands for every other value of the byte. -/
inductive GCKind where
  | PYTHON
  | CONSERVATIVE
  | UNTRACKED
  | unhandled (id : Nat)
deriving DecidableEq

/-- The ways a run of the collector can stop abnormally. -/
inductive GCError where
  /-- In `registerStaticRootObj`: `assert(global_heap.getAllocationFromInteriorPointer(obj))`. -/
  | rootObjAssert
  /-- In `registerStaticRootMemory`: `assert(start < end)`. -/
  | rangeOrderAssert
  /-- In `registerStaticRootMemory`: `assert(getAllocationFromInteriorPointer(start) == NULL)`,
  and the same assertion for `end`. -/
  | rangeInHeapAssert
  /-- In `visit`: `assert(... ->user_data == p)`. -/
  | visitAssert
  /-- In `visitRange`: `assert(isValid(*cur))`. -/
  | isValidAssert
  /-- In `markPhase`: `assert(((intptr_t)p) % 8 == 0)`. -/
  | alignAssert
  /-- In `markPhase`: `ASSERT(cls->gc_visit, ...)`. -/
  | gcVisitAssert
  /-- In `markPhase`: `RELEASE_ASSERT(0, "Unhandled kind: %d", ...)`. -/
  | unhandledKind
deriving DecidableEq

/-- One call a tracing callback makes on the `GCVisitor` it is handed. -/
inductive VisitCall where
  | visit (p : Nat)
  | visitRange (start end_ : Nat)
  | visitPotential (p : Nat)
  | visitPotentialRange (start end_ : Nat)
deriving DecidableEq

/-- Modelled from the spec: the Heap Allocation Registry `global_heap` of `gc/heap.h`, which is
not among the sources.  It resolves an interior pointer to its enclosing allocation or to
none, exposes the shape-kind tag, the shape-specific length and the mark flag of an
allocation, and knows the allocations it manages. -/
structure Heap where
  /-- The allocations currently managed. -/
  allocs : List GCAllocation
  /-- The method `global_heap.getAllocationFromInteriorPointer(p)`; `none` is the result
  `NULL`, no allocation encloses `p`. -/
  getAllocationFromInteriorPointer : Nat → Option GCAllocation
  /-- The field `al->kind_id`. -/
  kind_id : GCAllocation → GCKind
  /-- The field `al->kind_data`. -/
  kind_data : GCAllocation → Nat
  /-- The test `isMarked(al)` of the mark flag. -/
  isMarked : GCAllocation → Bool

/-- Modelled from the spec: `setMark(al)` of `gc/heap.h`; sets the mark flag of `al` and of no
other allocation. -/
def Heap.setMark (H : Heap) (al : GCAllocation) : Heap :=
  { H with isMarked := fun x => if x = al then true else H.isMarked x }

/-- Modelled from the spec: `Heap::freeUnmarked()` of `gc/heap.h`; reclaims every allocation
whose mark flag is unset (it is no longer managed and no pointer resolves to it) and resets
the mark flag of the survivors. -/
def Heap.freeUnmarked (H : Heap) : Heap :=
  { H with
    allocs := H.allocs.filter H.isMarked
    getAllocationFromInteriorPointer :=
      fun p => (H.getAllocationFromInteriorPointer p).filter H.isMarked
    isMarked := fun _ => false }

/-- The memory the collector reads but never writes during a cycle, and the dynamic type
system: `word a` is the pointer-sized value stored at address `a` (so `*cur`, `b->cls` for
a `Box* b`, `h->value` for a `StaticRootHandle* h`), and `gc_visit cls` is the member
`cls->gc_visit` of a `BoxedClass* cls`, `none` when it is a null function pointer, else the
calls the callback makes on the visitor for the box it is given. -/
structure Memory where
  word : Nat → Nat
  gc_visit : Nat → Option (Nat → List VisitCall)

/-- The class `TraceStack`: a vector of pointers, the back of the vector is the end of
the list. -/
structure TraceStack where
  v : List Nat
deriving DecidableEq

/-- The method `void push(void* p) { v.push_back(p); }`. -/
def TraceStack.push (s : TraceStack) (p : Nat) : TraceStack := ⟨s.v ++ [p]⟩

/-- The method `void pushall(void* const* start, void* const* end)`, which is
`v.insert(v.end(), start, end)`: the `end - start` elements between the two slot pointers,
read from memory. -/
def TraceStack.pushall (M : Memory) (s : TraceStack) (start end_ : Nat) : TraceStack :=
  ⟨s.v ++ (List.range ((end_ - start) / 8)).map (fun i => M.word (start + 8 * i))⟩

/-- The method `int size() { return v.size(); }`. -/
def TraceStack.size (s : TraceStack) : Nat := s.v.length

/-- The method `void* pop()`: the back of the vector, which is removed, or `NULL` when the
vector is empty. -/
def TraceStack.pop (s : TraceStack) : Nat × TraceStack :=
  if s.v.length ≠ 0 then (s.v.getLastD NULL, ⟨s.v.dropLast⟩) else (NULL, s)

/-- The method `bool TraceStackGCVisitor::isValid(void* p)`. -/
def TraceStackGCVisitor.isValid (H : Heap) (p : Nat) : Bool :=
  (H.getAllocationFromInteriorPointer p).isSome

/-- Modelled from `gc/heap.h`, which is not among the sources: the offset of the member
`user_data` in a `GCAllocation`, the size of the header, which is one pointer-sized word. -/
def GCAllocation.user_data_offset : Nat := 8

/-- The expression `a->user_data` for the result `a` of `getAllocationFromInteriorPointer`:
the address of the member `user_data` of `*a`, which for the result `NULL` is
`NULL + offsetof(GCAllocation, user_data)`. -/
def GCAllocation.user_data_of (a : Option GCAllocation) : Nat :=
  match a with
  | none => NULL + GCAllocation.user_data_offset
  | some a => a.user_data

/-- The method `void TraceStackGCVisitor::visit(void* p)`. -/
def TraceStackGCVisitor.visit (H : Heap) (p : Nat) (stack : TraceStack) :
    Except GCError TraceStack :=
  if GCAllocation.user_data_of (H.getAllocationFromInteriorPointer p) = p then
    .ok (stack.push p)
  else .error .visitAssert

/-- The loop `while (cur < end) { assert(isValid(*cur)); cur++; }` of `visitRange`; `cur`
advances by one slot, so `end - cur` iterations are never exceeded. -/
def TraceStackGCVisitor.visitRangeCheck (H : Heap) (M : Memory) :
    Nat → Nat → Nat → Except GCError Unit
  | 0, _, _ => .ok ()
  | n + 1, cur, end_ =>
    if cur < end_ then
      if TraceStackGCVisitor.isValid H (M.word cur) then
        TraceStackGCVisitor.visitRangeCheck H M n (cur + 8) end_
      else .error .isValidAssert
    else .ok ()

/-- The method `void TraceStackGCVisitor::visitRange(void* const* start, void* const* end)`:
the check loop of the build with assertions, then `stack->pushall(start, end)`. -/
def TraceStackGCVisitor.visitRange (H : Heap) (M : Memory) (start end_ : Nat)
    (stack : TraceStack) : Except GCError TraceStack :=
  match TraceStackGCVisitor.visitRangeCheck H M (end_ - start) start end_ with
  | .error e => .error e
  | .ok () => .ok (stack.pushall M start end_)

/-- The method `void TraceStackGCVisitor::visitPotential(void* p)`. -/
def TraceStackGCVisitor.visitPotential (H : Heap) (p : Nat) (stack : TraceStack) :
    Except GCError TraceStack :=
  match H.getAllocationFromInteriorPointer p with
  | some a => TraceStackGCVisitor.visit H a.user_data stack
  | none => .ok stack

/-- The loop `while (start < end) { visitPotential(*start); start++; }`; `start` advances by
one slot, so `end - start` iterations are never exceeded. -/
def TraceStackGCVisitor.visitPotentialRangeLoop (H : Heap) (M : Memory) :
    Nat → Nat → Nat → TraceStack → Except GCError TraceStack
  | 0, _, _, stack => .ok stack
  | n + 1, start, end_, stack =>
    if start < end_ then
      match TraceStackGCVisitor.visitPotential H (M.word start) stack with
      | .error e => .error e
      | .ok stack1 => TraceStackGCVisitor.visitPotentialRangeLoop H M n (start + 8) end_ stack1
    else .ok stack

/-- The method
`void TraceStackGCVisitor::visitPotentialRange(void* const* start, void* const* end)`. -/
def TraceStackGCVisitor.visitPotentialRange (H : Heap) (M : Memory) (start end_ : Nat)
    (stack : TraceStack) : Except GCError TraceStack :=
  TraceStackGCVisitor.visitPotentialRangeLoop H M (end_ - start) start end_ stack

/-- A range-based `for` loop whose body is a visitor operation: the body runs on each
element in turn and the first failed assertion stops the run. -/
def forEach {α : Type} (body : α → TraceStack → Except GCError TraceStack) :
    List α → TraceStack → Except GCError TraceStack
  | [], stack => .ok stack
  | x :: xs, stack =>
    match body x stack with
    | .error e => .error e
    | .ok stack1 => forEach body xs stack1

/-- One call of a tracing callback on the visitor, dispatched to the `TraceStackGCVisitor`
override. -/
def VisitCall.run (H : Heap) (M : Memory) (c : VisitCall) (stack : TraceStack) :
    Except GCError TraceStack :=
  match c with
  | .visit p => TraceStackGCVisitor.visit H p stack
  | .visitRange start end_ => TraceStackGCVisitor.visitRange H M start end_ stack
  | .visitPotential p => TraceStackGCVisitor.visitPotential H p stack
  | .visitPotentialRange start end_ =>
    TraceStackGCVisitor.visitPotentialRange H M start end_ stack

/-- The file-level state of `collector.cpp`: the static `roots`, `static_root_memory`, the
set behind `getRootHandles()` (in its iteration order) and `ncollections`. -/
structure Collector where
  roots : TraceStack
  static_root_memory : List (Nat × Nat)
  root_handles : List Nat
  ncollections : Nat

/-- The function `void registerStaticRootObj(void* obj)`. -/
def registerStaticRootObj (H : Heap) (C : Collector) (obj : Nat) : Except GCError Collector :=
  if (H.getAllocationFromInteriorPointer obj).isSome then
    .ok { C with roots := C.roots.push obj }
  else .error .rootObjAssert

/-- The function `void registerStaticRootMemory(void* start, void* end)`. -/
def registerStaticRootMemory (H : Heap) (C : Collector) (start end_ : Nat) :
    Except GCError Collector :=
  if ¬ start < end_ then .error .rangeOrderAssert
  else if (H.getAllocationFromInteriorPointer start).isSome then .error .rangeInHeapAssert
  else if (H.getAllocationFromInteriorPointer end_).isSome then .error .rangeInHeapAssert
  else .ok { C with static_root_memory := C.static_root_memory ++ [(start, end_)] }

/-- The constructor `StaticRootHandle::StaticRootHandle()` of the handle at address `this`:
`getRootHandles()->insert(this)`. -/
def StaticRootHandle.construct (C : Collector) (this : Nat) : Collector :=
  if this ∈ C.root_handles then C else { C with root_handles := C.root_handles ++ [this] }

/-- The destructor `StaticRootHandle::~StaticRootHandle()`: `getRootHandles()->erase(this)`. -/
def StaticRootHandle.destruct (C : Collector) (this : Nat) : Collector :=
  { C with root_handles := C.root_handles.filter (fun h => h ≠ this) }

/-- Modelled from the spec: `collectStackRoots(&stack)` of `gc/root_finder.h`, which is not
among the sources.  The stack scanner enumerates the candidate words of the thread stacks
and registers and feeds them into the worklist conservatively, that is through
`visitPotential`. -/
def collectStackRoots (H : Heap) (candidates : List Nat) (stack : TraceStack) :
    Except GCError TraceStack :=
  forEach (fun w st => TraceStackGCVisitor.visitPotential H w st) candidates stack

/-- The body of the loop `while (void* p = stack.pop()) { ... }` of `markPhase`: `none` when
the loop exits, else the heap and the worklist the next iteration starts from. -/
def markStep (M : Memory) (H : Heap) (stack : TraceStack) :
    Except GCError (Option (Heap × TraceStack)) :=
  let p := stack.pop.1
  let stack := stack.pop.2
  if p = NULL then .ok none
  else if p % 8 ≠ 0 then .error .alignAssert
  else
    let al := GCAllocation.fromUserData p
    if H.isMarked al then .ok (some (H, stack))
    else
      let H := H.setMark al
      match H.kind_id al with
      | .UNTRACKED => .ok (some (H, stack))
      | .CONSERVATIVE =>
        let bytes := H.kind_data al
        match TraceStackGCVisitor.visitPotentialRange H M p (p + bytes) stack with
        | .error e => .error e
        | .ok stack1 => .ok (some (H, stack1))
      | .PYTHON =>
        let cls := M.word p
        if cls ≠ NULL then
          match M.gc_visit cls with
          | none => .error .gcVisitAssert
          | some gc_visit =>
            match forEach (VisitCall.run H M) (gc_visit p) stack with
            | .error e => .error e
            | .ok stack1 => .ok (some (H, stack1))
        else .ok (some (H, stack))
      | .unhandled _ => .error .unhandledKind

/-- The loop `while (void* p = stack.pop()) { ... }` of `markPhase`, with fuel: `none` when
the fuel does not suffice. -/
def markLoop (M : Memory) : Nat → Heap → TraceStack → Option (Except GCError Heap)
  | 0, _, _ => none
  | fuel + 1, H, stack =>
    match markStep M H stack with
    | .error e => some (.error e)
    | .ok none => some (.ok H)
    | .ok (some (H1, stack1)) => markLoop M fuel H1 stack1

/-- The body of the loop `while (void* p = stack.pop()) { ... }` of `markPhase` once more,
with a record of the tracer it runs: the third component of the state it returns is the
allocation `al` when this iteration calls `visitor.visitPotentialRange` on the extent of `al`
or `cls->gc_visit(&visitor, b)` on its box, and `none` when it calls neither. -/
def markStepTraced (M : Memory) (H : Heap) (stack : TraceStack) :
    Except GCError (Option (Heap × TraceStack × Option GCAllocation)) :=
  let p := stack.pop.1
  let stack := stack.pop.2
  if p = NULL then .ok none
  else if p % 8 ≠ 0 then .error .alignAssert
  else
    let al := GCAllocation.fromUserData p
    if H.isMarked al then .ok (some (H, stack, none))
    else
      let H := H.setMark al
      match H.kind_id al with
      | .UNTRACKED => .ok (some (H, stack, none))
      | .CONSERVATIVE =>
        let bytes := H.kind_data al
        match TraceStackGCVisitor.visitPotentialRange H M p (p + bytes) stack with
        | .error e => .error e
        | .ok stack1 => .ok (some (H, stack1, some al))
      | .PYTHON =>
        let cls := M.word p
        if cls ≠ NULL then
          match M.gc_visit cls with
          | none => .error .gcVisitAssert
          | some gc_visit =>
            match forEach (VisitCall.run H M) (gc_visit p) stack with
            | .error e => .error e
            | .ok stack1 => .ok (some (H, stack1, some al))
        else .ok (some (H, stack, none))
      | .unhandled _ => .error .unhandledKind

/-- The loop `while (void* p = stack.pop()) { ... }` of `markPhase`, with fuel, together with
the allocations whose tracer the iterations have run, in the order of the iterations (also
when the fuel runs out or an assertion fails): the tracer runs appended to `log`, and the
result of the loop as `markLoop` gives it. -/
def markLoopTraced (M : Memory) :
    Nat → Heap → TraceStack → List GCAllocation →
      List GCAllocation × Option (Except GCError Heap)
  | 0, _, _, log => (log, none)
  | fuel + 1, H, stack, log =>
    match markStepTraced M H stack with
    | .error e => (log, some (.error e))
    | .ok none => (log, some (.ok H))
    | .ok (some (H1, stack1, scanned)) =>
      markLoopTraced M fuel H1 stack1 (log ++ scanned.toList)

/-- The worklist `markPhase` has built when it enters its drain loop: a copy of `roots`,
then the stack roots, the static memory ranges and the values of the live handles. -/
def markPhaseRoots (M : Memory) (C : Collector) (candidates : List Nat) (H : Heap) :
    Except GCError TraceStack :=
  match collectStackRoots H candidates C.roots with
  | .error e => .error e
  | .ok stack1 =>
    match forEach (fun (p : Nat × Nat) st =>
        TraceStackGCVisitor.visitPotentialRange H M p.1 p.2 st) C.static_root_memory stack1 with
    | .error e => .error e
    | .ok stack2 =>
      forEach (fun h st => TraceStackGCVisitor.visitPotential H (M.word h) st)
        C.root_handles stack2

/-- The function `static void markPhase()`; `candidates` are the words the stack scanner
enumerates in this cycle. -/
def markPhase (M : Memory) (C : Collector) (candidates : List Nat) (fuel : Nat) (H : Heap) :
    Option (Except GCError Heap) :=
  match markPhaseRoots M C candidates H with
  | .error e => some (.error e)
  | .ok stack => markLoop M fuel H stack

/-- The function `static void sweepPhase()`. -/
def sweepPhase (H : Heap) : Heap := H.freeUnmarked

/-- The function `void runCollection()`: the counter, the mark phase, the sweep phase (the
statistics, the timer and the verbose output have no effect on the collector's state). -/
def runCollection (M : Memory) (candidates : List Nat) (fuel : Nat) (C : Collector)
    (H : Heap) : Option (Except GCError (Collector × Heap)) :=
  let C1 := { C with ncollections := C.ncollections + 1 }
  match markPhase M C1 candidates fuel H with
  | none => none
  | some (.error e) => some (.error e)
  | some (.ok H1) => some (.ok (C1, sweepPhase H1))

/-! ## Specification-side notions -/

/-- The addresses of the pointer-sized slots of the range `[start, end_)`, in ascending
order: `start`, `start + 8`, ... as long as the slot starts before `end_`. -/
def rangeSlots (start end_ : Nat) : List Nat :=
  (List.range ((end_ - start + 7) / 8)).map (fun i => start + 8 * i)

/-- The heap resolves the user-data address of each allocation it resolves to back to that
allocation. -/
def Heap.ResolvesOwnUserData (H : Heap) : Prop :=
  ∀ p a, H.getAllocationFromInteriorPointer p = some a →
    H.getAllocationFromInteriorPointer a.user_data = some a

/-- The entries a conservative visit of the words `ws` pushes: for each word that resolves,
the user-data address of the allocation it resolves to. -/
def potentialTargets (H : Heap) (ws : List Nat) : List Nat :=
  ws.filterMap (fun w => (H.getAllocationFromInteriorPointer w).map GCAllocation.user_data)

/-- The number of addresses of the list `W` whose allocation header reads as unmarked. -/
def unmarkedCount (H : Heap) (W : List Nat) : Nat :=
  W.countP (fun x => !H.isMarked (GCAllocation.fromUserData x))

/-- An address that passes the check of a visitor operation: the heap resolves it, or it is
the address of the member `user_data` of the null `GCAllocation*`. -/
def Heap.Passes (H : Heap) (x : Nat) : Prop :=
  (H.getAllocationFromInteriorPointer x).isSome = true ∨ x = GCAllocation.user_data_offset

/-- An operation on the worklist that, when it returns normally, has only appended entries,
each of them an address that passes the check of a visitor operation. -/
def Appends (H : Heap) (f : TraceStack → Except GCError TraceStack) : Prop :=
  ∀ st st1, f st = .ok st1 → ∃ L, st1.v = st.v ++ L ∧ ∀ x ∈ L, H.Passes x

/-- The allocation the body of the drain loop scans when it runs from the state
`(H, stack)`, if any: the popped allocation, when the pointer is non-null and aligned and the
allocation is unmarked, and it is either a conservative block (its extent is walked) or
typed with its class set and a tracing callback registered (the callback is invoked). -/
def markStepScans (M : Memory) (H : Heap) (stack : TraceStack) : Option GCAllocation :=
  let p := stack.pop.1
  let al := GCAllocation.fromUserData p
  if p = NULL then none
  else if p % 8 ≠ 0 then none
  else if H.isMarked al then none
  else
    match H.kind_id al with
    | .CONSERVATIVE => some al
    | .PYTHON =>
      if M.word p ≠ NULL ∧ (M.gc_visit (M.word p)).isSome then some al else none
    | _ => none

/-- The allocations scanned by the drain loop run with `fuel` from `(H, stack)`, in the order
in which they are scanned. -/
def scanLog (M : Memory) : Nat → Heap → TraceStack → List GCAllocation
  | 0, _, _ => []
  | fuel + 1, H, stack =>
    (markStepScans M H stack).toList ++
      match markStep M H stack with
      | .ok (some (H1, stack1)) => scanLog M fuel H1 stack1
      | _ => []

/-- The allocation `a` is of a shape the drain loop scans: a conservative block, or typed with
its class set and a tracing callback registered. -/
def Scannable (M : Memory) (H : Heap) (a : GCAllocation) : Prop :=
  H.kind_id a = .CONSERVATIVE ∨
    (H.kind_id a = .PYTHON ∧ M.word a.user_data ≠ NULL ∧
      (M.gc_visit (M.word a.user_data)).isSome = true)

/-- The addresses a call on the visitor reports as references: the pointer itself for
`visit`, the slots of a `visitRange`, and for the conservative calls the user-data address of
the allocation each value resolves to. -/
def VisitCall.reported (H : Heap) (M : Memory) : VisitCall → List Nat
  | .visit p => [p]
  | .visitRange start end_ =>
    (List.range ((end_ - start) / 8)).map (fun i => M.word (start + 8 * i))
  | .visitPotential p => potentialTargets H [p]
  | .visitPotentialRange start end_ => potentialTargets H ((rangeSlots start end_).map M.word)

/-- The reported references of the allocation `a`: for a conservative block the allocations
its words resolve to, for a typed allocation with its class set what its tracing callback
reports through the visitor, nothing for the other shapes. -/
def references (H : Heap) (M : Memory) (a : GCAllocation) : List Nat :=
  match H.kind_id a with
  | .CONSERVATIVE =>
    potentialTargets H ((rangeSlots a.user_data (a.user_data + H.kind_data a)).map M.word)
  | .PYTHON =>
    if M.word a.user_data ≠ NULL then
      match M.gc_visit (M.word a.user_data) with
      | some gc_visit => (gc_visit a.user_data).flatMap (VisitCall.reported H M)
      | none => []
    else []
  | _ => []

/-- The roots of a cycle: the pointers registered with `registerStaticRootObj`, and the
allocations resolved from the stack roots, from the words of the registered static memory
ranges and from the current values of the live handles. -/
def rootEntries (H : Heap) (M : Memory) (C : Collector) (candidates : List Nat) : List Nat :=
  C.roots.v ++ potentialTargets H candidates ++
    potentialTargets H
      (C.static_root_memory.flatMap (fun r => (rangeSlots r.1 r.2).map M.word)) ++
    potentialTargets H (C.root_handles.map M.word)

/-- Reachability from the roots of a cycle along chains of reported references. -/
inductive Reachable (H : Heap) (M : Memory) (C : Collector) (candidates : List Nat) :
    GCAllocation → Prop
  | root {p : Nat} : p ∈ rootEntries H M C candidates → Reachable H M C candidates ⟨p⟩
  | reference {a : GCAllocation} {p : Nat} :
    Reachable H M C candidates a → p ∈ references H M a → Reachable H M C candidates ⟨p⟩

/-- The address `p` is exactly the user-data address of an allocation of the heap. -/
def Heap.IsUserData (H : Heap) (p : Nat) : Prop :=
  H.getAllocationFromInteriorPointer p = some ⟨p⟩

/-- A call on the visitor that respects the contract of the precise operations: `visit` is
given, and every slot of a `visitRange` holds, the user-data address of an allocation; the
two slot pointers of a `visitRange` are a whole number of slots apart. -/
def VisitCall.Precise (H : Heap) (M : Memory) : VisitCall → Prop
  | .visit p => H.IsUserData p
  | .visitRange start end_ =>
    (end_ - start) % 8 = 0 ∧ ∀ a ∈ rangeSlots start end_, H.IsUserData (M.word a)
  | .visitPotential _ => True
  | .visitPotentialRange _ _ => True

/-- The contract between the collector and its collaborators: the heap resolves the user-data
address of each allocation to that allocation, never resolves the null address, manages the
allocations it resolves to, which are 8-byte aligned and of a known shape; and a typed
allocation whose class is set has a tracing callback, which makes contract-respecting
calls. -/
structure WellFormed (H : Heap) (M : Memory) : Prop where
  own : H.ResolvesOwnUserData
  null : H.getAllocationFromInteriorPointer NULL = none
  managed : ∀ p a, H.getAllocationFromInteriorPointer p = some a → a ∈ H.allocs
  aligned : ∀ p a, H.getAllocationFromInteriorPointer p = some a → a.user_data % 8 = 0
  kinds : ∀ p a, H.getAllocationFromInteriorPointer p = some a →
    H.kind_id a = .PYTHON ∨ H.kind_id a = .CONSERVATIVE ∨ H.kind_id a = .UNTRACKED
  callbacks : ∀ p a, H.getAllocationFromInteriorPointer p = some a →
    H.kind_id a = .PYTHON → M.word a.user_data ≠ NULL →
    ∃ gc_visit, M.gc_visit (M.word a.user_data) = some gc_visit ∧
      ∀ c ∈ gc_visit a.user_data, c.Precise H M

/-- Successive calls of `runCollection()`, one for each element of `cycles` (the words the
stack scanner enumerates in that cycle), with nothing happening in between: the states after
each call, in order. -/
def runCollections (M : Memory) (fuel : Nat) :
    List (List Nat) → Collector → Heap → Option (Except GCError (List (Collector × Heap)))
  | [], _, _ => some (.ok [])
  | candidates :: cycles, C, H =>
    match runCollection M candidates fuel C H with
    | none => none
    | some (.error e) => some (.error e)
    | some (.ok (C1, H1)) =>
      match runCollections M fuel cycles C1 H1 with
      | none => none
      | some (.error e) => some (.error e)
      | some (.ok states) => some (.ok ((C1, H1) :: states))

/-- The state from which a cycle of the collector starts when every contract is respected: the
heap and the callbacks are well formed, the registered roots are user-data addresses of
allocations, and no managed allocation is marked. -/
def CycleReady (M : Memory) (C : Collector) (H : Heap) : Prop :=
  WellFormed H M ∧ (∀ p ∈ C.roots.v, H.IsUserData p) ∧ (∀ a ∈ H.allocs, H.isMarked a = false)

/-- No byte of the range `[start, end_)` belongs to a managed allocation: the heap resolves
none of its addresses. -/
def NoByteManaged (H : Heap) (start end_ : Nat) : Prop :=
  ∀ b, start ≤ b → b < end_ → H.getAllocationFromInteriorPointer b = none

/-- The assignment `void operator=(Box* b) { value = b; }` of the handle at address `this`:
the memory in which the word of the handle is `b`. -/
def StaticRootHandle.assign (M : Memory) (this b : Nat) : Memory :=
  { M with word := fun a => if a = this then b else M.word a }

/-- The construction or the destruction of the handle at an address. -/
inductive HandleEvent where
  | construct (this : Nat)
  | destruct (this : Nat)
deriving DecidableEq

/-- The effect of one construction or destruction on the state of the collector. -/
def HandleEvent.apply (C : Collector) : HandleEvent → Collector
  | .construct this => StaticRootHandle.construct C this
  | .destruct this => StaticRootHandle.destruct C this

/-- The state of the collector after a sequence of constructions and destructions. -/
def handleEvents (C : Collector) (events : List HandleEvent) : Collector :=
  events.foldl HandleEvent.apply C

/-- The handle `h` has been constructed and not yet destroyed: some event constructs it and
no later event destroys it, or it was live at the start and no event destroys it. -/
def ConstructedNotDestroyed (live : List Nat) (events : List HandleEvent) (h : Nat) : Prop :=
  (∃ before after, events = before ++ HandleEvent.construct h :: after ∧
      HandleEvent.destruct h ∉ after) ∨
    (h ∈ live ∧ HandleEvent.destruct h ∉ events)

/-- The addresses of the pointer-sized words that lie entirely inside `[p, p + n)`: `p`,
`p + 8`, ..., as long as the whole word ends at or before `p + n`; there are `n / 8`. -/
def wordsInside (p n : Nat) : List Nat :=
  (List.range (n / 8)).map (fun i => p + 8 * i)

/-- Reachability from the entries of a worklist along chains of reported references. -/
inductive ReachableFrom (H : Heap) (M : Memory) (entries : List Nat) : GCAllocation → Prop
  | entry {p : Nat} : p ∈ entries → ReachableFrom H M entries ⟨p⟩
  | reference {a : GCAllocation} {p : Nat} :
    ReachableFrom H M entries a → p ∈ references H M a → ReachableFrom H M entries ⟨p⟩

/-- The entries the drain loop pushes when it scans the unmarked allocation at the non-null
address `p`, or the assertion that fails: the alignment assertion, then the dispatch on the
shape-kind, run on an empty worklist. -/
def scanPushes (M : Memory) (H : Heap) (p : Nat) : Except GCError (List Nat) :=
  if p % 8 ≠ 0 then .error .alignAssert
  else
    match H.kind_id ⟨p⟩ with
    | .UNTRACKED => .ok []
    | .CONSERVATIVE =>
      match TraceStackGCVisitor.visitPotentialRange H M p (p + H.kind_data ⟨p⟩) ⟨[]⟩ with
      | .error e => .error e
      | .ok stack1 => .ok stack1.v
    | .PYTHON =>
      if M.word p ≠ NULL then
        match M.gc_visit (M.word p) with
        | none => .error .gcVisitAssert
        | some gc_visit =>
          match forEach (VisitCall.run H M) (gc_visit p) ⟨[]⟩ with
          | .error e => .error e
          | .ok stack1 => .ok stack1.v
      else .ok []
    | .unhandled _ => .error .unhandledKind

/-- Reachability of an address from the entries of a worklist along the entries that scanning
pushes. -/
inductive PushReachable (M : Memory) (H : Heap) (entries : List Nat) : Nat → Prop
  | entry {p : Nat} : p ∈ entries → PushReachable M H entries p
  | push {p q : Nat} {L : List Nat} :
    PushReachable M H entries p → scanPushes M H p = .ok L → q ∈ L →
    PushReachable M H entries q

/-- An operation on the worklist whose outcome does not depend on the worklist it is given:
it fails, or it appends the entries it appends to the empty worklist. -/
def Framed (f : TraceStack → Except GCError TraceStack) : Prop :=
  ∀ st, f st =
    match f ⟨[]⟩ with
    | .error e => .error e
    | .ok s0 => .ok ⟨st.v ++ s0.v⟩

/-- The effect of `n` successive calls of `pop()`: the pointers returned, in the order of the
calls, and the stack that is left. -/
def TraceStack.popN : Nat → TraceStack → List Nat × TraceStack
  | 0, s => ([], s)
  | n + 1, s => ((s.pop.1) :: (TraceStack.popN n s.pop.2).1, (TraceStack.popN n s.pop.2).2)

/-- The values of the slots that `pushall(start, end)` copies, in ascending address order. -/
def pushallSlots (M : Memory) (start end_ : Nat) : List Nat :=
  (List.range ((end_ - start) / 8)).map (fun i => M.word (start + 8 * i))

/-! ## A small heap used to instantiate the theorems

Three allocations: `X` at 16 (typed, its class object at 1000 reports one reference, to `Y`),
`Y` at 32 (a conservative block of 16 bytes holding no pointer) and `Z` at 48 (untracked),
16 bytes each.  The words at 200 and 208 hold an interior pointer of `Y` and a non-pointer. -/

/-- The registry of the example: three 16-byte allocations, nothing marked. -/
def exHeap : Heap where
  allocs := [⟨16⟩, ⟨32⟩, ⟨48⟩]
  getAllocationFromInteriorPointer := fun p =>
    if 16 ≤ p ∧ p < 32 then some ⟨16⟩
    else if 32 ≤ p ∧ p < 48 then some ⟨32⟩
    else if 48 ≤ p ∧ p < 64 then some ⟨48⟩
    else none
  kind_id := fun a =>
    if a.user_data = 16 then .PYTHON else if a.user_data = 32 then .CONSERVATIVE else .UNTRACKED
  kind_data := fun a => if a.user_data = 32 then 16 else 0
  isMarked := fun _ => false

/-- The memory of the example. -/
def exMemory : Memory where
  word := fun a => if a = 16 then 1000 else if a = 200 then 40 else if a = 208 then 7 else 0
  gc_visit := fun cls => if cls = 1000 then some (fun _ => [VisitCall.visit 32]) else none

/-- A heap with a cycle: the conservative blocks `A` at 16 and `B` at 32, 8 bytes each. -/
def cycHeap : Heap where
  allocs := [⟨16⟩, ⟨32⟩]
  getAllocationFromInteriorPointer := fun p =>
    if 16 ≤ p ∧ p < 24 then some ⟨16⟩
    else if 32 ≤ p ∧ p < 40 then some ⟨32⟩
    else none
  kind_id := fun _ => .CONSERVATIVE
  kind_data := fun _ => 8
  isMarked := fun _ => false

/-- The memory of the cycle: the word of `A` points to `B`, the word of `B` to `A`. -/
def cycMemory : Memory where
  word := fun a => if a = 16 then 32 else if a = 32 then 16 else 0
  gc_visit := fun _ => none

/-- The collector state of the example: `X` is registered as a permanent root. -/
def exCollector : Collector := ⟨⟨[16]⟩, [], [], 0⟩

/-- A memory for the example heap in which the class of `X`, at 2000, has no tracing callback
registered. -/
def exMemoryNoVisit : Memory where
  word := fun a => if a = 16 then 2000 else 0
  gc_visit := fun _ => none

/-- The example heap with the recorded length of the conservative block `Y` set to 12 bytes,
which is not a multiple of 8. -/
def oddHeap : Heap :=
  { exHeap with kind_data := fun a => if a.user_data = 32 then 12 else 0 }

/-- A memory in which the second word of `Y`, at 40, holds the address of `Z`. -/
def oddMemory : Memory where
  word := fun a => if a = 40 then 48 else 0
  gc_visit := fun _ => none

/-- A memory for the example heap in which the tracing callback of the class of `X` calls
`visitRange` on the slot at 200, which holds 40, a pointer into the interior of `Y`. -/
def exMemoryRange : Memory where
  word := fun a => if a = 16 then 3000 else if a = 200 then 40 else 0
  gc_visit := fun cls =>
    if cls = 3000 then some (fun _ => [VisitCall.visitRange 200 208]) else none

/-- The memory of the cycle with a handle at address 300 that holds `A`. -/
def cycMemoryHandle : Memory := StaticRootHandle.assign cycMemory 300 16

/-- The collector state of the cycle: the handle at 300 is the only root. -/
def cycCollector : Collector := ⟨⟨[]⟩, [], [300], 0⟩

end gc

/-! ## The runtime functions of `src/runtime/dict.cpp` and `src/runtime/capi.cpp`

Boxes are addressed by natural numbers, `NULL` is `0`.  A raised Python exception and a failed
assertion are an `Except.error`. -/

/-- The kind of a raised Python exception; the message is not modelled. -/
inductive ExcKind where
  | TypeError
  | ValueError
  | KeyError
  | other (id : Nat)
deriving DecidableEq

/-- The ways a runtime function stops abnormally. -/
inductive PyErr where
  /-- The call `raiseExcHelper(kind, ...)`. -/
  | raised (kind : ExcKind)
  /-- A failed `assert` or `RELEASE_ASSERT`. -/
  | assertion
  /-- The call `va_arg` on an argument list that has no argument left. -/
  | vaArg
deriving DecidableEq

/-- The object model of `runtime/types.h` and `runtime/objmodel.h`, as far as `dict.cpp` and
`capi.cpp` use it, taken as a parameter of the runtime functions: the classes, the
class of a box, the subclass test, the elements of a tuple and of a list, what iterating a
box yields (the elements, then the end of the iteration or a raised exception), and the key
class of a box, two boxes being the same dictionary key (`PyHasher`, `PyEq`) exactly when
their key classes are equal. -/
structure Runtime where
  type_cls : Nat
  dict_cls : Nat
  list_cls : Nat
  tuple_cls : Nat
  str_cls : Nat
  /-- The field `b->cls`. -/
  cls : Nat → Nat
  /-- The function `isSubclass(child, parent)`. -/
  isSubclass : Nat → Nat → Bool
  /-- The vector `elts` of a `BoxedTuple`. -/
  tupleElts : Nat → List Nat
  /-- The `size` elements `elts->elts[0]`, ... of a `BoxedList`. -/
  listElts : Nat → List Nat
  /-- The range `b->pyElements()`: the elements it yields, then `none` when the iteration
  ends or the exception it raises (at once for a box that is not iterable). -/
  pyElements : Nat → List Nat × Option ExcKind
  /-- The class of a box as a dictionary key. -/
  keyOf : Nat → Nat

/-- The type `BoxedDict::DictMap`, an unordered map from boxes to boxes: its entries, in
iteration order. -/
abbrev DictMap := List (Nat × Nat)

/-- The call `d.find(k)`: the entry whose key is the same key as `k`, `none` for `d.end()`. -/
def DictMap.find (R : Runtime) (d : DictMap) (k : Nat) : Option (Nat × Nat) :=
  List.find? (fun e => decide (R.keyOf e.1 = R.keyOf k)) d

/-- The call `d.erase(it)` for the iterator `it = d.find(k)`. -/
def DictMap.erase (R : Runtime) (d : DictMap) (k : Nat) : DictMap :=
  List.eraseP (fun e => decide (R.keyOf e.1 = R.keyOf k)) d

/-- The assignment `d[k] = v`: the value of the entry with the same key is replaced, and when
there is none the entry `(k, v)` is added. -/
def DictMap.set (R : Runtime) : DictMap → Nat → Nat → DictMap
  | [], k, v => [(k, v)]
  | e :: es, k, v =>
    if R.keyOf e.1 = R.keyOf k then (e.1, v) :: es else e :: DictMap.set R es k v

/-- The class `BoxedDict`: its class and its map `d`. -/
structure BoxedDict where
  cls : Nat
  d : DictMap

/-- The function `Box* dictPop(BoxedDict* self, Box* k, Box* d)`: what it returns or raises,
and `self` afterwards. -/
def dictPop (R : Runtime) (self : BoxedDict) (k d : Nat) : Except PyErr Nat × BoxedDict :=
  if self.cls ≠ R.dict_cls then (.error .assertion, self)
  else
    match DictMap.find R self.d k with
    | none =>
      if d ≠ 0 then (.ok d, self)
      else (.error (.raised .KeyError), self)
    | some it => (.ok it.2, { self with d := DictMap.erase R self.d k })

/-- The body of the loop of `dictNew` over the elements of the positional argument, for the
elements that are left. -/
def dictNewElements (R : Runtime) : List Nat → DictMap → Except PyErr DictMap
  | [], r => .ok r
  | element :: rest, r =>
    if R.cls element = R.list_cls then
      if (R.listElts element).length ≠ 2 then .error (.raised .ValueError)
      else
        dictNewElements R rest
          (DictMap.set R r ((R.listElts element).getD 0 0) ((R.listElts element).getD 1 0))
    else if R.cls element = R.tuple_cls then
      if (R.tupleElts element).length ≠ 2 then .error (.raised .ValueError)
      else
        dictNewElements R rest
          (DictMap.set R r ((R.tupleElts element).getD 0 0) ((R.tupleElts element).getD 1 0))
    else .error (.raised .TypeError)

/-- The loop `for (const auto& p : kwargs->d) r->d[p.first] = p.second;` of `dictNew`. -/
def dictNewKwargs (R : Runtime) : DictMap → DictMap → DictMap
  | [], r => r
  | p :: rest, r => dictNewKwargs R rest (DictMap.set R r p.1 p.2)

/-- The function `Box* dictNew(Box* _cls, BoxedTuple* args, BoxedDict* kwargs)`: the new
dictionary it returns. -/
def dictNew (R : Runtime) (_cls args : Nat) (kwargs : BoxedDict) : Except PyErr BoxedDict :=
  if ¬ R.isSubclass (R.cls _cls) R.type_cls then .error (.raised .TypeError)
  else if ¬ R.isSubclass _cls R.dict_cls then .error (.raised .TypeError)
  else if _cls ≠ R.dict_cls then .error .assertion
  else
    let args_sz := (R.tupleElts args).length
    if args_sz > 1 then .error (.raised .TypeError)
    else
      let positional : Except PyErr DictMap :=
        if args_sz = 1 then
          match dictNewElements R (R.pyElements ((R.tupleElts args).getD 0 0)).1 [] with
          | .error e => .error e
          | .ok r =>
            match (R.pyElements ((R.tupleElts args).getD 0 0)).2 with
            | some kind => .error (.raised kind)
            | none => .ok r
        else .ok []
      match positional with
      | .error e => .error e
      | .ok r =>
        if kwargs.cls ≠ R.dict_cls then .error .assertion
        else .ok ⟨R.dict_cls, dictNewKwargs R kwargs.d r⟩

/-- A store that `vPyArg_ParseTuple` makes through a pointer taken from its argument list. -/
inductive ArgStore where
  /-- The assignment `*p = arg` of the format unit `O`. -/
  | object (p arg : Nat)
  /-- The call `PyBuffer_FillInfo(p, arg, ...)` of the format unit `s*`, for `p` not null. -/
  | buffer (p arg : Nat)
deriving DecidableEq

/-- The expression `tuple->elts[arg_idx]`, for `arg_idx` less than the size of the tuple. -/
def tupleElt (R : Runtime) (tuple arg_idx : Nat) : Nat :=
  (R.tupleElts tuple).getD arg_idx 0

/-- The loop `while (char c = *fmt)` of `vPyArg_ParseTuple`, from the characters of the format
that are left (the list ends where the terminating zero is), `now_optional`, `arg_idx`, the
arguments that are left and the stores made so far; the local `arg` is
`tupleElt R tuple arg_idx`.  A unit `s` followed by `:` leaves the `switch` without moving
`fmt`, so that the next iteration reads the `:` and leaves the loop. -/
def vPyArg_ParseTupleLoop (R : Runtime) (tuple : Nat) :
    List Char → Bool → Nat → List Nat → List ArgStore → Except PyErr (List ArgStore)
  | [], _, _, _, stores => .ok stores
  | c :: fmt, now_optional, arg_idx, ap, stores =>
    if c = Char.ofNat 0 then .ok stores
    else if c = ':' then .ok stores
    else if c = '|' then vPyArg_ParseTupleLoop R tuple fmt true arg_idx ap stores
    else if arg_idx ≥ (R.tupleElts tuple).length then
      if now_optional then .ok stores else .error .assertion
    else if c = 's' then
      match fmt with
      | [] => .error .assertion
      | c1 :: fmt1 =>
        if c1 = '*' then
          match ap with
          | [] => .error .vaArg
          | p :: ap1 =>
            if R.cls (tupleElt R tuple arg_idx) ≠ R.str_cls then .error .assertion
            else
              vPyArg_ParseTupleLoop R tuple fmt1 now_optional arg_idx ap1
                (if p = 0 then stores
                 else stores ++ [ArgStore.buffer p (tupleElt R tuple arg_idx)])
        else if c1 = ':' then .ok stores
        else .error .assertion
    else if c = 'O' then
      match ap with
      | [] => .error .vaArg
      | p :: ap1 =>
        vPyArg_ParseTupleLoop R tuple fmt now_optional arg_idx ap1
          (stores ++ [ArgStore.object p (tupleElt R tuple arg_idx)])
    else .error .assertion

/-- The function `int vPyArg_ParseTuple(PyObject* _tuple, const char* fmt, va_list ap)`: the
value it returns and the stores it has made. -/
def vPyArg_ParseTuple (R : Runtime) (_tuple : Nat) (fmt : List Char) (ap : List Nat) :
    Except PyErr (Int × List ArgStore) :=
  if R.cls _tuple ≠ R.tuple_cls then .error .assertion
  else
    match vPyArg_ParseTupleLoop R _tuple fmt false 0 ap [] with
    | .error e => .error e
    | .ok stores => .ok (1, stores)

/-- The function `int PyArg_ParseTuple(PyObject* _tuple, const char* fmt, ...)`. -/
def PyArg_ParseTuple (R : Runtime) (_tuple : Nat) (fmt : List Char) (ap : List Nat) :
    Except PyErr (Int × List ArgStore) :=
  vPyArg_ParseTuple R _tuple fmt ap

/-! ### Notions of the specification of the runtime functions -/

/-- The value a map holds for a key: the value of the entry `d.find(k)`, if there is one. -/
def DictMap.lookup (R : Runtime) (d : DictMap) (k : Nat) : Option Nat :=
  (DictMap.find R d k).map Prod.snd

/-- The key classes of the entries of a map, in iteration order. -/
def DictMap.keys (R : Runtime) (d : DictMap) : List Nat :=
  d.map (fun e => R.keyOf e.1)

/-- The invariant of an unordered map: no two entries have the same key. -/
def DictMap.UniqueKeys (R : Runtime) (d : DictMap) : Prop :=
  (DictMap.keys R d).Nodup

instance (R : Runtime) (d : DictMap) : Decidable (DictMap.UniqueKeys R d) := by
  unfold DictMap.UniqueKeys; infer_instance

/-- The key and the value that a two-element list or tuple stands for. -/
def updatePair (R : Runtime) (element : Nat) : Nat × Nat :=
  if R.cls element = R.list_cls then
    ((R.listElts element).getD 0 0, (R.listElts element).getD 1 0)
  else ((R.tupleElts element).getD 0 0, (R.tupleElts element).getD 1 0)

/-- An element is a list of two elements or a tuple of two elements. -/
def IsPair (R : Runtime) (element : Nat) : Prop :=
  (R.cls element = R.list_cls ∧ (R.listElts element).length = 2) ∨
    (R.cls element = R.tuple_cls ∧ (R.tupleElts element).length = 2)

instance (R : Runtime) (element : Nat) : Decidable (IsPair R element) := by
  unfold IsPair; infer_instance

/-- An element is a list or a tuple whose length is not two. -/
def IsBadLength (R : Runtime) (element : Nat) : Prop :=
  (R.cls element = R.list_cls ∧ (R.listElts element).length ≠ 2) ∨
    (R.cls element = R.tuple_cls ∧ (R.tupleElts element).length ≠ 2)

instance (R : Runtime) (element : Nat) : Decidable (IsBadLength R element) := by
  unfold IsBadLength; infer_instance

/-- The value of the last pair of a sequence that carries the key `k`. -/
def lastValue (R : Runtime) : List (Nat × Nat) → Nat → Option Nat
  | [], _ => none
  | p :: rest, k =>
    match lastValue R rest k with
    | some v => some v
    | none => if R.keyOf p.1 = R.keyOf k then some p.2 else none

/-- The format string made of `n` units `O`. -/
def formatO (n : Nat) : List Char :=
  List.replicate n 'O'

/-- The stores that give the `i`-th element of `elts` to the `i`-th pointer of `ps`. -/
def storesInOrder : List Nat → List Nat → List ArgStore
  | p :: ps, arg :: elts => ArgStore.object p arg :: storesInOrder ps elts
  | _, _ => []

/-! ### A small runtime used to instantiate the theorems

The classes are the boxes `1` to `5`.  The tuples are `10 = (20, 21)`, `11 = (30,)`,
`12 = (120, 22)`, `14 = (30, 30)`, `16 = (20,)` and `17 = (31,)`, the list is `15 = [25, 26]`.
Iterating `30` yields `10, 15, 12`, iterating `31` yields `10, 16`, and no other box is
iterable.  Two boxes are the same key when they agree modulo `100`. -/

def exRuntime : Runtime where
  type_cls := 1
  dict_cls := 2
  list_cls := 3
  tuple_cls := 4
  str_cls := 5
  cls := fun b =>
    if b ≤ 5 then 1
    else if b = 15 then 3
    else if b < 20 then 4
    else 5
  isSubclass := fun child parent => decide (child = parent)
  tupleElts := fun b =>
    if b = 10 then [20, 21]
    else if b = 11 then [30]
    else if b = 12 then [120, 22]
    else if b = 14 then [30, 30]
    else if b = 16 then [20]
    else if b = 17 then [31]
    else []
  listElts := fun b => if b = 15 then [25, 26] else []
  pyElements := fun b =>
    if b = 30 then ([10, 15, 12], none)
    else if b = 31 then ([10, 16], none)
    else ([], some ExcKind.TypeError)
  keyOf := fun b => b % 100

/-- The keyword dictionary `\x7b25: 40, 27: 41\x7d`. -/
def exKwargs : BoxedDict :=
  ⟨2, [(25, 40), (27, 41)]⟩

/-- The dictionary `\x7b20: 21, 25: 26, 27: 28\x7d`. -/
def exDict : BoxedDict :=
  ⟨2, [(20, 21), (25, 26), (27, 28)]⟩

namespace gc

theorem exHeap_resolvesOwnUserData : exHeap.ResolvesOwnUserData := by
  intro p a h
  simp only [exHeap] at h
  split_ifs at h <;> simp only [Option.some.injEq, reduceCtorEq] at h <;> subst h <;> rfl

/-! ## Lemmas on the visitor -/

theorem rangeSlots_of_le {start end_ : Nat} (h : end_ ≤ start) : rangeSlots start end_ = [] := by
  have h0 : (end_ - start + 7) / 8 = 0 := by omega
  simp [rangeSlots, h0]

theorem rangeSlots_of_lt {start end_ : Nat} (h : start < end_) :
    rangeSlots start end_ = start :: rangeSlots (start + 8) end_ := by
  have h0 : (end_ - start + 7) / 8 = (end_ - (start + 8) + 7) / 8 + 1 := by omega
  simp only [rangeSlots, h0, List.range_succ_eq_map, List.map_cons, List.map_map]
  refine congrArg₂ _ (by simp) (List.map_congr_left ?_)
  intro i _
  simp only [Function.comp, Nat.succ_eq_add_one]
  ring

theorem mem_rangeSlots {start end_ a : Nat} :
    a ∈ rangeSlots start end_ ↔ ∃ i, a = start + 8 * i ∧ a < end_ := by
  simp only [rangeSlots, List.mem_map, List.mem_range]
  constructor
  · rintro ⟨i, hi, rfl⟩
    exact ⟨i, rfl, by omega⟩
  · rintro ⟨i, rfl, hlt⟩
    exact ⟨i, by omega, rfl⟩

theorem visitPotentialRangeLoop_eq_forEach (H : Heap) (M : Memory) (end_ : Nat) :
    ∀ (n : Nat) (start : Nat) (stack : TraceStack), end_ - start ≤ n →
      TraceStackGCVisitor.visitPotentialRangeLoop H M n start end_ stack =
        forEach (fun a st => TraceStackGCVisitor.visitPotential H (M.word a) st)
          (rangeSlots start end_) stack := by
  intro n
  induction n with
  | zero =>
    intro start stack h
    rw [rangeSlots_of_le (by omega)]
    rfl
  | succ n ih =>
    intro start stack h
    by_cases hlt : start < end_
    · rw [rangeSlots_of_lt hlt]
      simp only [TraceStackGCVisitor.visitPotentialRangeLoop, hlt, if_true, forEach]
      cases TraceStackGCVisitor.visitPotential H (M.word start) stack with
      | error e => rfl
      | ok stack1 => exact ih (start + 8) stack1 (by omega)
    · rw [rangeSlots_of_le (by omega)]
      simp [TraceStackGCVisitor.visitPotentialRangeLoop, hlt, forEach]

theorem visitPotentialRange_eq_forEach (H : Heap) (M : Memory) (start end_ : Nat)
    (stack : TraceStack) :
    TraceStackGCVisitor.visitPotentialRange H M start end_ stack =
      forEach (fun a st => TraceStackGCVisitor.visitPotential H (M.word a) st)
        (rangeSlots start end_) stack :=
  visitPotentialRangeLoop_eq_forEach H M end_ (end_ - start) start stack le_rfl

theorem visit_of_resolves_self {H : Heap} {p : Nat} (stack : TraceStack)
    (h : H.getAllocationFromInteriorPointer p = some ⟨p⟩) :
    TraceStackGCVisitor.visit H p stack = .ok (stack.push p) := by
  simp [TraceStackGCVisitor.visit, GCAllocation.user_data_of, h]

theorem visitPotential_of_resolves {H : Heap} (hH : H.ResolvesOwnUserData) {p : Nat}
    {a : GCAllocation} (stack : TraceStack) (h : H.getAllocationFromInteriorPointer p = some a) :
    TraceStackGCVisitor.visitPotential H p stack = .ok (stack.push a.user_data) := by
  simp [TraceStackGCVisitor.visitPotential, h, TraceStackGCVisitor.visit,
    GCAllocation.user_data_of, hH p a h]

theorem visitPotential_of_unresolved {H : Heap} {p : Nat} (stack : TraceStack)
    (h : H.getAllocationFromInteriorPointer p = none) :
    TraceStackGCVisitor.visitPotential H p stack = .ok stack := by
  simp [TraceStackGCVisitor.visitPotential, h]

theorem forEach_visitPotential {H : Heap} (hH : H.ResolvesOwnUserData) {α : Type}
    (f : α → Nat) :
    ∀ (xs : List α) (stack : TraceStack),
      forEach (fun x st => TraceStackGCVisitor.visitPotential H (f x) st) xs stack =
        .ok ⟨stack.v ++ potentialTargets H (xs.map f)⟩ := by
  intro xs
  induction xs with
  | nil => intro stack; simp [forEach, potentialTargets]
  | cons x xs ih =>
    intro stack
    cases hr : H.getAllocationFromInteriorPointer (f x) with
    | none =>
      simp only [forEach, visitPotential_of_unresolved stack hr, ih]
      simp [potentialTargets, List.filterMap_cons, hr]
    | some a =>
      simp only [forEach, visitPotential_of_resolves hH stack hr, ih]
      simp [potentialTargets, List.filterMap_cons, hr, TraceStack.push]

/-! ## Lemmas on the worklist and the drain loop -/

theorem TraceStack.pop_snoc (v : List Nat) (p : Nat) :
    TraceStack.pop ⟨v ++ [p]⟩ = (p, ⟨v⟩) := by
  simp [TraceStack.pop, List.getLastD_eq_getLast?]

theorem TraceStack.pop_nil : TraceStack.pop ⟨[]⟩ = (NULL, ⟨[]⟩) := rfl

theorem visit_eq_ok (H : Heap) (p : Nat) (stack stack1 : TraceStack) :
    TraceStackGCVisitor.visit H p stack = .ok stack1 ↔
      ((∃ a, H.getAllocationFromInteriorPointer p = some a ∧ a.user_data = p) ∨
          (H.getAllocationFromInteriorPointer p = none ∧ p = GCAllocation.user_data_offset)) ∧
        stack1.v = stack.v ++ [p] := by
  have hst : stack.push p = stack1 ↔ stack1.v = stack.v ++ [p] := by
    cases stack1
    simp only [TraceStack.push, TraceStack.mk.injEq]
    exact eq_comm
  cases hr : H.getAllocationFromInteriorPointer p with
  | none =>
    by_cases hp : GCAllocation.user_data_offset = p
    · simp [TraceStackGCVisitor.visit, GCAllocation.user_data_of, hr, NULL, hp, hst]
    · have hp2 : ¬ p = GCAllocation.user_data_offset := fun h => hp h.symm
      simp [TraceStackGCVisitor.visit, GCAllocation.user_data_of, hr, NULL, hp, hp2]
  | some a =>
    by_cases hp : a.user_data = p
    · simp [TraceStackGCVisitor.visit, GCAllocation.user_data_of, hr, hp, hst]
    · simp [TraceStackGCVisitor.visit, GCAllocation.user_data_of, hr, hp]

theorem Heap.Passes.nonnull {H : Heap} (h0 : H.getAllocationFromInteriorPointer 0 = none)
    {x : Nat} (h : H.Passes x) : x ≠ 0 := by
  rintro rfl
  rcases h with h | h
  · simp [h0] at h
  · simp [GCAllocation.user_data_offset] at h

theorem visit_appends (H : Heap) (p : Nat) : Appends H (TraceStackGCVisitor.visit H p) := by
  intro st st1 h
  obtain ⟨hc, hv⟩ := (visit_eq_ok H p st st1).1 h
  refine ⟨[p], hv, ?_⟩
  intro x hx
  simp only [List.mem_singleton] at hx
  subst hx
  rcases hc with ⟨a, ha, _⟩ | ⟨_, hp⟩
  · exact Or.inl (by simp [ha])
  · exact Or.inr hp

theorem visitPotential_appends (H : Heap) (p : Nat) :
    Appends H (TraceStackGCVisitor.visitPotential H p) := by
  intro st st1 h
  cases hr : H.getAllocationFromInteriorPointer p with
  | none =>
    rw [visitPotential_of_unresolved st hr] at h
    cases h
    exact ⟨[], by simp, by simp⟩
  | some a =>
    simp only [TraceStackGCVisitor.visitPotential, hr] at h
    exact visit_appends H a.user_data st st1 h

theorem forEach_appends (H : Heap) {α : Type}
    (body : α → TraceStack → Except GCError TraceStack) (xs : List α)
    (hbody : ∀ x ∈ xs, Appends H (body x)) : Appends H (forEach body xs) := by
  induction xs with
  | nil =>
    intro st st1 h
    simp only [forEach, Except.ok.injEq] at h
    subst h
    exact ⟨[], by simp, by simp⟩
  | cons x xs ih =>
    intro st st1 h
    simp only [forEach] at h
    cases hx : body x st with
    | error e => simp [hx] at h
    | ok st2 =>
      simp only [hx] at h
      obtain ⟨L1, hL1, hv1⟩ := hbody x (List.mem_cons_self x xs) st st2 hx
      obtain ⟨L2, hL2, hv2⟩ := ih (fun y hy => hbody y (List.mem_cons_of_mem x hy)) st2 st1 h
      refine ⟨L1 ++ L2, by rw [hL2, hL1, List.append_assoc], ?_⟩
      intro y hy
      rcases List.mem_append.1 hy with hy | hy
      · exact hv1 y hy
      · exact hv2 y hy

theorem visitPotentialRange_appends (H : Heap) (M : Memory) (start end_ : Nat) :
    Appends H (TraceStackGCVisitor.visitPotentialRange H M start end_) := by
  intro st st1 h
  rw [visitPotentialRange_eq_forEach] at h
  exact forEach_appends H _ _ (fun a _ => visitPotential_appends H (M.word a)) st st1 h

theorem visitRangeCheck_ok (H : Heap) (M : Memory) (end_ : Nat) :
    ∀ (n cur : Nat), end_ - cur ≤ n →
      TraceStackGCVisitor.visitRangeCheck H M n cur end_ = .ok () →
      ∀ a ∈ rangeSlots cur end_, TraceStackGCVisitor.isValid H (M.word a) = true := by
  intro n
  induction n with
  | zero =>
    intro cur hn _ a ha
    rw [rangeSlots_of_le (by omega)] at ha
    simp at ha
  | succ n ih =>
    intro cur hn h a ha
    by_cases hlt : cur < end_
    · rw [rangeSlots_of_lt hlt] at ha
      simp only [TraceStackGCVisitor.visitRangeCheck, hlt, if_true] at h
      by_cases hv : TraceStackGCVisitor.isValid H (M.word cur) = true
      · simp only [hv, if_true] at h
        rcases List.mem_cons.1 ha with rfl | ha
        · exact hv
        · exact ih (cur + 8) (by omega) h a ha
      · simp [hv] at h
    · rw [rangeSlots_of_le (by omega)] at ha
      simp at ha

theorem visitRange_appends (H : Heap) (M : Memory) (start end_ : Nat) :
    Appends H (TraceStackGCVisitor.visitRange H M start end_) := by
  intro st st1 h
  simp only [TraceStackGCVisitor.visitRange] at h
  cases hc : TraceStackGCVisitor.visitRangeCheck H M (end_ - start) start end_ with
  | error e => simp [hc] at h
  | ok u =>
    simp only [hc, Except.ok.injEq] at h
    subst h
    refine ⟨_, rfl, ?_⟩
    intro x hx
    obtain ⟨i, hi, rfl⟩ := List.mem_map.1 hx
    have hi' := List.mem_range.1 hi
    exact Or.inl (visitRangeCheck_ok H M end_ (end_ - start) start le_rfl hc (start + 8 * i)
      (mem_rangeSlots.2 ⟨i, rfl, by omega⟩))

theorem VisitCall.run_appends (H : Heap) (M : Memory) (c : VisitCall) :
    Appends H (VisitCall.run H M c) := by
  cases c with
  | visit p => exact visit_appends H p
  | visitRange s e => exact visitRange_appends H M s e
  | visitPotential p => exact visitPotential_appends H p
  | visitPotentialRange s e => exact visitPotentialRange_appends H M s e

theorem markStep_nil (M : Memory) (H : Heap) : markStep M H ⟨[]⟩ = .ok none := rfl

theorem markStep_snoc_null (M : Memory) (H : Heap) (v : List Nat) :
    markStep M H ⟨v ++ [0]⟩ = .ok none := by
  simp [markStep, TraceStack.pop_snoc, NULL]

theorem markStep_snoc_misaligned (M : Memory) (H : Heap) (v : List Nat) {p : Nat}
    (hp : p ≠ 0) (hal : p % 8 ≠ 0) : markStep M H ⟨v ++ [p]⟩ = .error .alignAssert := by
  simp [markStep, TraceStack.pop_snoc, NULL, hp, hal]

theorem markStep_snoc_marked (M : Memory) (H : Heap) (v : List Nat) {p : Nat}
    (hp : p ≠ 0) (hal : p % 8 = 0) (hm : H.isMarked ⟨p⟩ = true) :
    markStep M H ⟨v ++ [p]⟩ = .ok (some (H, ⟨v⟩)) := by
  simp [markStep, TraceStack.pop_snoc, NULL, hp, hal, GCAllocation.fromUserData, hm]

theorem markStep_snoc_unmarked (M : Memory) (H : Heap) (v : List Nat) {p : Nat}
    (hp : p ≠ 0) (hal : p % 8 = 0) (hm : H.isMarked ⟨p⟩ = false) :
    (∃ e, markStep M H ⟨v ++ [p]⟩ = .error e) ∨
      ∃ L, markStep M H ⟨v ++ [p]⟩ = .ok (some (H.setMark ⟨p⟩, ⟨v ++ L⟩)) ∧
        ∀ x ∈ L, H.Passes x := by
  simp only [markStep, TraceStack.pop_snoc, NULL, hp, hal, GCAllocation.fromUserData, hm,
    if_false, ne_eq, not_true_eq_false, Bool.false_eq_true]
  cases hk : (H.setMark ⟨p⟩).kind_id ⟨p⟩ with
  | UNTRACKED => exact Or.inr ⟨[], by simp, by simp⟩
  | unhandled n => exact Or.inl ⟨_, rfl⟩
  | CONSERVATIVE =>
    simp only
    cases hv : TraceStackGCVisitor.visitPotentialRange (H.setMark ⟨p⟩) M p
        (p + (H.setMark ⟨p⟩).kind_data ⟨p⟩) ⟨v⟩ with
    | error e => exact Or.inl ⟨_, rfl⟩
    | ok st1 =>
      obtain ⟨L, hL, hres⟩ := visitPotentialRange_appends _ M _ _ _ _ hv
      refine Or.inr ⟨L, ?_, hres⟩
      cases st1
      simp_all
  | PYTHON =>
    simp only
    by_cases hcls : M.word p = 0
    · simp only [hcls, not_true_eq_false, if_false]
      exact Or.inr ⟨[], by simp, by simp⟩
    · simp only [hcls, not_false_eq_true, if_true]
      cases hg : M.gc_visit (M.word p) with
      | none => exact Or.inl ⟨_, rfl⟩
      | some f =>
        simp only
        cases hv : forEach (VisitCall.run (H.setMark ⟨p⟩) M) (f p) ⟨v⟩ with
        | error e => exact Or.inl ⟨_, rfl⟩
        | ok st1 =>
          obtain ⟨L, hL, hres⟩ := forEach_appends (H.setMark ⟨p⟩) _ _
            (fun c _ => VisitCall.run_appends (H.setMark ⟨p⟩) M c) _ _ hv
          refine Or.inr ⟨L, ?_, hres⟩
          cases st1
          simp_all

theorem markLoop_mono (M : Memory) :
    ∀ (fuel : Nat) (H : Heap) (stack : TraceStack) (r : Except GCError Heap),
      markLoop M fuel H stack = some r →
      ∀ fuel1, fuel ≤ fuel1 → markLoop M fuel1 H stack = some r := by
  intro fuel
  induction fuel with
  | zero => intro H stack r h; simp [markLoop] at h
  | succ fuel ih =>
    intro H stack r h fuel1 hle
    obtain ⟨f, rfl⟩ : ∃ f, fuel1 = f + 1 := ⟨fuel1 - 1, by omega⟩
    simp only [markLoop] at h ⊢
    cases hs : markStep M H stack with
    | error e => simpa [hs] using h
    | ok o =>
      cases o with
      | none => simpa [hs] using h
      | some q =>
        obtain ⟨H1, st1⟩ := q
        simp only [hs] at h ⊢
        exact ih H1 st1 r h f (by omega)

theorem countP_lt_of_imp {α : Type} (q1 q : α → Bool) (l : List α)
    (himp : ∀ x ∈ l, q1 x = true → q x = true) (a : α) (ha : a ∈ l) (hq : q a = true)
    (hq1 : q1 a = false) : l.countP q1 < l.countP q := by
  induction l with
  | nil => simp at ha
  | cons x l ih =>
    have hle : l.countP q1 ≤ l.countP q :=
      List.countP_mono_left (fun y hy => himp y (List.mem_cons_of_mem x hy))
    rcases List.mem_cons.1 ha with rfl | ha
    · rw [List.countP_cons_of_pos _ _ hq, List.countP_cons_of_neg _ _ (by simp [hq1])]
      omega
    · have hlt := ih (fun y hy => himp y (List.mem_cons_of_mem x hy)) ha
      cases h1 : q1 x with
      | true =>
        rw [List.countP_cons_of_pos _ _ h1,
          List.countP_cons_of_pos _ _ (himp x (List.mem_cons_self x l) h1)]
        omega
      | false =>
        rw [List.countP_cons_of_neg _ _ (by simp [h1])]
        cases h2 : q x with
        | true => rw [List.countP_cons_of_pos _ _ h2]; omega
        | false => rw [List.countP_cons_of_neg _ _ (by simp [h2])]; omega

theorem unmarkedCount_setMark_lt (H : Heap) (p : Nat) (W : List Nat) (hp : p ∈ W)
    (hm : H.isMarked ⟨p⟩ = false) :
    unmarkedCount (H.setMark ⟨p⟩) W < unmarkedCount H W := by
  refine countP_lt_of_imp _ _ W ?_ p hp ?_ ?_
  · intro x _ hx
    by_cases hxp : GCAllocation.fromUserData x = ⟨p⟩
    · simp [Heap.setMark, hxp] at hx
    · simpa [Heap.setMark, hxp] using hx
  · simp [GCAllocation.fromUserData, hm]
  · simp [Heap.setMark, GCAllocation.fromUserData]

theorem markLoop_terminates_aux (M : Memory) (W : List Nat) :
    ∀ (k n : Nat) (H : Heap) (stack : TraceStack),
      (∀ p, H.Passes p → p ∈ W) →
      (∀ x ∈ stack.v, x ∈ W) → unmarkedCount H W ≤ k → stack.v.length ≤ n →
      ∃ fuel, (markLoop M fuel H stack).isSome = true := by
  intro k
  induction k using Nat.strong_induction_on with
  | _ k ihk =>
    intro n
    induction n with
    | zero =>
      intro H stack _ _ _ hn
      obtain ⟨v⟩ := stack
      have hv : v = [] := List.length_eq_zero.1 (by simpa using hn)
      subst hv
      exact ⟨1, by simp [markLoop, markStep_nil]⟩
    | succ n ihn =>
      intro H stack hW hst hk hn
      obtain ⟨v⟩ := stack
      rcases List.eq_nil_or_concat v with rfl | ⟨v1, p, rfl⟩
      · exact ⟨1, by simp [markLoop, markStep_nil]⟩
      · by_cases hp : p = 0
        · subst hp
          exact ⟨1, by simp [markLoop, markStep_snoc_null]⟩
        by_cases hal : p % 8 = 0
        swap
        · exact ⟨1, by simp [markLoop, markStep_snoc_misaligned M H v1 hp hal]⟩
        have hst1 : ∀ x ∈ v1, x ∈ W := fun x hx => hst x (by simp [hx])
        cases hm : H.isMarked ⟨p⟩ with
        | true =>
          obtain ⟨fuel, hf⟩ := ihn H ⟨v1⟩ hW hst1 hk (by simp at hn ⊢; omega)
          exact ⟨fuel + 1, by simpa [markLoop, markStep_snoc_marked M H v1 hp hal hm] using hf⟩
        | false =>
          rcases markStep_snoc_unmarked M H v1 hp hal hm with ⟨e, he⟩ | ⟨L, hL, hres⟩
          · exact ⟨1, by simp [markLoop, he]⟩
          · have hlt := unmarkedCount_setMark_lt H p W (hst p (by simp)) hm
            obtain ⟨fuel, hf⟩ := ihk (unmarkedCount (H.setMark ⟨p⟩) W) (by omega)
              (v1 ++ L).length (H.setMark ⟨p⟩) ⟨v1 ++ L⟩ hW
              (by
                intro x hx
                rcases List.mem_append.1 hx with hx | hx
                · exact hst1 x hx
                · exact hW x (hres x hx))
              le_rfl le_rfl
            exact ⟨fuel + 1, by simpa [markLoop, hL] using hf⟩

theorem eq_nil_or_snoc (l : List Nat) : l = [] ∨ ∃ v p, l = v ++ [p] := by
  rcases List.eq_nil_or_concat l with h | ⟨v, p, h⟩
  · exact Or.inl h
  · exact Or.inr ⟨v, p, by simpa using h⟩

theorem markStep_ok_some {M : Memory} {H H1 : Heap} {st st1 : TraceStack}
    (h : markStep M H st = .ok (some (H1, st1))) :
    ∃ v p, st.v = v ++ [p] ∧ p ≠ 0 ∧ p % 8 = 0 ∧
      ((H.isMarked ⟨p⟩ = true ∧ H1 = H ∧ st1 = ⟨v⟩) ∨
        (H.isMarked ⟨p⟩ = false ∧ H1 = H.setMark ⟨p⟩ ∧
          ∃ L, st1 = ⟨v ++ L⟩ ∧ ∀ x ∈ L, H.Passes x)) := by
  obtain ⟨v⟩ := st
  rcases eq_nil_or_snoc v with rfl | ⟨v1, p, rfl⟩
  · simp [markStep_nil] at h
  · by_cases hp : p = 0
    · subst hp
      simp [markStep_snoc_null] at h
    by_cases hal : p % 8 = 0
    swap
    · simp [markStep_snoc_misaligned M H v1 hp hal] at h
    refine ⟨v1, p, rfl, hp, hal, ?_⟩
    cases hm : H.isMarked ⟨p⟩ with
    | true =>
      rw [markStep_snoc_marked M H v1 hp hal hm] at h
      simp only [Except.ok.injEq, Option.some.injEq, Prod.mk.injEq] at h
      exact Or.inl ⟨rfl, h.1.symm, h.2.symm⟩
    | false =>
      rcases markStep_snoc_unmarked M H v1 hp hal hm with ⟨e, he⟩ | ⟨L, hL, hres⟩
      · simp [he] at h
      · rw [hL] at h
        simp only [Except.ok.injEq, Option.some.injEq, Prod.mk.injEq] at h
        exact Or.inr ⟨rfl, h.1.symm, L, h.2.symm, hres⟩

theorem markStepScans_eq_some {M : Memory} {H : Heap} {st : TraceStack} {al : GCAllocation}
    (h : markStepScans M H st = some al) :
    al = ⟨st.pop.1⟩ ∧ st.pop.1 ≠ 0 ∧ st.pop.1 % 8 = 0 ∧ H.isMarked al = false := by
  simp only [markStepScans, NULL, GCAllocation.fromUserData] at h
  by_cases h1 : st.pop.1 = 0
  · simp [h1] at h
  by_cases h2 : st.pop.1 % 8 = 0
  swap
  · simp [h1, h2] at h
  cases h3 : H.isMarked ⟨st.pop.1⟩ with
  | true => simp [h1, h2, h3] at h
  | false =>
    simp only [h1, h2, h3, if_false, ne_eq, not_true_eq_false, Bool.false_eq_true] at h
    have hal : al = ⟨st.pop.1⟩ := by
      cases hk : H.kind_id ⟨st.pop.1⟩ with
      | CONSERVATIVE => simpa [hk] using h.symm
      | PYTHON =>
        simp only [hk] at h
        split_ifs at h
        exact (Option.some.inj h).symm
      | UNTRACKED => simp [hk] at h
      | unhandled n => simp [hk] at h
    exact ⟨hal, h1, h2, by rw [hal]; exact h3⟩

theorem scanLog_unmarked (M : Memory) :
    ∀ (fuel : Nat) (H : Heap) (stack : TraceStack),
      ∀ a ∈ scanLog M fuel H stack, H.isMarked a = false := by
  intro fuel
  induction fuel with
  | zero => intro H stack a ha; simp [scanLog] at ha
  | succ fuel ih =>
    intro H stack a ha
    simp only [scanLog, List.mem_append, Option.mem_toList, Option.mem_def] at ha
    rcases ha with ha | ha
    · exact (markStepScans_eq_some ha).2.2.2
    · cases hs : markStep M H stack with
      | error e => simp [hs] at ha
      | ok o =>
        cases o with
        | none => simp [hs] at ha
        | some q =>
          obtain ⟨H1, st1⟩ := q
          simp only [hs] at ha
          have h1 := ih H1 st1 a ha
          obtain ⟨v, p, _, _, _, hc⟩ := markStep_ok_some hs
          rcases hc with ⟨_, rfl, _⟩ | ⟨_, rfl, _⟩
          · exact h1
          · by_cases hap : a = ⟨p⟩
            · simp [Heap.setMark, hap] at h1
            · simpa [Heap.setMark, hap] using h1

theorem scanLog_nodup (M : Memory) :
    ∀ (fuel : Nat) (H : Heap) (stack : TraceStack), (scanLog M fuel H stack).Nodup := by
  intro fuel
  induction fuel with
  | zero => intro H stack; simp [scanLog]
  | succ fuel ih =>
    intro H stack
    simp only [scanLog]
    cases hs : markStep M H stack with
    | error e => cases markStepScans M H stack <;> simp
    | ok o =>
      cases o with
      | none => cases markStepScans M H stack <;> simp
      | some q =>
        obtain ⟨H1, st1⟩ := q
        simp only
        cases hsc : markStepScans M H stack with
        | none => simpa using ih H1 st1
        | some al =>
          simp only [Option.toList_some, List.singleton_append, List.nodup_cons]
          refine ⟨?_, ih H1 st1⟩
          intro hmem
          have h1 := scanLog_unmarked M fuel H1 st1 al hmem
          obtain ⟨hal, _, _, hun⟩ := markStepScans_eq_some hsc
          obtain ⟨v, p, hv, _, _, hc⟩ := markStep_ok_some hs
          have hpop : stack.pop.1 = p := by
            obtain ⟨w⟩ := stack
            simp only at hv
            subst hv
            simp [TraceStack.pop_snoc]
          rw [hpop] at hal
          rcases hc with ⟨hm, _, _⟩ | ⟨_, rfl, _⟩
          · rw [hal] at hun
            simp [hm] at hun
          · simp [Heap.setMark, hal] at h1

theorem markStepScans_snoc_unmarked {M : Memory} {H : Heap} (v : List Nat) {p : Nat}
    (hp : p ≠ 0) (hal : p % 8 = 0) (hm : H.isMarked ⟨p⟩ = false) (hs : Scannable M H ⟨p⟩) :
    markStepScans M H ⟨v ++ [p]⟩ = some ⟨p⟩ := by
  simp only [markStepScans, TraceStack.pop_snoc, NULL, hp, hal, GCAllocation.fromUserData, hm,
    if_false, ne_eq, not_true_eq_false, Bool.false_eq_true]
  rcases hs with hk | ⟨hk, hcls, hg⟩
  · simp [hk]
  · simp only [NULL] at hcls
    simp [hk, hcls, hg]

theorem markLoop_ok_marks (M : Memory) :
    ∀ (fuel : Nat) (H : Heap) (stack : TraceStack) (H1 : Heap),
      H.getAllocationFromInteriorPointer 0 = none → 0 ∉ stack.v →
      markLoop M fuel H stack = some (.ok H1) →
      (∀ a, H.isMarked a = true → H1.isMarked a = true) ∧
        (∀ p ∈ stack.v, H1.isMarked ⟨p⟩ = true) ∧
        (∀ a, H1.isMarked a = true → H.isMarked a = false → Scannable M H a →
          a ∈ scanLog M fuel H stack) := by
  intro fuel
  induction fuel with
  | zero => intro H stack H1 _ _ h; simp [markLoop] at h
  | succ fuel ih =>
    intro H stack H1 h0 hst h
    obtain ⟨v⟩ := stack
    rcases eq_nil_or_snoc v with rfl | ⟨v1, p, rfl⟩
    · simp only [markLoop, markStep_nil, Option.some.injEq, Except.ok.injEq] at h
      subst h
      refine ⟨fun a ha => ha, by simp, ?_⟩
      intro a ha hna
      simp [ha] at hna
    · have hp : p ≠ 0 := fun hp => hst (by simp [hp])
      have hv1 : 0 ∉ v1 := fun hv => hst (by simp [hv])
      by_cases hal : p % 8 = 0
      swap
      · simp [markLoop, markStep_snoc_misaligned M H v1 hp hal] at h
      cases hm : H.isMarked ⟨p⟩ with
      | true =>
        simp only [markLoop, markStep_snoc_marked M H v1 hp hal hm] at h
        obtain ⟨hmono, hstk, hlog⟩ := ih H ⟨v1⟩ H1 h0 hv1 h
        refine ⟨hmono, ?_, ?_⟩
        · intro x hx
          rcases List.mem_append.1 hx with hx | hx
          · exact hstk x hx
          · simp only [List.mem_singleton] at hx
            subst hx
            exact hmono _ hm
        · intro a ha hna hsc
          simp only [scanLog, markStep_snoc_marked M H v1 hp hal hm, List.mem_append]
          exact Or.inr (hlog a ha hna hsc)
      | false =>
        rcases markStep_snoc_unmarked M H v1 hp hal hm with ⟨e, he⟩ | ⟨L, hL, hres⟩
        · simp [markLoop, he] at h
        · simp only [markLoop, hL] at h
          have hL0 : 0 ∉ v1 ++ L := by
            intro hx
            rcases List.mem_append.1 hx with hx | hx
            · exact hv1 hx
            · exact (hres 0 hx).nonnull h0 rfl
          obtain ⟨hmono, hstk, hlog⟩ := ih (H.setMark ⟨p⟩) ⟨v1 ++ L⟩ H1 h0 hL0 h
          have hpm : H1.isMarked ⟨p⟩ = true := hmono _ (by simp [Heap.setMark])
          refine ⟨?_, ?_, ?_⟩
          · intro a ha
            exact hmono a (by simp [Heap.setMark, ha])
          · intro x hx
            rcases List.mem_append.1 hx with hx | hx
            · exact hstk x (List.mem_append.2 (Or.inl hx))
            · simp only [List.mem_singleton] at hx
              subst hx
              exact hpm
          · intro a ha hna hsc
            simp only [scanLog, hL, List.mem_append, Option.mem_toList, Option.mem_def]
            by_cases hap : a = ⟨p⟩
            · subst hap
              exact Or.inl (markStepScans_snoc_unmarked v1 hp hal hm hsc)
            · exact Or.inr (hlog a ha (by simpa [Heap.setMark, hap] using hna) hsc)

theorem exHeap_finite :
    ∀ p, (exHeap.getAllocationFromInteriorPointer p).isSome = true → p ∈ List.range 64 := by
  intro p h
  simp only [exHeap] at h
  rw [List.mem_range]
  split_ifs at h <;> first | omega | simp at h

theorem cycHeap_finite :
    ∀ p, (cycHeap.getAllocationFromInteriorPointer p).isSome = true → p ∈ List.range 40 := by
  intro p h
  simp only [cycHeap] at h
  rw [List.mem_range]
  split_ifs at h <;> first | omega | simp at h

/-! ## Lemmas on contract-respecting runs -/

theorem potentialTargets_isUserData {H : Heap} (hH : H.ResolvesOwnUserData) (ws : List Nat) :
    ∀ q ∈ potentialTargets H ws, H.IsUserData q := by
  intro q hq
  simp only [potentialTargets, List.mem_filterMap, Option.map_eq_some'] at hq
  obtain ⟨w, _, a, ha, rfl⟩ := hq
  exact hH w a ha

theorem potentialTargets_append (H : Heap) (xs ys : List Nat) :
    potentialTargets H (xs ++ ys) = potentialTargets H xs ++ potentialTargets H ys := by
  simp [potentialTargets, List.filterMap_append]

theorem visitRangeCheck_of_valid (H : Heap) (M : Memory) (end_ : Nat) :
    ∀ (n cur : Nat),
      (∀ a ∈ rangeSlots cur end_, TraceStackGCVisitor.isValid H (M.word a) = true) →
      TraceStackGCVisitor.visitRangeCheck H M n cur end_ = .ok () := by
  intro n
  induction n with
  | zero => intro cur _; rfl
  | succ n ih =>
    intro cur h
    by_cases hlt : cur < end_
    · rw [rangeSlots_of_lt hlt] at h
      simp only [TraceStackGCVisitor.visitRangeCheck, hlt, if_true,
        h cur (List.mem_cons_self _ _)]
      exact ih (cur + 8) (fun a ha => h a (List.mem_cons_of_mem _ ha))
    · simp [TraceStackGCVisitor.visitRangeCheck, hlt]

theorem VisitCall.run_precise {H : Heap} {M : Memory} (hH : H.ResolvesOwnUserData)
    (c : VisitCall) (hc : c.Precise H M) (st : TraceStack) :
    c.run H M st = .ok ⟨st.v ++ c.reported H M⟩ := by
  cases c with
  | visit p => exact visit_of_resolves_self st hc
  | visitRange s e =>
    have hv : ∀ a ∈ rangeSlots s e, TraceStackGCVisitor.isValid H (M.word a) = true := by
      intro a ha
      have := hc.2 a ha
      simp only [Heap.IsUserData] at this
      simp [TraceStackGCVisitor.isValid, this]
    simp only [VisitCall.run, TraceStackGCVisitor.visitRange,
      visitRangeCheck_of_valid H M e (e - s) s hv]
    rfl
  | visitPotential p =>
    cases hr : H.getAllocationFromInteriorPointer p with
    | none =>
      simp [VisitCall.run, VisitCall.reported, visitPotential_of_unresolved st hr,
        potentialTargets, hr]
    | some a =>
      simp [VisitCall.run, VisitCall.reported, visitPotential_of_resolves hH st hr,
        potentialTargets, hr, TraceStack.push]
  | visitPotentialRange s e =>
    simp only [VisitCall.run, VisitCall.reported, visitPotentialRange_eq_forEach,
      forEach_visitPotential hH M.word]

theorem VisitCall.reported_isUserData {H : Heap} {M : Memory} (hH : H.ResolvesOwnUserData)
    (c : VisitCall) (hc : c.Precise H M) : ∀ q ∈ c.reported H M, H.IsUserData q := by
  cases c with
  | visit p =>
    intro q hq
    simp only [VisitCall.reported, List.mem_singleton] at hq
    subst hq
    exact hc
  | visitRange s e =>
    intro q hq
    simp only [VisitCall.reported, List.mem_map, List.mem_range] at hq
    obtain ⟨i, hi, rfl⟩ := hq
    exact hc.2 _ (mem_rangeSlots.2 ⟨i, rfl, by omega⟩)
  | visitPotential p => exact potentialTargets_isUserData hH _
  | visitPotentialRange s e => exact potentialTargets_isUserData hH _

theorem forEach_run_precise {H : Heap} {M : Memory} (hH : H.ResolvesOwnUserData) :
    ∀ (calls : List VisitCall) (st : TraceStack), (∀ c ∈ calls, c.Precise H M) →
      forEach (VisitCall.run H M) calls st =
        .ok ⟨st.v ++ calls.flatMap (VisitCall.reported H M)⟩ := by
  intro calls
  induction calls with
  | nil => intro st _; simp [forEach]
  | cons c calls ih =>
    intro st h
    simp only [forEach, VisitCall.run_precise hH c (h c (List.mem_cons_self _ _)) st,
      ih _ (fun d hd => h d (List.mem_cons_of_mem _ hd)), List.flatMap_cons,
      List.append_assoc]

theorem WellFormed.setMark {H : Heap} {M : Memory} (h : WellFormed H M) (al : GCAllocation) :
    WellFormed (H.setMark al) M :=
  ⟨h.own, h.null, h.managed, h.aligned, h.kinds, h.callbacks⟩

theorem WellFormed.ne_null {H : Heap} {M : Memory} (h : WellFormed H M) {p : Nat}
    (hp : H.IsUserData p) : p ≠ 0 := by
  rintro rfl
  have := h.null
  simp only [NULL] at this
  simp [Heap.IsUserData, this] at hp

theorem references_isUserData {H : Heap} {M : Memory} (hwf : WellFormed H M) {p : Nat}
    (hp : H.IsUserData p) : ∀ q ∈ references H M ⟨p⟩, H.IsUserData q := by
  intro q hq
  simp only [references] at hq
  split at hq
  · exact potentialTargets_isUserData hwf.own _ q hq
  · rename_i hk
    by_cases hcls : M.word p = NULL
    · simp [hcls] at hq
    · obtain ⟨f, hf, hprec⟩ := hwf.callbacks p ⟨p⟩ hp hk hcls
      simp only [hcls, ne_eq, not_false_eq_true, if_true, hf, List.mem_flatMap] at hq
      obtain ⟨c, hc, hqc⟩ := hq
      exact VisitCall.reported_isUserData hwf.own c (hprec c hc) q hqc
  · simp at hq

theorem markStep_wf_unmarked {H : Heap} {M : Memory} (hwf : WellFormed H M) (v : List Nat)
    {p : Nat} (hp : H.IsUserData p) (hm : H.isMarked ⟨p⟩ = false) :
    markStep M H ⟨v ++ [p]⟩ = .ok (some (H.setMark ⟨p⟩, ⟨v ++ references H M ⟨p⟩⟩)) := by
  have hp0 : p ≠ 0 := hwf.ne_null hp
  have hal : p % 8 = 0 := hwf.aligned p ⟨p⟩ hp
  have hown : (H.setMark ⟨p⟩).ResolvesOwnUserData := hwf.own
  simp only [markStep, TraceStack.pop_snoc, NULL, hp0, hal, GCAllocation.fromUserData, hm,
    if_false, ne_eq, not_true_eq_false, Bool.false_eq_true, references]
  have hk : (H.setMark ⟨p⟩).kind_id ⟨p⟩ = H.kind_id ⟨p⟩ := rfl
  rw [hk]
  rcases hwf.kinds p ⟨p⟩ hp with hk | hk | hk
  · rw [hk]
    simp only
    by_cases hcls : M.word p = 0
    · simp [hcls]
    · obtain ⟨f, hf, hprec⟩ := hwf.callbacks p ⟨p⟩ hp hk hcls
      simp only [hcls, not_false_eq_true, if_true, hf]
      rw [forEach_run_precise hown (f p) ⟨v⟩ hprec]
      rfl
  · rw [hk]
    simp only
    rw [visitPotentialRange_eq_forEach, forEach_visitPotential hown M.word]
    rfl
  · rw [hk]
    simp

theorem not_mem_zero_of_isUserData {H : Heap} {M : Memory} (hwf : WellFormed H M)
    {l : List Nat} (h : ∀ p ∈ l, H.IsUserData p) : 0 ∉ l :=
  fun h0 => hwf.ne_null (h 0 h0) rfl

theorem markLoop_wf_exists (M : Memory) :
    ∀ (k n : Nat) (H : Heap) (stack : TraceStack), WellFormed H M →
      (∀ p ∈ stack.v, H.IsUserData p) →
      unmarkedCount H (H.allocs.map GCAllocation.user_data) ≤ k → stack.v.length ≤ n →
      ∃ fuel H1, markLoop M fuel H stack = some (.ok H1) := by
  intro k
  induction k using Nat.strong_induction_on with
  | _ k ihk =>
    intro n
    induction n with
    | zero =>
      intro H stack _ _ _ hn
      obtain ⟨v⟩ := stack
      have hv : v = [] := List.length_eq_zero.1 (by simpa using hn)
      subst hv
      exact ⟨1, H, by simp [markLoop, markStep_nil]⟩
    | succ n ihn =>
      intro H stack hwf hst hk hn
      obtain ⟨v⟩ := stack
      rcases eq_nil_or_snoc v with rfl | ⟨v1, p, rfl⟩
      · exact ⟨1, H, by simp [markLoop, markStep_nil]⟩
      · have hp : H.IsUserData p := hst p (by simp)
        have hp0 : p ≠ 0 := hwf.ne_null hp
        have hal : p % 8 = 0 := hwf.aligned p ⟨p⟩ hp
        have hst1 : ∀ x ∈ v1, H.IsUserData x := fun x hx => hst x (by simp [hx])
        cases hm : H.isMarked ⟨p⟩ with
        | true =>
          obtain ⟨fuel, H1, hf⟩ := ihn H ⟨v1⟩ hwf hst1 hk (by simp at hn ⊢; omega)
          exact ⟨fuel + 1, H1,
            by simpa [markLoop, markStep_snoc_marked M H v1 hp0 hal hm] using hf⟩
        | false =>
          have hmem : p ∈ H.allocs.map GCAllocation.user_data :=
            List.mem_map.2 ⟨⟨p⟩, hwf.managed p ⟨p⟩ hp, rfl⟩
          have hlt := unmarkedCount_setMark_lt H p _ hmem hm
          obtain ⟨fuel, H1, hf⟩ := ihk
            (unmarkedCount (H.setMark ⟨p⟩) (H.allocs.map GCAllocation.user_data)) (by omega)
            (v1 ++ references H M ⟨p⟩).length (H.setMark ⟨p⟩) ⟨v1 ++ references H M ⟨p⟩⟩
            (hwf.setMark ⟨p⟩)
            (by
              intro x hx
              rcases List.mem_append.1 hx with hx | hx
              · exact hst1 x hx
              · exact references_isUserData hwf hp x hx)
            le_rfl le_rfl
          exact ⟨fuel + 1, H1, by simpa [markLoop, markStep_wf_unmarked hwf v1 hp hm] using hf⟩

theorem markLoop_shape (M : Memory) :
    ∀ (fuel : Nat) (H : Heap) (stack : TraceStack) (H1 : Heap),
      markLoop M fuel H stack = some (.ok H1) →
      H1.allocs = H.allocs ∧
        H1.getAllocationFromInteriorPointer = H.getAllocationFromInteriorPointer ∧
        H1.kind_id = H.kind_id ∧ H1.kind_data = H.kind_data := by
  intro fuel
  induction fuel with
  | zero => intro H stack H1 h; simp [markLoop] at h
  | succ fuel ih =>
    intro H stack H1 h
    simp only [markLoop] at h
    cases hs : markStep M H stack with
    | error e => simp [hs] at h
    | ok o =>
      cases o with
      | none =>
        simp only [hs, Option.some.injEq, Except.ok.injEq] at h
        subst h
        exact ⟨rfl, rfl, rfl, rfl⟩
      | some q =>
        obtain ⟨H2, st2⟩ := q
        simp only [hs] at h
        obtain ⟨_, _, _, _, _, hc⟩ := markStep_ok_some hs
        rcases hc with ⟨_, rfl, _⟩ | ⟨_, rfl, _⟩
        · exact ih _ _ _ h
        · have := ih _ _ _ h
          exact this

theorem markLoop_wf_marks (M : Memory) :
    ∀ (fuel : Nat) (H : Heap) (stack : TraceStack) (H1 : Heap), WellFormed H M →
      (∀ p ∈ stack.v, H.IsUserData p) → markLoop M fuel H stack = some (.ok H1) →
      (∀ p, H1.isMarked ⟨p⟩ = true → H.isMarked ⟨p⟩ = false →
          ∀ q ∈ references H M ⟨p⟩, H1.isMarked ⟨q⟩ = true) ∧
        (∀ R : GCAllocation → Prop, (∀ p ∈ stack.v, R ⟨p⟩) →
          (∀ p, R ⟨p⟩ → ∀ q ∈ references H M ⟨p⟩, R ⟨q⟩) →
          ∀ a, H1.isMarked a = true → H.isMarked a = true ∨ R a) := by
  intro fuel
  induction fuel with
  | zero => intro H stack H1 _ _ h; simp [markLoop] at h
  | succ fuel ih =>
    intro H stack H1 hwf hst h
    obtain ⟨v⟩ := stack
    rcases eq_nil_or_snoc v with rfl | ⟨v1, p, rfl⟩
    · simp only [markLoop, markStep_nil, Option.some.injEq, Except.ok.injEq] at h
      subst h
      refine ⟨?_, fun R _ _ a ha => Or.inl ha⟩
      intro p hp hnp
      simp [hp] at hnp
    · have hp : H.IsUserData p := hst p (by simp)
      have hp0 : p ≠ 0 := hwf.ne_null hp
      have hal : p % 8 = 0 := hwf.aligned p ⟨p⟩ hp
      have hst1 : ∀ x ∈ v1, H.IsUserData x := fun x hx => hst x (by simp [hx])
      cases hm : H.isMarked ⟨p⟩ with
      | true =>
        simp only [markLoop, markStep_snoc_marked M H v1 hp0 hal hm] at h
        obtain ⟨hcl, hsound⟩ := ih H ⟨v1⟩ H1 hwf hst1 h
        exact ⟨hcl, fun R hR hRc a ha =>
          hsound R (fun x hx => hR x (by simp [hx])) hRc a ha⟩
      | false =>
        simp only [markLoop, markStep_wf_unmarked hwf v1 hp hm] at h
        have hst2 : ∀ x ∈ v1 ++ references H M ⟨p⟩, (H.setMark ⟨p⟩).IsUserData x := by
          intro x hx
          rcases List.mem_append.1 hx with hx | hx
          · exact hst1 x hx
          · exact references_isUserData hwf hp x hx
        obtain ⟨hcl, hsound⟩ := ih (H.setMark ⟨p⟩) ⟨v1 ++ references H M ⟨p⟩⟩ H1
          (hwf.setMark ⟨p⟩) hst2 h
        obtain ⟨_, hstk, _⟩ := markLoop_ok_marks M fuel (H.setMark ⟨p⟩)
          ⟨v1 ++ references H M ⟨p⟩⟩ H1 hwf.null
          (not_mem_zero_of_isUserData (hwf.setMark ⟨p⟩) hst2) h
        refine ⟨?_, ?_⟩
        · intro x hx hnx q hq
          by_cases hxp : x = p
          · subst hxp
            exact hstk q (List.mem_append.2 (Or.inr hq))
          · have hne : (⟨x⟩ : GCAllocation) ≠ ⟨p⟩ := by
              intro he
              exact hxp (congrArg GCAllocation.user_data he)
            exact hcl x hx (by simpa [Heap.setMark, hne] using hnx) q hq
        · intro R hR hRc a ha
          have hRp : R ⟨p⟩ := hR p (by simp)
          have := hsound R
            (by
              intro x hx
              rcases List.mem_append.1 hx with hx | hx
              · exact hR x (by simp [hx])
              · exact hRc p hRp x hx)
            hRc a ha
          rcases this with hma | hRa
          · by_cases hap : a = ⟨p⟩
            · subst hap
              exact Or.inr hRp
            · exact Or.inl (by simpa [Heap.setMark, hap] using hma)
          · exact Or.inr hRa

theorem forEach_visitPotentialRange {H : Heap} (hH : H.ResolvesOwnUserData) (M : Memory) :
    ∀ (ranges : List (Nat × Nat)) (stack : TraceStack),
      forEach (fun (p : Nat × Nat) st =>
          TraceStackGCVisitor.visitPotentialRange H M p.1 p.2 st) ranges stack =
        .ok ⟨stack.v ++ potentialTargets H
          (ranges.flatMap (fun r => (rangeSlots r.1 r.2).map M.word))⟩ := by
  intro ranges
  induction ranges with
  | nil => intro stack; simp [forEach, potentialTargets]
  | cons r ranges ih =>
    intro stack
    have hr : TraceStackGCVisitor.visitPotentialRange H M r.1 r.2 stack =
        .ok ⟨stack.v ++ potentialTargets H ((rangeSlots r.1 r.2).map M.word)⟩ := by
      rw [visitPotentialRange_eq_forEach, forEach_visitPotential hH M.word]
    simp only [forEach, hr]
    rw [ih]
    simp only [List.flatMap_cons, potentialTargets_append, List.append_assoc]

theorem markPhaseRoots_eq {H : Heap} (hH : H.ResolvesOwnUserData) (M : Memory) (C : Collector)
    (candidates : List Nat) :
    markPhaseRoots M C candidates H = .ok ⟨rootEntries H M C candidates⟩ := by
  have h1 : collectStackRoots H candidates C.roots =
      .ok ⟨C.roots.v ++ potentialTargets H candidates⟩ := by
    have := forEach_visitPotential hH (fun x : Nat => x) candidates C.roots
    simpa [collectStackRoots] using this
  simp only [markPhaseRoots, h1, forEach_visitPotentialRange hH M,
    forEach_visitPotential hH M.word, rootEntries]

theorem rootEntries_isUserData {H : Heap} (hH : H.ResolvesOwnUserData) (M : Memory)
    (C : Collector) (candidates : List Nat) (hroots : ∀ p ∈ C.roots.v, H.IsUserData p) :
    ∀ p ∈ rootEntries H M C candidates, H.IsUserData p := by
  intro p hp
  simp only [rootEntries, List.mem_append] at hp
  rcases hp with ((hp | hp) | hp) | hp
  · exact hroots p hp
  · exact potentialTargets_isUserData hH _ p hp
  · exact potentialTargets_isUserData hH _ p hp
  · exact potentialTargets_isUserData hH _ p hp

theorem reachable_isUserData {H : Heap} {M : Memory} (hwf : WellFormed H M) {C : Collector}
    {candidates : List Nat} (hroots : ∀ p ∈ C.roots.v, H.IsUserData p) {a : GCAllocation}
    (ha : Reachable H M C candidates a) : H.IsUserData a.user_data := by
  induction ha with
  | root hp => exact rootEntries_isUserData hwf.own M C candidates hroots _ hp
  | reference _ hq ih => exact references_isUserData hwf ih _ hq

/-- What a contract-respecting mark phase establishes: it completes, leaves everything but
the mark flags as it was, keeps the marks it found, marks the roots, marks the references of
each allocation it marks, and marks only reachable allocations. -/
theorem markPhase_wf {H : Heap} {M : Memory} (hwf : WellFormed H M) (C : Collector)
    (candidates : List Nat) (hroots : ∀ p ∈ C.roots.v, H.IsUserData p) :
    ∃ fuel H1, markPhase M C candidates fuel H = some (.ok H1) ∧
      (H1.allocs = H.allocs ∧
        H1.getAllocationFromInteriorPointer = H.getAllocationFromInteriorPointer ∧
        H1.kind_id = H.kind_id ∧ H1.kind_data = H.kind_data) ∧
      (∀ p ∈ rootEntries H M C candidates, H1.isMarked ⟨p⟩ = true) ∧
      (∀ p, H1.isMarked ⟨p⟩ = true → H.isMarked ⟨p⟩ = false →
        ∀ q ∈ references H M ⟨p⟩, H1.isMarked ⟨q⟩ = true) ∧
      (∀ a, H1.isMarked a = true → H.isMarked a = true ∨ Reachable H M C candidates a) := by
  have hst := rootEntries_isUserData hwf.own M C candidates hroots
  obtain ⟨fuel, H1, hrun⟩ := markLoop_wf_exists M _ _ H ⟨rootEntries H M C candidates⟩ hwf hst
    le_rfl le_rfl
  obtain ⟨_, hstk, _⟩ := markLoop_ok_marks M fuel H _ H1 hwf.null
    (not_mem_zero_of_isUserData hwf hst) hrun
  obtain ⟨hcl, hsound⟩ := markLoop_wf_marks M fuel H _ H1 hwf hst hrun
  refine ⟨fuel, H1, ?_, markLoop_shape M fuel H _ H1 hrun, hstk, hcl, ?_⟩
  · simp only [markPhase, markPhaseRoots_eq hwf.own, hrun]
  · exact hsound (Reachable H M C candidates) (fun p hp => Reachable.root hp)
      (fun p hp q hq => Reachable.reference hp hq)

theorem exHeap_wellFormed : WellFormed exHeap exMemory := by
  refine ⟨exHeap_resolvesOwnUserData, rfl, ?_, ?_, ?_, ?_⟩
  · intro p a h
    simp only [exHeap] at h ⊢
    split_ifs at h <;> simp only [Option.some.injEq, reduceCtorEq] at h <;> subst h <;> simp
  · intro p a h
    simp only [exHeap] at h
    split_ifs at h <;> simp only [Option.some.injEq, reduceCtorEq] at h <;> subst h <;> rfl
  · intro p a h
    simp only [exHeap] at h
    split_ifs at h <;> simp only [Option.some.injEq, reduceCtorEq] at h <;> subst h <;>
      simp [exHeap]
  · intro p a h hk hcls
    simp only [exHeap] at h
    split_ifs at h <;> simp only [Option.some.injEq, reduceCtorEq] at h <;> subst h
    · refine ⟨fun _ => [VisitCall.visit 32], rfl, ?_⟩
      intro c hc
      simp only [List.mem_singleton] at hc
      subst hc
      exact (rfl : exHeap.getAllocationFromInteriorPointer 32 = some ⟨32⟩)
    · simp [exHeap] at hk
    · simp [exHeap] at hk

theorem exCollector_roots : ∀ p ∈ exCollector.roots.v, exHeap.IsUserData p := by
  intro p hp
  simp only [exCollector, List.mem_singleton] at hp
  subst hp
  rfl

/-! ## Lemmas on successive cycles -/

theorem markPhase_mono (M : Memory) (C : Collector) (candidates : List Nat) (H : Heap)
    {fuel fuel1 : Nat} (hle : fuel ≤ fuel1) {r : Except GCError Heap}
    (h : markPhase M C candidates fuel H = some r) :
    markPhase M C candidates fuel1 H = some r := by
  simp only [markPhase] at h ⊢
  cases hr : markPhaseRoots M C candidates H with
  | error e => simpa [hr] using h
  | ok st =>
    simp only [hr] at h ⊢
    exact markLoop_mono M fuel H st r h fuel1 hle

theorem runCollection_mono (M : Memory) (C : Collector) (candidates : List Nat) (H : Heap)
    {fuel fuel1 : Nat} (hle : fuel ≤ fuel1) {r : Except GCError (Collector × Heap)}
    (h : runCollection M candidates fuel C H = some r) :
    runCollection M candidates fuel1 C H = some r := by
  simp only [runCollection] at h ⊢
  cases hm : markPhase M { C with ncollections := C.ncollections + 1 } candidates fuel H with
  | none => simp [hm] at h
  | some r1 =>
    rw [markPhase_mono M _ candidates H hle hm]
    simpa [hm] using h

theorem runCollections_mono (M : Memory) {fuel fuel1 : Nat} (hle : fuel ≤ fuel1) :
    ∀ (cycles : List (List Nat)) (C : Collector) (H : Heap)
      (r : Except GCError (List (Collector × Heap))),
      runCollections M fuel cycles C H = some r → runCollections M fuel1 cycles C H = some r := by
  intro cycles
  induction cycles with
  | nil => intro C H r h; simpa [runCollections] using h
  | cons c cycles ih =>
    intro C H r h
    simp only [runCollections] at h ⊢
    cases hc : runCollection M c fuel C H with
    | none => simp [hc] at h
    | some r1 =>
      rw [runCollection_mono M C c H hle hc]
      cases r1 with
      | error e => simpa [hc] using h
      | ok s =>
        obtain ⟨C1, H1⟩ := s
        simp only [hc] at h ⊢
        cases hrest : runCollections M fuel cycles C1 H1 with
        | none => simp [hrest] at h
        | some r2 =>
          rw [ih C1 H1 r2 hrest]
          simpa [hrest] using h

theorem isUserData_sweep {H H1 : Heap}
    (hres : H1.getAllocationFromInteriorPointer = H.getAllocationFromInteriorPointer)
    {q : Nat} (hq : H.IsUserData q) (hm : H1.isMarked ⟨q⟩ = true) :
    (sweepPhase H1).IsUserData q := by
  simp only [Heap.IsUserData] at hq
  simp [Heap.IsUserData, sweepPhase, Heap.freeUnmarked, hres, hq, hm]

theorem resolve_sweep {H1 : Heap} {p : Nat} {a : GCAllocation}
    (h : (sweepPhase H1).getAllocationFromInteriorPointer p = some a) :
    H1.getAllocationFromInteriorPointer p = some a ∧ H1.isMarked a = true := by
  simpa [sweepPhase, Heap.freeUnmarked, Option.filter_eq_some] using h

theorem VisitCall.precise_sweep {H H1 : Heap} {M : Memory}
    (hres : H1.getAllocationFromInteriorPointer = H.getAllocationFromInteriorPointer)
    (c : VisitCall) (hc : c.Precise H M)
    (hm : ∀ q ∈ c.reported H M, H1.isMarked ⟨q⟩ = true) : c.Precise (sweepPhase H1) M := by
  cases c with
  | visit p => exact isUserData_sweep hres hc (hm p (by simp [VisitCall.reported]))
  | visitRange s e =>
    refine ⟨hc.1, fun a ha => isUserData_sweep hres (hc.2 a ha) (hm _ ?_)⟩
    obtain ⟨i, rfl, hi⟩ := mem_rangeSlots.1 ha
    have h8 := hc.1
    simp only [VisitCall.reported, List.mem_map, List.mem_range]
    exact ⟨i, by omega, rfl⟩
  | visitPotential p => trivial
  | visitPotentialRange s e => trivial

theorem cycleReady_sweep {M : Memory} {C : Collector} {H H1 : Heap} (hready : CycleReady M C H)
    (hshape : H1.allocs = H.allocs ∧
      H1.getAllocationFromInteriorPointer = H.getAllocationFromInteriorPointer ∧
      H1.kind_id = H.kind_id ∧ H1.kind_data = H.kind_data)
    (hroots : ∀ p ∈ C.roots.v, H1.isMarked ⟨p⟩ = true)
    (hcl : ∀ p, H1.isMarked ⟨p⟩ = true → H.isMarked ⟨p⟩ = false →
      ∀ q ∈ references H M ⟨p⟩, H1.isMarked ⟨q⟩ = true) :
    CycleReady M { C with ncollections := C.ncollections + 1 } (sweepPhase H1) := by
  obtain ⟨hwf, hr, hclean⟩ := hready
  obtain ⟨hallocs, hres, hkind, hdata⟩ := hshape
  refine ⟨⟨?_, ?_, ?_, ?_, ?_, ?_⟩, ?_, ?_⟩
  · intro p a h
    obtain ⟨h1, hm⟩ := resolve_sweep h
    rw [hres] at h1
    exact isUserData_sweep hres (hwf.own p a h1) hm
  · have := hwf.null
    simp [sweepPhase, Heap.freeUnmarked, hres, this]
  · intro p a h
    obtain ⟨h1, hm⟩ := resolve_sweep h
    rw [hres] at h1
    simp only [sweepPhase, Heap.freeUnmarked, List.mem_filter, hallocs]
    exact ⟨hwf.managed p a h1, hm⟩
  · intro p a h
    obtain ⟨h1, _⟩ := resolve_sweep h
    rw [hres] at h1
    exact hwf.aligned p a h1
  · intro p a h
    obtain ⟨h1, _⟩ := resolve_sweep h
    rw [hres] at h1
    have := hwf.kinds p a h1
    simpa [sweepPhase, Heap.freeUnmarked, hkind] using this
  · intro p a h hk hcls
    obtain ⟨h1, hm⟩ := resolve_sweep h
    rw [hres] at h1
    have hk1 : H.kind_id a = .PYTHON := by
      simpa [sweepPhase, Heap.freeUnmarked, hkind] using hk
    obtain ⟨f, hf, hprec⟩ := hwf.callbacks p a h1 hk1 hcls
    refine ⟨f, hf, fun c hc => VisitCall.precise_sweep hres c (hprec c hc) ?_⟩
    intro q hq
    have hun : H.isMarked ⟨a.user_data⟩ = false := hclean a (hwf.managed p a h1)
    refine hcl a.user_data hm hun q ?_
    simp only [references, hk1, hcls, ne_eq, not_false_eq_true, if_true, hf, List.mem_flatMap]
    refine ⟨c, hc, ?_⟩
    cases c <;> exact hq
  · intro p hp
    exact isUserData_sweep hres (hr p hp) (hroots p hp)
  · intro a _
    rfl

theorem runCollections_ready (M : Memory) :
    ∀ (cycles : List (List Nat)) (C : Collector) (H : Heap), CycleReady M C H →
      ∃ fuel states, runCollections M fuel cycles C H = some (.ok states) ∧
        states.length = cycles.length ∧
        ∀ s ∈ states,
          s.1.roots = C.roots ∧ ∀ p ∈ C.roots.v, (⟨p⟩ : GCAllocation) ∈ s.2.allocs := by
  intro cycles
  induction cycles with
  | nil => intro C H _; exact ⟨0, [], rfl, rfl, by simp⟩
  | cons c cycles ih =>
    intro C H hready
    obtain ⟨fuel, H1, hrun, hshape, hrootsm, hcl, _⟩ :=
      markPhase_wf hready.1 { C with ncollections := C.ncollections + 1 } c hready.2.1
    have hrm : ∀ p ∈ C.roots.v, H1.isMarked ⟨p⟩ = true := fun p hp =>
      hrootsm p (by simp [rootEntries, hp])
    have hnext := cycleReady_sweep hready hshape hrm hcl
    obtain ⟨fuel2, states, hrest, hlen, hst⟩ := ih _ _ hnext
    have h1 : runCollection M c (max fuel fuel2) C H =
        some (.ok ({ C with ncollections := C.ncollections + 1 }, sweepPhase H1)) := by
      simp only [runCollection, markPhase_mono M _ c H (le_max_left fuel fuel2) hrun]
    refine ⟨max fuel fuel2, ({ C with ncollections := C.ncollections + 1 }, sweepPhase H1) ::
      states, ?_, by simp [hlen], ?_⟩
    · simp only [runCollections, h1,
        runCollections_mono M (le_max_right fuel fuel2) cycles _ _ _ hrest]
    · intro s hs
      rcases List.mem_cons.1 hs with rfl | hs
      · exact ⟨rfl, fun p hp => hnext.1.managed p ⟨p⟩ (hnext.2.1 p hp)⟩
      · exact hst s hs

/-! ## Lemmas on the mark flags -/

theorem markStep_marks {M : Memory} {H H1 : Heap} {st st1 : TraceStack}
    (h : markStep M H st = .ok (some (H1, st1))) :
    (∀ a, H.isMarked a = true → H1.isMarked a = true) ∧
      (∀ a, H1.isMarked a = true → H.isMarked a = false →
        a = GCAllocation.fromUserData st.pop.1) := by
  obtain ⟨v, p, hv, _, _, hc⟩ := markStep_ok_some h
  obtain ⟨w⟩ := st
  simp only at hv
  subst hv
  rw [TraceStack.pop_snoc]
  rcases hc with ⟨_, rfl, _⟩ | ⟨_, rfl, _⟩
  · refine ⟨fun a ha => ha, fun a ha hna => ?_⟩
    rw [ha] at hna
    exact absurd hna (by decide)
  · refine ⟨fun a ha => by simp [Heap.setMark, ha], fun a ha hna => ?_⟩
    by_cases hap : a = ⟨p⟩
    · exact hap
    · simp [Heap.setMark, hap, hna] at ha

theorem markLoop_marks_superset (M : Memory) :
    ∀ (fuel : Nat) (H : Heap) (stack : TraceStack) (H1 : Heap),
      markLoop M fuel H stack = some (.ok H1) →
      ∀ a, H.isMarked a = true → H1.isMarked a = true := by
  intro fuel
  induction fuel with
  | zero => intro H stack H1 h; simp [markLoop] at h
  | succ fuel ih =>
    intro H stack H1 h a ha
    simp only [markLoop] at h
    cases hs : markStep M H stack with
    | error e => simp [hs] at h
    | ok o =>
      cases o with
      | none =>
        simp only [hs, Option.some.injEq, Except.ok.injEq] at h
        subst h
        exact ha
      | some q =>
        obtain ⟨H2, st2⟩ := q
        simp only [hs] at h
        exact ih H2 st2 H1 h a ((markStep_marks hs).1 a ha)

theorem markStep_no_gc_visit (M : Memory) (H : Heap) (v : List Nat) {p : Nat}
    (hp : p ≠ 0) (hal : p % 8 = 0) (hm : H.isMarked ⟨p⟩ = false)
    (hk : H.kind_id ⟨p⟩ = .PYTHON) (hcls : M.word p ≠ NULL)
    (hg : M.gc_visit (M.word p) = none) :
    markStep M H ⟨v ++ [p]⟩ = .error .gcVisitAssert := by
  have hk1 : (H.setMark ⟨p⟩).kind_id ⟨p⟩ = .PYTHON := hk
  simp only [NULL] at hcls
  simp [markStep, TraceStack.pop_snoc, NULL, hp, hal, GCAllocation.fromUserData, hm, hk1,
    hcls, hg]

theorem markLoop_ok_not_uncallable (M : Memory) {p : Nat} (hcls : M.word p ≠ NULL)
    (hg : M.gc_visit (M.word p) = none) :
    ∀ (fuel : Nat) (H : Heap) (stack : TraceStack) (H1 : Heap),
      markLoop M fuel H stack = some (.ok H1) → H.kind_id ⟨p⟩ = .PYTHON →
      H1.isMarked ⟨p⟩ = true → H.isMarked ⟨p⟩ = true := by
  intro fuel
  induction fuel with
  | zero => intro H stack H1 h; simp [markLoop] at h
  | succ fuel ih =>
    intro H stack H1 h hk hm1
    simp only [markLoop] at h
    cases hs : markStep M H stack with
    | error e => simp [hs] at h
    | ok o =>
      cases o with
      | none =>
        simp only [hs, Option.some.injEq, Except.ok.injEq] at h
        subst h
        exact hm1
      | some q =>
        obtain ⟨H2, st2⟩ := q
        simp only [hs] at h
        obtain ⟨v, q, hv, hq0, hqal, hc⟩ := markStep_ok_some hs
        rcases hc with ⟨_, rfl, _⟩ | ⟨hqm, rfl, _⟩
        · exact ih _ st2 H1 h hk hm1
        · have h2 := ih _ st2 H1 h hk hm1
          by_cases hqp : q = p
          · subst hqp
            obtain ⟨w⟩ := stack
            simp only at hv
            subst hv
            rw [markStep_no_gc_visit M H v hq0 hqal hqm hk hcls hg] at hs
            simp at hs
          · have hne : (⟨p⟩ : GCAllocation) ≠ ⟨q⟩ := by
              intro he
              exact hqp (congrArg GCAllocation.user_data he).symm
            simpa [Heap.setMark, hne] using h2

/-! ## Lemmas on the root handles -/

theorem mem_construct (C : Collector) (this h : Nat) :
    h ∈ (StaticRootHandle.construct C this).root_handles ↔ h = this ∨ h ∈ C.root_handles := by
  simp only [StaticRootHandle.construct]
  split_ifs with hin
  · constructor
    · intro hh; exact Or.inr hh
    · rintro (rfl | hh)
      · exact hin
      · exact hh
  · simp only [List.mem_append, List.mem_singleton]
    tauto

theorem mem_destruct (C : Collector) (this h : Nat) :
    h ∈ (StaticRootHandle.destruct C this).root_handles ↔ h ≠ this ∧ h ∈ C.root_handles := by
  simp only [StaticRootHandle.destruct, List.mem_filter, ne_eq, decide_not, Bool.not_eq_true',
    decide_eq_false_iff_not]
  tauto

theorem mem_handleEvents :
    ∀ (events : List HandleEvent) (C : Collector) (h : Nat),
      h ∈ (handleEvents C events).root_handles ↔
        ConstructedNotDestroyed C.root_handles events h := by
  intro events
  induction events with
  | nil =>
    intro C h
    simp [handleEvents, ConstructedNotDestroyed]
  | cons e es ih =>
    intro C h
    have hstep : handleEvents C (e :: es) = handleEvents (HandleEvent.apply C e) es := rfl
    rw [hstep, ih]
    simp only [ConstructedNotDestroyed, List.cons_eq_append_iff, List.mem_cons, not_or]
    cases e with
    | construct t =>
      simp only [HandleEvent.apply, mem_construct, List.cons.injEq, HandleEvent.construct.injEq,
        reduceCtorEq, not_false_eq_true, true_and]
      constructor
      · rintro (⟨pre, post, hes, hd⟩ | ⟨hh | hh, hd⟩)
        · exact Or.inl ⟨HandleEvent.construct t :: pre, post, Or.inr ⟨pre, rfl, hes⟩, hd⟩
        · exact Or.inl ⟨[], es, Or.inl ⟨rfl, hh, rfl⟩, hd⟩
        · exact Or.inr ⟨hh, hd⟩
      · rintro (⟨pre, post, (⟨rfl, ht, rfl⟩ | ⟨pre1, rfl, hes⟩), hd⟩ | ⟨hh, hd⟩)
        · exact Or.inr ⟨Or.inl ht, hd⟩
        · exact Or.inl ⟨pre1, post, hes, hd⟩
        · exact Or.inr ⟨Or.inr hh, hd⟩
    | destruct t =>
      simp only [HandleEvent.apply, mem_destruct, List.cons.injEq, reduceCtorEq, false_and,
        HandleEvent.destruct.injEq]
      constructor
      · rintro (⟨pre, post, hes, hd⟩ | ⟨⟨hne, hh⟩, hd⟩)
        · exact Or.inl ⟨HandleEvent.destruct t :: pre, post, Or.inr ⟨pre, rfl, hes⟩, hd⟩
        · exact Or.inr ⟨hh, hne, hd⟩
      · rintro (⟨pre, post, (⟨_, hF⟩ | ⟨pre1, rfl, hes⟩), hd⟩ | ⟨hh, hne, hd⟩)
        · exact absurd hF id
        · exact Or.inl ⟨pre1, post, hes, hd⟩
        · exact Or.inr ⟨⟨hne, hh⟩, hd⟩

theorem forEach_congr {α : Type} (f g : α → TraceStack → Except GCError TraceStack) :
    ∀ (xs : List α) (st : TraceStack), (∀ x ∈ xs, ∀ s, f x s = g x s) →
      forEach f xs st = forEach g xs st := by
  intro xs
  induction xs with
  | nil => intro st _; rfl
  | cons x xs ih =>
    intro st h
    simp only [forEach, h x (List.mem_cons_self _ _)]
    cases g x st with
    | error e => rfl
    | ok st1 => exact ih st1 (fun y hy => h y (List.mem_cons_of_mem _ hy))

theorem visitPotentialRange_assign (H : Heap) (M : Memory) (this v start end_ : Nat)
    (hthis : this ∉ rangeSlots start end_) (st : TraceStack) :
    TraceStackGCVisitor.visitPotentialRange H (StaticRootHandle.assign M this v) start end_ st =
      TraceStackGCVisitor.visitPotentialRange H M start end_ st := by
  rw [visitPotentialRange_eq_forEach, visitPotentialRange_eq_forEach]
  refine forEach_congr _ _ _ st ?_
  intro a ha s
  have hne : a ≠ this := fun he => hthis (he ▸ ha)
  simp [StaticRootHandle.assign, hne]

theorem markPhaseRoots_assign (H : Heap) (M : Memory) (C : Collector) (candidates : List Nat)
    (this v : Nat) (hh : this ∉ C.root_handles)
    (hr : ∀ r ∈ C.static_root_memory, this ∉ rangeSlots r.1 r.2) :
    markPhaseRoots (StaticRootHandle.assign M this v) C candidates H =
      markPhaseRoots M C candidates H := by
  simp only [markPhaseRoots]
  cases collectStackRoots H candidates C.roots with
  | error e => rfl
  | ok st1 =>
    simp only
    rw [forEach_congr _ (fun (p : Nat × Nat) st =>
      TraceStackGCVisitor.visitPotentialRange H M p.1 p.2 st) C.static_root_memory st1
      (fun r hrm s => visitPotentialRange_assign H M this v r.1 r.2 (hr r hrm) s)]
    cases forEach (fun (p : Nat × Nat) st =>
      TraceStackGCVisitor.visitPotentialRange H M p.1 p.2 st) C.static_root_memory st1 with
    | error e => rfl
    | ok st2 =>
      simp only
      refine forEach_congr _ _ _ st2 ?_
      intro h hmem s
      have hne : h ≠ this := fun he => hh (he ▸ hmem)
      simp [StaticRootHandle.assign, hne]

/-! ## Lemmas on the conservative scan -/

theorem rangeSlots_length (start end_ : Nat) :
    (rangeSlots start end_).length = (end_ - start + 7) / 8 := by
  simp [rangeSlots]

theorem rangeSlots_eq_wordsInside (p n : Nat) (h : n % 8 = 0) :
    rangeSlots p (p + n) = wordsInside p n := by
  have h1 : (p + n - p + 7) / 8 = n / 8 := by omega
  simp only [rangeSlots, wordsInside, h1]

theorem markStep_conservative (M : Memory) (H : Heap) (v : List Nat) {p : Nat}
    (hp : p ≠ 0) (hal : p % 8 = 0) (hm : H.isMarked ⟨p⟩ = false)
    (hk : H.kind_id ⟨p⟩ = .CONSERVATIVE) :
    markStep M H ⟨v ++ [p]⟩ =
      match forEach (fun a st => TraceStackGCVisitor.visitPotential H (M.word a) st)
          (rangeSlots p (p + H.kind_data ⟨p⟩)) ⟨v⟩ with
      | .error e => .error e
      | .ok stack1 => .ok (some (H.setMark ⟨p⟩, stack1)) := by
  have hk1 : (H.setMark ⟨p⟩).kind_id ⟨p⟩ = .CONSERVATIVE := hk
  simp only [markStep, TraceStack.pop_snoc, NULL, hp, hal, GCAllocation.fromUserData, hm,
    if_false, ne_eq, not_true_eq_false, Bool.false_eq_true, hk1,
    visitPotentialRange_eq_forEach]
  rfl

/-! ## Lemmas for the scenarios and for the order of the worklist -/

theorem potentialTargets_eq_nil {H : Heap} {ws : List Nat}
    (h : ∀ w ∈ ws, H.getAllocationFromInteriorPointer w = none) : potentialTargets H ws = [] := by
  simp only [potentialTargets, List.filterMap_eq_nil_iff]
  intro w hw
  simp [h w hw]

theorem markPhaseRoots_sweep_null (H1 : Heap) {M : Memory} {C : Collector} {h : Nat}
    (hnull : H1.getAllocationFromInteriorPointer NULL = none) (hroots : C.roots = ⟨[]⟩)
    (hsrm : C.static_root_memory = []) (hh : C.root_handles = [h]) (hval : M.word h = NULL) :
    markPhaseRoots M C [] (sweepPhase H1) = .ok ⟨[]⟩ := by
  have hres : (sweepPhase H1).getAllocationFromInteriorPointer NULL = none := by
    simp [sweepPhase, Heap.freeUnmarked, hnull]
  simp [markPhaseRoots, collectStackRoots, forEach, hroots, hsrm, hh, hval,
    TraceStackGCVisitor.visitPotential, hres]

theorem reachableFrom_congr {H : Heap} {M : Memory} {l1 l2 : List Nat}
    (h : ∀ p, p ∈ l1 → p ∈ l2) {a : GCAllocation} (ha : ReachableFrom H M l1 a) :
    ReachableFrom H M l2 a := by
  induction ha with
  | entry hp => exact ReachableFrom.entry (h _ hp)
  | reference _ hq ih => exact ReachableFrom.reference ih hq

theorem reachableFrom_isUserData {H : Heap} {M : Memory} (hwf : WellFormed H M)
    {entries : List Nat} (hst : ∀ p ∈ entries, H.IsUserData p) {a : GCAllocation}
    (ha : ReachableFrom H M entries a) : H.IsUserData a.user_data := by
  induction ha with
  | entry hp => exact hst _ hp
  | reference _ hq ih => exact references_isUserData hwf ih _ hq

theorem markLoop_wf_reach {H : Heap} {M : Memory} (hwf : WellFormed H M)
    (hclean : ∀ a ∈ H.allocs, H.isMarked a = false) (stack : TraceStack)
    (hst : ∀ p ∈ stack.v, H.IsUserData p) :
    ∃ fuel H1, markLoop M fuel H stack = some (.ok H1) ∧
      ∀ a, H1.isMarked a = true ↔ H.isMarked a = true ∨ ReachableFrom H M stack.v a := by
  obtain ⟨fuel, H1, hrun⟩ := markLoop_wf_exists M _ _ H stack hwf hst le_rfl le_rfl
  obtain ⟨hmono, hstk, _⟩ := markLoop_ok_marks M fuel H stack H1 hwf.null
    (not_mem_zero_of_isUserData hwf hst) hrun
  obtain ⟨hcl, hsound⟩ := markLoop_wf_marks M fuel H stack H1 hwf hst hrun
  refine ⟨fuel, H1, hrun, fun a => ⟨?_, ?_⟩⟩
  · exact hsound (ReachableFrom H M stack.v) (fun p hp => ReachableFrom.entry hp)
      (fun p hp q hq => ReachableFrom.reference hp hq) a
  · rintro (hm | hr)
    · exact hmono a hm
    · induction hr with
      | entry hp => exact hstk _ hp
      | reference hra hq ih =>
        exact hcl _ ih
          (hclean _ (hwf.managed _ _ (reachableFrom_isUserData hwf hst hra))) _ hq

theorem cycHeap_wellFormed : WellFormed cycHeap cycMemoryHandle := by
  refine ⟨?_, rfl, ?_, ?_, ?_, ?_⟩
  · intro p a h
    simp only [cycHeap] at h
    split_ifs at h <;> simp only [Option.some.injEq, reduceCtorEq] at h <;> subst h <;> rfl
  · intro p a h
    simp only [cycHeap] at h ⊢
    split_ifs at h <;> simp only [Option.some.injEq, reduceCtorEq] at h <;> subst h <;> simp
  · intro p a h
    simp only [cycHeap] at h
    split_ifs at h <;> simp only [Option.some.injEq, reduceCtorEq] at h <;> subst h <;> rfl
  · intro p a _
    exact Or.inr (Or.inl rfl)
  · intro p a _ hk
    simp [cycHeap] at hk

/-! ## Lemmas on the entries a scan pushes -/

theorem visit_framed (H : Heap) (p : Nat) : Framed (TraceStackGCVisitor.visit H p) := by
  intro st
  simp only [TraceStackGCVisitor.visit]
  by_cases hp : GCAllocation.user_data_of (H.getAllocationFromInteriorPointer p) = p
  · simp [hp, TraceStack.push]
  · simp [hp]

theorem visitPotential_framed (H : Heap) (p : Nat) :
    Framed (TraceStackGCVisitor.visitPotential H p) := by
  intro st
  simp only [TraceStackGCVisitor.visitPotential]
  cases H.getAllocationFromInteriorPointer p with
  | none => simp
  | some a => exact visit_framed H a.user_data st

theorem forEach_framed {α : Type} (body : α → TraceStack → Except GCError TraceStack) :
    ∀ (xs : List α), (∀ x ∈ xs, Framed (body x)) → Framed (forEach body xs) := by
  intro xs
  induction xs with
  | nil => intro _ st; simp [forEach]
  | cons x xs ih =>
    intro h st
    have hx := h x (List.mem_cons_self _ _)
    have hxs := ih (fun y hy => h y (List.mem_cons_of_mem _ hy))
    simp only [forEach]
    rw [hx st]
    cases h0 : body x ⟨[]⟩ with
    | error e => rfl
    | ok s0 =>
      simp only
      rw [hxs ⟨st.v ++ s0.v⟩, hxs s0]
      cases forEach body xs ⟨[]⟩ with
      | error e => rfl
      | ok s1 => simp [List.append_assoc]

theorem visitPotentialRange_framed (H : Heap) (M : Memory) (start end_ : Nat) :
    Framed (TraceStackGCVisitor.visitPotentialRange H M start end_) := by
  intro st
  rw [visitPotentialRange_eq_forEach, visitPotentialRange_eq_forEach]
  exact forEach_framed _ _ (fun a _ => visitPotential_framed H (M.word a)) st

theorem visitRange_framed (H : Heap) (M : Memory) (start end_ : Nat) :
    Framed (TraceStackGCVisitor.visitRange H M start end_) := by
  intro st
  simp only [TraceStackGCVisitor.visitRange]
  cases TraceStackGCVisitor.visitRangeCheck H M (end_ - start) start end_ with
  | error e => rfl
  | ok u => simp [TraceStack.pushall]

theorem VisitCall.run_framed (H : Heap) (M : Memory) (c : VisitCall) :
    Framed (VisitCall.run H M c) := by
  cases c with
  | visit p => exact visit_framed H p
  | visitRange s e => exact visitRange_framed H M s e
  | visitPotential p => exact visitPotential_framed H p
  | visitPotentialRange s e => exact visitPotentialRange_framed H M s e

theorem visitRangeCheck_setMark (H : Heap) (M : Memory) (al : GCAllocation) (end_ : Nat) :
    ∀ (n cur : Nat), TraceStackGCVisitor.visitRangeCheck (H.setMark al) M n cur end_ =
      TraceStackGCVisitor.visitRangeCheck H M n cur end_ := by
  intro n
  induction n with
  | zero => intro cur; rfl
  | succ n ih =>
    intro cur
    simp only [TraceStackGCVisitor.visitRangeCheck, ih]
    rfl

theorem visitPotentialRange_setMark (H : Heap) (M : Memory) (al : GCAllocation)
    (start end_ : Nat) (st : TraceStack) :
    TraceStackGCVisitor.visitPotentialRange (H.setMark al) M start end_ st =
      TraceStackGCVisitor.visitPotentialRange H M start end_ st := by
  rw [visitPotentialRange_eq_forEach, visitPotentialRange_eq_forEach]
  exact forEach_congr _ _ _ st (fun a _ s => rfl)

theorem VisitCall.run_setMark (H : Heap) (M : Memory) (al : GCAllocation) (c : VisitCall)
    (st : TraceStack) : VisitCall.run (H.setMark al) M c st = VisitCall.run H M c st := by
  cases c with
  | visit p => rfl
  | visitRange s e =>
    simp only [VisitCall.run, TraceStackGCVisitor.visitRange, visitRangeCheck_setMark]
  | visitPotential p => rfl
  | visitPotentialRange s e => exact visitPotentialRange_setMark H M al s e st

theorem scanPushes_setMark (M : Memory) (H : Heap) (al : GCAllocation) (p : Nat) :
    scanPushes M (H.setMark al) p = scanPushes M H p := by
  have hk : (H.setMark al).kind_id ⟨p⟩ = H.kind_id ⟨p⟩ := rfl
  have hd : (H.setMark al).kind_data ⟨p⟩ = H.kind_data ⟨p⟩ := rfl
  have hf : ∀ calls, forEach (VisitCall.run (H.setMark al) M) calls ⟨[]⟩ =
      forEach (VisitCall.run H M) calls ⟨[]⟩ := fun calls =>
    forEach_congr _ _ calls ⟨[]⟩ (fun c _ s => VisitCall.run_setMark H M al c s)
  simp only [scanPushes, hk, hd, visitPotentialRange_setMark, hf]

theorem markStep_snoc_scan (M : Memory) (H : Heap) (v : List Nat) {p : Nat}
    (hp : p ≠ 0) (hm : H.isMarked ⟨p⟩ = false) :
    markStep M H ⟨v ++ [p]⟩ =
      match scanPushes M H p with
      | .error e => .error e
      | .ok L => .ok (some (H.setMark ⟨p⟩, ⟨v ++ L⟩)) := by
  rw [← scanPushes_setMark M H ⟨p⟩ p]
  by_cases hal : p % 8 = 0
  swap
  · simp [markStep_snoc_misaligned M H v hp hal, scanPushes, hal]
  simp only [markStep, TraceStack.pop_snoc, NULL, hp, hal, GCAllocation.fromUserData, hm,
    if_false, ne_eq, not_true_eq_false, Bool.false_eq_true, scanPushes]
  cases hk : (H.setMark ⟨p⟩).kind_id ⟨p⟩ with
  | UNTRACKED => simp
  | unhandled n => rfl
  | CONSERVATIVE =>
    simp only
    rw [visitPotentialRange_framed (H.setMark ⟨p⟩) M p _ ⟨v⟩]
    cases TraceStackGCVisitor.visitPotentialRange (H.setMark ⟨p⟩) M p
        (p + (H.setMark ⟨p⟩).kind_data ⟨p⟩) ⟨[]⟩ with
    | error e => rfl
    | ok s0 => rfl
  | PYTHON =>
    simp only
    by_cases hcls : M.word p = 0
    · simp [hcls]
    · simp only [hcls, not_false_eq_true, if_true]
      cases hg : M.gc_visit (M.word p) with
      | none => rfl
      | some f =>
        simp only
        rw [forEach_framed _ _ (fun c _ => VisitCall.run_framed (H.setMark ⟨p⟩) M c) ⟨v⟩]
        cases forEach (VisitCall.run (H.setMark ⟨p⟩) M) (f p) ⟨[]⟩ with
        | error e => rfl
        | ok s0 => rfl

theorem scanPushes_resolve {M : Memory} {H : Heap} {p : Nat} {L : List Nat}
    (h : scanPushes M H p = .ok L) : ∀ q ∈ L, H.Passes q := by
  by_cases hal : p % 8 = 0
  swap
  · simp [scanPushes, hal] at h
  simp only [scanPushes, hal, ne_eq, not_true_eq_false, if_false] at h
  cases hk : H.kind_id ⟨p⟩ with
  | UNTRACKED =>
    simp only [hk, Except.ok.injEq] at h
    subst h
    simp
  | unhandled n => simp [hk] at h
  | CONSERVATIVE =>
    simp only [hk] at h
    cases hs : TraceStackGCVisitor.visitPotentialRange H M p (p + H.kind_data ⟨p⟩) ⟨[]⟩ with
    | error e => simp [hs] at h
    | ok s =>
      simp only [hs, Except.ok.injEq] at h
      subst h
      obtain ⟨L1, hL1, hres⟩ := visitPotentialRange_appends H M _ _ _ _ hs
      simp only [List.nil_append] at hL1
      rw [hL1]
      exact hres
  | PYTHON =>
    simp only [hk] at h
    by_cases hcls : M.word p = NULL
    · simp only [hcls, not_true_eq_false, if_false, Except.ok.injEq] at h
      subst h
      simp
    · simp only [hcls, not_false_eq_true, if_true] at h
      cases hg : M.gc_visit (M.word p) with
      | none => simp [hg] at h
      | some f =>
        simp only [hg] at h
        cases hs : forEach (VisitCall.run H M) (f p) ⟨[]⟩ with
        | error e => simp [hs] at h
        | ok s =>
          simp only [hs, Except.ok.injEq] at h
          subst h
          obtain ⟨L1, hL1, hres⟩ := forEach_appends H _ _
            (fun c _ => VisitCall.run_appends H M c) _ _ hs
          simp only [List.nil_append] at hL1
          rw [hL1]
          exact hres

theorem scanPushes_aligned {M : Memory} {H : Heap} {p : Nat} {L : List Nat}
    (h : scanPushes M H p = .ok L) : p % 8 = 0 := by
  by_contra hal
  simp [scanPushes, hal] at h

theorem not_mem_zero_append {H : Heap} {M : Memory} {p : Nat} {v L : List Nat}
    (h0 : H.getAllocationFromInteriorPointer NULL = none) (hv : 0 ∉ v)
    (hL : scanPushes M H p = .ok L) : 0 ∉ v ++ L := by
  intro hx
  rcases List.mem_append.1 hx with hx | hx
  · exact hv hx
  · exact (scanPushes_resolve hL 0 hx).nonnull h0 rfl

theorem markLoop_push_marks (M : Memory) :
    ∀ (fuel : Nat) (H : Heap) (stack : TraceStack) (H1 : Heap),
      H.getAllocationFromInteriorPointer NULL = none → 0 ∉ stack.v →
      markLoop M fuel H stack = some (.ok H1) →
      (∀ p, H1.isMarked ⟨p⟩ = true → H.isMarked ⟨p⟩ = false →
          ∃ L, scanPushes M H p = .ok L ∧ ∀ q ∈ L, H1.isMarked ⟨q⟩ = true) ∧
        (∀ R : Nat → Prop, (∀ p ∈ stack.v, R p) →
          (∀ p L, R p → scanPushes M H p = .ok L → ∀ q ∈ L, R q) →
          ∀ p, H1.isMarked ⟨p⟩ = true → H.isMarked ⟨p⟩ = true ∨ R p) := by
  intro fuel
  induction fuel with
  | zero => intro H stack H1 _ _ h; simp [markLoop] at h
  | succ fuel ih =>
    intro H stack H1 h0 hst h
    obtain ⟨v⟩ := stack
    rcases eq_nil_or_snoc v with rfl | ⟨v1, p, rfl⟩
    · simp only [markLoop, markStep_nil, Option.some.injEq, Except.ok.injEq] at h
      subst h
      refine ⟨?_, fun R _ _ p hp => Or.inl hp⟩
      intro p hp hnp
      simp [hp] at hnp
    · have hp : p ≠ 0 := fun hp => hst (by simp [hp])
      have hv1 : 0 ∉ v1 := fun hv => hst (by simp [hv])
      cases hm : H.isMarked ⟨p⟩ with
      | true =>
        by_cases hal : p % 8 = 0
        swap
        · simp [markLoop, markStep_snoc_misaligned M H v1 hp hal] at h
        simp only [markLoop, markStep_snoc_marked M H v1 hp hal hm] at h
        obtain ⟨hcl, hsound⟩ := ih H ⟨v1⟩ H1 h0 hv1 h
        exact ⟨hcl, fun R hR hRc q hq =>
          hsound R (fun x hx => hR x (by simp [hx])) hRc q hq⟩
      | false =>
        simp only [markLoop, markStep_snoc_scan M H v1 hp hm] at h
        cases hs : scanPushes M H p with
        | error e => simp [hs] at h
        | ok L =>
          simp only [hs] at h
          have hL0 : 0 ∉ v1 ++ L := not_mem_zero_append h0 hv1 hs
          obtain ⟨hcl, hsound⟩ := ih (H.setMark ⟨p⟩) ⟨v1 ++ L⟩ H1 h0 hL0 h
          obtain ⟨_, hstk, _⟩ := markLoop_ok_marks M fuel (H.setMark ⟨p⟩) ⟨v1 ++ L⟩ H1 h0
            hL0 h
          refine ⟨?_, ?_⟩
          · intro x hx hnx
            by_cases hxp : x = p
            · subst hxp
              exact ⟨L, hs, fun q hq => hstk q (List.mem_append.2 (Or.inr hq))⟩
            · have hne : (⟨x⟩ : GCAllocation) ≠ ⟨p⟩ := fun he =>
                hxp (congrArg GCAllocation.user_data he)
              have := hcl x hx (by simpa [Heap.setMark, hne] using hnx)
              rwa [scanPushes_setMark] at this
          · intro R hR hRc x hx
            have hRp : R p := hR p (by simp)
            have := hsound R
              (by
                intro y hy
                rcases List.mem_append.1 hy with hy | hy
                · exact hR y (by simp [hy])
                · exact hRc p L hRp hs y hy)
              (fun y Ly hy hLy => hRc y Ly hy (by rwa [scanPushes_setMark] at hLy)) x hx
            rcases this with hma | hRx
            · by_cases hxp : x = p
              · subst hxp
                exact Or.inr hRp
              · have hne : (⟨x⟩ : GCAllocation) ≠ ⟨p⟩ := fun he =>
                  hxp (congrArg GCAllocation.user_data he)
                exact Or.inl (by simpa [Heap.setMark, hne] using hma)
            · exact Or.inr hRx

theorem markLoop_good_ok (M : Memory) (S : Nat → Prop) :
    ∀ (fuel : Nat) (H : Heap) (stack : TraceStack) (r : Except GCError Heap),
      (∀ p, S p → p ≠ 0 ∧ ∃ L, scanPushes M H p = .ok L ∧ ∀ q ∈ L, S q) →
      (∀ p ∈ stack.v, S p) → markLoop M fuel H stack = some r → ∃ H1, r = .ok H1 := by
  intro fuel
  induction fuel with
  | zero => intro H stack r _ _ h; simp [markLoop] at h
  | succ fuel ih =>
    intro H stack r hS hst h
    obtain ⟨v⟩ := stack
    rcases eq_nil_or_snoc v with rfl | ⟨v1, p, rfl⟩
    · simp only [markLoop, markStep_nil, Option.some.injEq] at h
      exact ⟨H, h.symm⟩
    · obtain ⟨hp, L, hL, hLS⟩ := hS p (hst p (by simp))
      have hal := scanPushes_aligned hL
      have hst1 : ∀ x ∈ v1, S x := fun x hx => hst x (by simp [hx])
      cases hm : H.isMarked ⟨p⟩ with
      | true =>
        simp only [markLoop, markStep_snoc_marked M H v1 hp hal hm] at h
        exact ih H ⟨v1⟩ r hS hst1 h
      | false =>
        simp only [markLoop, markStep_snoc_scan M H v1 hp hm, hL] at h
        refine ih (H.setMark ⟨p⟩) ⟨v1 ++ L⟩ r ?_ ?_ h
        · intro x hx
          obtain ⟨hx0, Lx, hLx, hLxS⟩ := hS x hx
          exact ⟨hx0, Lx, by rw [scanPushes_setMark]; exact hLx, hLxS⟩
        · intro x hx
          rcases List.mem_append.1 hx with hx | hx
          · exact hst1 x hx
          · exact hLS x hx

theorem pushReachable_congr {M : Memory} {H : Heap} {l1 l2 : List Nat}
    (h : ∀ p, p ∈ l1 → p ∈ l2) {p : Nat} (hp : PushReachable M H l1 p) :
    PushReachable M H l2 p := by
  induction hp with
  | entry hp => exact PushReachable.entry (h _ hp)
  | push _ hL hq ih => exact PushReachable.push ih hL hq

theorem markLoop_push_reach {M : Memory} {H : Heap} {fuel : Nat} {stack : TraceStack}
    {H1 : Heap} (h0 : H.getAllocationFromInteriorPointer NULL = none)
    (hclean : ∀ a, H.isMarked a = false) (hst : 0 ∉ stack.v)
    (hrun : markLoop M fuel H stack = some (.ok H1)) :
    ∀ p, H1.isMarked ⟨p⟩ = true ↔ PushReachable M H stack.v p := by
  obtain ⟨_, hstk, _⟩ := markLoop_ok_marks M fuel H stack H1 h0 hst hrun
  obtain ⟨hcl, hsound⟩ := markLoop_push_marks M fuel H stack H1 h0 hst hrun
  intro p
  constructor
  · intro hp
    rcases hsound (PushReachable M H stack.v) (fun q hq => PushReachable.entry hq)
      (fun q L hq hL x hx => PushReachable.push hq hL hx) p hp with h | h
    · rw [hclean] at h
      exact absurd h (by decide)
    · exact h
  · intro hp
    induction hp with
    | entry hq => exact hstk _ hq
    | push _ hL hx ih =>
      obtain ⟨L1, hL1, hall⟩ := hcl _ ih (hclean _)
      rw [hL] at hL1
      simp only [Except.ok.injEq] at hL1
      subst hL1
      exact hall _ hx

theorem markLoop_same_entries {M : Memory} {H : Heap} {f1 f2 : Nat} {s1 s2 : TraceStack}
    {H1 : Heap} {r2 : Except GCError Heap}
    (h0 : H.getAllocationFromInteriorPointer NULL = none)
    (hclean : ∀ a, H.isMarked a = false) (hst : 0 ∉ s1.v)
    (hsame : ∀ p, p ∈ s1.v ↔ p ∈ s2.v)
    (hr1 : markLoop M f1 H s1 = some (.ok H1)) (hr2 : markLoop M f2 H s2 = some r2) :
    ∃ H2, r2 = .ok H2 ∧ ∀ a, H1.isMarked a = H2.isMarked a := by
  have hst2 : 0 ∉ s2.v := fun h => hst ((hsame 0).2 h)
  have hm1 := markLoop_push_reach h0 hclean hst hr1
  obtain ⟨hcl, _⟩ := markLoop_push_marks M f1 H s1 H1 h0 hst hr1
  obtain ⟨_, hstk, _⟩ := markLoop_ok_marks M f1 H s1 H1 h0 hst hr1
  obtain ⟨H2, rfl⟩ := markLoop_good_ok M (fun p => p ≠ 0 ∧ H1.isMarked ⟨p⟩ = true) f2 H s2 r2
    (by
      rintro p ⟨hp0, hp⟩
      obtain ⟨L, hL, hall⟩ := hcl p hp (hclean _)
      refine ⟨hp0, L, hL, fun q hq => ⟨?_, hall q hq⟩⟩
      rintro rfl
      exact (scanPushes_resolve hL 0 hq).nonnull h0 rfl)
    (fun p hp => ⟨fun hp0 => hst2 (hp0 ▸ hp), hstk p ((hsame p).2 hp)⟩) hr2
  refine ⟨H2, rfl, fun a => ?_⟩
  obtain ⟨x⟩ := a
  have hm2 := markLoop_push_reach h0 hclean hst2 hr2
  have hiff : H1.isMarked ⟨x⟩ = true ↔ H2.isMarked ⟨x⟩ = true :=
    ((hm1 x).trans ⟨pushReachable_congr (fun p hp => (hsame p).1 hp),
      pushReachable_congr (fun p hp => (hsame p).2 hp)⟩).trans (hm2 x).symm
  cases h1 : H1.isMarked ⟨x⟩ with
  | true => exact (hiff.1 h1).symm
  | false =>
    cases h2 : H2.isMarked ⟨x⟩ with
    | false => rfl
    | true =>
      have := hiff.2 h2
      rw [h1] at this
      exact absurd this (by decide)

/-! ## Lemmas on the stack discipline and on null entries -/

theorem TraceStack.popN_append_reverse (v : List Nat) :
    ∀ (xs : List Nat), TraceStack.popN xs.length ⟨v ++ xs⟩ = (xs.reverse, ⟨v⟩) := by
  intro xs
  induction xs using List.reverseRecOn with
  | nil => simp [TraceStack.popN]
  | append_singleton xs x ih =>
    have hlen : (xs ++ [x]).length = xs.length + 1 := by simp
    rw [hlen]
    simp only [TraceStack.popN]
    rw [← List.append_assoc, TraceStack.pop_snoc]
    simp only [ih, List.reverse_append, List.reverse_cons, List.reverse_nil, List.nil_append,
      List.singleton_append]

theorem appends_no_null {H : Heap} (h0 : H.getAllocationFromInteriorPointer NULL = none)
    {f : TraceStack → Except GCError TraceStack} (hf : Appends H f) {st st1 : TraceStack}
    (h : f st = .ok st1) (hst : NULL ∉ st.v) : NULL ∉ st1.v := by
  obtain ⟨L, hL, hres⟩ := hf st st1 h
  rw [hL]
  intro hx
  rcases List.mem_append.1 hx with hx | hx
  · exact hst hx
  · exact (hres NULL hx).nonnull h0 rfl

theorem markStep_ok_none {M : Memory} {H : Heap} {st : TraceStack}
    (h : markStep M H st = .ok none) (hst : NULL ∉ st.v) : st.v = [] := by
  obtain ⟨v⟩ := st
  rcases eq_nil_or_snoc v with rfl | ⟨v1, p, rfl⟩
  · rfl
  · have hp : p ≠ 0 := fun hp => hst (by simp [NULL, hp])
    by_cases hal : p % 8 = 0
    swap
    · simp [markStep_snoc_misaligned M H v1 hp hal] at h
    cases hm : H.isMarked ⟨p⟩ with
    | true => simp [markStep_snoc_marked M H v1 hp hal hm] at h
    | false =>
      rcases markStep_snoc_unmarked M H v1 hp hal hm with ⟨e, he⟩ | ⟨L, hL, _⟩
      · simp [he] at h
      · simp [hL] at h

theorem markStep_no_null {M : Memory} {H H1 : Heap} {st st1 : TraceStack}
    (h0 : H.getAllocationFromInteriorPointer NULL = none)
    (h : markStep M H st = .ok (some (H1, st1))) (hst : NULL ∉ st.v) : NULL ∉ st1.v := by
  obtain ⟨v, p, hv, _, _, hc⟩ := markStep_ok_some h
  have hv0 : NULL ∉ v := fun hx => hst (by rw [hv]; exact List.mem_append.2 (Or.inl hx))
  rcases hc with ⟨_, _, rfl⟩ | ⟨_, _, L, rfl, hres⟩
  · exact hv0
  · intro hx
    rcases List.mem_append.1 hx with hx | hx
    · exact hv0 hx
    · exact (hres NULL hx).nonnull h0 rfl

theorem markPhaseRoots_appends (H : Heap) (M : Memory) (C : Collector)
    (candidates : List Nat) {st : TraceStack}
    (h : markPhaseRoots M C candidates H = .ok st) :
    ∃ L, st.v = C.roots.v ++ L ∧ ∀ x ∈ L, H.Passes x := by
  simp only [markPhaseRoots, collectStackRoots] at h
  cases h1 : forEach (fun w st => TraceStackGCVisitor.visitPotential H w st) candidates
      C.roots with
  | error e => simp [h1] at h
  | ok st1 =>
    simp only [h1] at h
    cases h2 : forEach (fun (p : Nat × Nat) st =>
        TraceStackGCVisitor.visitPotentialRange H M p.1 p.2 st) C.static_root_memory st1 with
    | error e => simp [h2] at h
    | ok st2 =>
      simp only [h2] at h
      obtain ⟨L1, hL1, hr1⟩ := forEach_appends H _ _
        (fun w _ => visitPotential_appends H w) _ _ h1
      obtain ⟨L2, hL2, hr2⟩ := forEach_appends H _ _
        (fun (p : Nat × Nat) _ => visitPotentialRange_appends H M p.1 p.2) _ _ h2
      obtain ⟨L3, hL3, hr3⟩ := forEach_appends H _ _
        (fun h _ => visitPotential_appends H (M.word h)) _ _ h
      refine ⟨L1 ++ L2 ++ L3, by rw [hL3, hL2, hL1]; simp [List.append_assoc], ?_⟩
      intro x hx
      simp only [List.mem_append] at hx
      rcases hx with (hx | hx) | hx
      · exact hr1 x hx
      · exact hr2 x hx
      · exact hr3 x hx

/-! ## Lemmas on the tracer runs of the drain loop -/

theorem markStepTraced_erase (M : Memory) (H : Heap) (st : TraceStack) :
    (markStepTraced M H st).map (Option.map (fun r => (r.1, r.2.1))) = markStep M H st := by
  simp only [markStepTraced, markStep]
  by_cases hp : st.pop.1 = NULL
  · simp [hp, Except.map]
  by_cases hal : st.pop.1 % 8 = 0
  swap
  · simp [hp, hal, Except.map]
  cases hm : H.isMarked (GCAllocation.fromUserData st.pop.1) with
  | true => simp [hp, hal, hm, Except.map]
  | false =>
    simp only [hp, hal, hm, if_false, ne_eq, not_true_eq_false, Bool.false_eq_true]
    cases (H.setMark (GCAllocation.fromUserData st.pop.1)).kind_id
        (GCAllocation.fromUserData st.pop.1) with
    | UNTRACKED => simp [Except.map]
    | unhandled n => simp [Except.map]
    | CONSERVATIVE =>
      simp only
      cases TraceStackGCVisitor.visitPotentialRange
          (H.setMark (GCAllocation.fromUserData st.pop.1)) M st.pop.1
          (st.pop.1 + (H.setMark (GCAllocation.fromUserData st.pop.1)).kind_data
            (GCAllocation.fromUserData st.pop.1)) st.pop.2 with
      | error e => simp [Except.map]
      | ok s1 => simp [Except.map]
    | PYTHON =>
      simp only
      by_cases hcls : M.word st.pop.1 = NULL
      · simp [hcls, Except.map]
      · simp only [hcls, not_false_eq_true, if_true]
        cases M.gc_visit (M.word st.pop.1) with
        | none => simp [Except.map]
        | some f =>
          simp only
          cases forEach (VisitCall.run (H.setMark (GCAllocation.fromUserData st.pop.1)) M)
              (f st.pop.1) st.pop.2 with
          | error e => simp [Except.map]
          | ok s1 => simp [Except.map]

theorem markStepTraced_error {M : Memory} {H : Heap} {st : TraceStack} {e : GCError}
    (h : markStepTraced M H st = .error e) : markStep M H st = .error e := by
  rw [← markStepTraced_erase, h]
  rfl

theorem markStepTraced_none {M : Memory} {H : Heap} {st : TraceStack}
    (h : markStepTraced M H st = .ok none) : markStep M H st = .ok none := by
  rw [← markStepTraced_erase, h]
  rfl

theorem markStepTraced_some {M : Memory} {H H1 : Heap} {st st1 : TraceStack}
    {scanned : Option GCAllocation}
    (h : markStepTraced M H st = .ok (some (H1, st1, scanned))) :
    markStep M H st = .ok (some (H1, st1)) := by
  rw [← markStepTraced_erase, h]
  rfl

/-- What a completed iteration of the traced body records: nothing when it leaves the worklist
without the popped entry, and the popped allocation, which was unmarked, when the worklist it
leaves is the one returned by the conservative walk of its extent or by its tracing
callback. -/
theorem markStepTraced_record {M : Memory} {H H1 : Heap} {st st1 : TraceStack}
    {scanned : Option GCAllocation}
    (h : markStepTraced M H st = .ok (some (H1, st1, scanned))) :
    (scanned = none → st1 = st.pop.2) ∧
      (∀ al, scanned = some al →
        al = GCAllocation.fromUserData st.pop.1 ∧ H.isMarked al = false ∧
        H1 = H.setMark al ∧
        ((H.kind_id al = .CONSERVATIVE ∧
            TraceStackGCVisitor.visitPotentialRange H1 M st.pop.1
              (st.pop.1 + H.kind_data al) st.pop.2 = .ok st1) ∨
          (H.kind_id al = .PYTHON ∧ M.word st.pop.1 ≠ NULL ∧
            ∃ gc_visit, M.gc_visit (M.word st.pop.1) = some gc_visit ∧
              forEach (VisitCall.run H1 M) (gc_visit st.pop.1) st.pop.2 = .ok st1))) := by
  simp only [markStepTraced] at h
  by_cases hp : st.pop.1 = NULL
  · simp [hp] at h
  by_cases hal : st.pop.1 % 8 = 0
  swap
  · simp [hp, hal] at h
  cases hm : H.isMarked (GCAllocation.fromUserData st.pop.1) with
  | true =>
    simp only [hp, hal, hm, if_false, if_true, ne_eq, not_true_eq_false, Except.ok.injEq,
      Option.some.injEq, Prod.mk.injEq] at h
    obtain ⟨_, h2, h3⟩ := h
    subst h3
    exact ⟨fun _ => h2.symm, fun al hal2 => by simp at hal2⟩
  | false =>
    simp only [hp, hal, hm, if_false, ne_eq, not_true_eq_false, Bool.false_eq_true] at h
    have hkid : (H.setMark (GCAllocation.fromUserData st.pop.1)).kind_id
        (GCAllocation.fromUserData st.pop.1) =
        H.kind_id (GCAllocation.fromUserData st.pop.1) := rfl
    have hkd : (H.setMark (GCAllocation.fromUserData st.pop.1)).kind_data
        (GCAllocation.fromUserData st.pop.1) =
        H.kind_data (GCAllocation.fromUserData st.pop.1) := rfl
    rw [hkid] at h
    cases hk : H.kind_id (GCAllocation.fromUserData st.pop.1) with
    | UNTRACKED =>
      simp only [hk, Except.ok.injEq, Option.some.injEq, Prod.mk.injEq] at h
      obtain ⟨_, h2, h3⟩ := h
      subst h3
      exact ⟨fun _ => h2.symm, fun al hal2 => by simp at hal2⟩
    | unhandled n => simp [hk] at h
    | CONSERVATIVE =>
      simp only [hk, hkd] at h
      cases hv : TraceStackGCVisitor.visitPotentialRange
          (H.setMark (GCAllocation.fromUserData st.pop.1)) M st.pop.1
          (st.pop.1 + H.kind_data (GCAllocation.fromUserData st.pop.1)) st.pop.2 with
      | error e => simp [hv] at h
      | ok s1 =>
        simp only [hv, Except.ok.injEq, Option.some.injEq, Prod.mk.injEq] at h
        obtain ⟨h1, h2, h3⟩ := h
        subst h1 h2 h3
        refine ⟨fun hn => by simp at hn, fun al hal2 => ?_⟩
        simp only [Option.some.injEq] at hal2
        subst hal2
        exact ⟨rfl, hm, rfl, Or.inl ⟨hk, hv⟩⟩
    | PYTHON =>
      simp only [hk] at h
      by_cases hcls : M.word st.pop.1 = NULL
      · simp only [hcls, not_true_eq_false, if_false, Except.ok.injEq, Option.some.injEq,
          Prod.mk.injEq] at h
        obtain ⟨_, h2, h3⟩ := h
        subst h3
        exact ⟨fun _ => h2.symm, fun al hal2 => by simp at hal2⟩
      · simp only [hcls, not_false_eq_true, if_true] at h
        cases hg : M.gc_visit (M.word st.pop.1) with
        | none => simp [hg] at h
        | some f =>
          simp only [hg] at h
          cases hv : forEach (VisitCall.run (H.setMark (GCAllocation.fromUserData st.pop.1)) M)
              (f st.pop.1) st.pop.2 with
          | error e => simp [hv] at h
          | ok s1 =>
            simp only [hv, Except.ok.injEq, Option.some.injEq, Prod.mk.injEq] at h
            obtain ⟨h1, h2, h3⟩ := h
            subst h1 h2 h3
            refine ⟨fun hn => by simp at hn, fun al hal2 => ?_⟩
            simp only [Option.some.injEq] at hal2
            subst hal2
            exact ⟨rfl, hm, rfl, Or.inr ⟨hk, hcls, f, rfl, hv⟩⟩

theorem markLoopTraced_result (M : Memory) :
    ∀ (fuel : Nat) (H : Heap) (stack : TraceStack) (log : List GCAllocation),
      (markLoopTraced M fuel H stack log).2 = markLoop M fuel H stack := by
  intro fuel
  induction fuel with
  | zero => intro H stack log; rfl
  | succ fuel ih =>
    intro H stack log
    simp only [markLoopTraced, markLoop]
    cases hs : markStepTraced M H stack with
    | error e => simp [markStepTraced_error hs]
    | ok o =>
      cases o with
      | none => simp [markStepTraced_none hs]
      | some q =>
        obtain ⟨H1, st1, scanned⟩ := q
        simp only [markStepTraced_some hs]
        exact ih H1 st1 _

theorem markStepTraced_scans {M : Memory} {H H1 : Heap} {st st1 : TraceStack}
    {scanned : Option GCAllocation}
    (h : markStepTraced M H st = .ok (some (H1, st1, scanned))) :
    scanned = markStepScans M H st := by
  obtain ⟨hnone, hsome⟩ := markStepTraced_record h
  have hs := markStepTraced_some h
  obtain ⟨v, p, hv, hp, hal, hc⟩ := markStep_ok_some hs
  obtain ⟨w⟩ := st
  simp only at hv
  subst hv
  simp only [TraceStack.pop_snoc] at hnone hsome
  cases scanned with
  | some al =>
    obtain ⟨rfl, hm, _, hk⟩ := hsome al rfl
    simp only [GCAllocation.fromUserData] at hm hk
    rcases hk with ⟨hk, _⟩ | ⟨hk, hcls, f, hg, _⟩
    · simp [markStepScans, TraceStack.pop_snoc, NULL, hp, hal, GCAllocation.fromUserData, hm, hk]
    · simp only [NULL] at hcls
      simp [markStepScans, TraceStack.pop_snoc, NULL, hp, hal, GCAllocation.fromUserData, hm, hk,
        hcls, hg]
  | none =>
    symm
    cases hsc : markStepScans M H ⟨v ++ [p]⟩ with
    | none => rfl
    | some al =>
      exfalso
      simp only [markStepTraced, TraceStack.pop_snoc, NULL, hp, hal, if_false, ne_eq,
        not_true_eq_false] at h
      simp only [markStepScans, TraceStack.pop_snoc, NULL, hp, hal, if_false, ne_eq,
        not_true_eq_false] at hsc
      cases hm : H.isMarked (GCAllocation.fromUserData p) with
      | true => simp [hm] at hsc
      | false =>
        simp only [hm, if_false, Bool.false_eq_true] at h hsc
        have hkid : (H.setMark (GCAllocation.fromUserData p)).kind_id
            (GCAllocation.fromUserData p) = H.kind_id (GCAllocation.fromUserData p) := rfl
        rw [hkid] at h
        cases hk : H.kind_id (GCAllocation.fromUserData p) with
        | UNTRACKED => simp [hk] at hsc
        | unhandled n => simp [hk] at hsc
        | CONSERVATIVE =>
          simp only [hk] at h
          split at h <;> simp at h
        | PYTHON =>
          simp only [hk] at h hsc
          by_cases hcls : M.word p = 0
          · simp [hcls] at hsc
          · simp only [hcls, not_false_eq_true, if_true] at h
            cases hg : M.gc_visit (M.word p) with
            | none => simp [hg] at h
            | some f =>
              simp only [hg] at h
              split at h <;> simp at h

theorem markStep_none_scans {M : Memory} {H : Heap} {st : TraceStack}
    (h : markStep M H st = .ok none) : markStepScans M H st = none := by
  obtain ⟨v⟩ := st
  rcases eq_nil_or_snoc v with rfl | ⟨v1, p, rfl⟩
  · rfl
  · by_cases hp : p = 0
    · subst hp
      simp [markStepScans, TraceStack.pop_snoc, NULL]
    exfalso
    by_cases hal : p % 8 = 0
    swap
    · simp [markStep_snoc_misaligned M H v1 hp hal] at h
    cases hm : H.isMarked ⟨p⟩ with
    | true => simp [markStep_snoc_marked M H v1 hp hal hm] at h
    | false =>
      rcases markStep_snoc_unmarked M H v1 hp hal hm with ⟨e, he⟩ | ⟨L, hL, _⟩
      · simp [he] at h
      · simp [hL] at h

/-- The record of the traced loop is an initial part of the tracer runs that the guards of
the loop body determine; the two differ at most by a last run that an assertion stopped. -/
theorem markLoopTraced_log_prefix (M : Memory) :
    ∀ (fuel : Nat) (H : Heap) (stack : TraceStack) (log : List GCAllocation),
      ∃ t, log ++ scanLog M fuel H stack = (markLoopTraced M fuel H stack log).1 ++ t := by
  intro fuel
  induction fuel with
  | zero => intro H stack log; exact ⟨[], by simp [scanLog, markLoopTraced]⟩
  | succ fuel ih =>
    intro H stack log
    simp only [markLoopTraced]
    cases hs : markStepTraced M H stack with
    | error e => exact ⟨_, rfl⟩
    | ok o =>
      cases o with
      | none => exact ⟨_, rfl⟩
      | some q =>
        obtain ⟨H1, st1, scanned⟩ := q
        obtain ⟨t, ht⟩ := ih H1 st1 (log ++ scanned.toList)
        refine ⟨t, ?_⟩
        simp only [scanLog, markStepTraced_some hs, ← markStepTraced_scans hs]
        rw [← ht, List.append_assoc]

theorem markLoopTraced_log_ok (M : Memory) :
    ∀ (fuel : Nat) (H : Heap) (stack : TraceStack) (log : List GCAllocation) (H1 : Heap),
      markLoop M fuel H stack = some (.ok H1) →
      (markLoopTraced M fuel H stack log).1 = log ++ scanLog M fuel H stack := by
  intro fuel
  induction fuel with
  | zero => intro H stack log H1 h; simp [markLoop] at h
  | succ fuel ih =>
    intro H stack log H1 h
    simp only [markLoop] at h
    simp only [markLoopTraced]
    cases hs : markStepTraced M H stack with
    | error e => simp [markStepTraced_error hs] at h
    | ok o =>
      cases o with
      | none =>
        simp [scanLog, markStepTraced_none hs, markStep_none_scans (markStepTraced_none hs)]
      | some q =>
        obtain ⟨H2, st1, scanned⟩ := q
        simp only [markStepTraced_some hs] at h
        simp only [scanLog, markStepTraced_some hs, ← markStepTraced_scans hs]
        rw [ih H2 st1 _ H1 h, List.append_assoc]

theorem markLoopTraced_nodup (M : Memory) (fuel : Nat) (H : Heap) (stack : TraceStack) :
    (markLoopTraced M fuel H stack []).1.Nodup := by
  obtain ⟨t, ht⟩ := markLoopTraced_log_prefix M fuel H stack []
  have hnd := scanLog_nodup M fuel H stack
  rw [List.nil_append] at ht
  rw [ht] at hnd
  exact (List.nodup_append.1 hnd).1

/-! ## The visitor operations (claims C5 to C10) -/

/-- C5: for every address `p` that the heap's interior-pointer resolution does not resolve
(the null address and arbitrary bit patterns included), `visitPotential(p)` returns normally,
so no assertion fails, and leaves the worklist exactly as it was. -/
theorem visitPotential_unresolved_noop (H : Heap) (p : Nat) (stack : TraceStack)
    (h : H.getAllocationFromInteriorPointer p = none) :
    TraceStackGCVisitor.visitPotential H p stack = .ok stack :=
  visitPotential_of_unresolved stack h

theorem visitPotential_unresolved_noop_witness :
    exHeap.getAllocationFromInteriorPointer 0 = none ∧
      TraceStackGCVisitor.visitPotential exHeap 0 ⟨[16, 32]⟩ = .ok ⟨[16, 32]⟩ :=
  ⟨rfl, visitPotential_unresolved_noop exHeap 0 ⟨[16, 32]⟩ rfl⟩

/-- C6: on a heap that resolves each allocation's own user-data address to that allocation,
for every address `p` that resolves to an allocation `a`, `visitPotential(p)` returns normally
with the worklist extended by exactly one entry, the user-data address of `a` (not `p`),
whatever the mark flags and the worklist are; and `visitPotential(p)` lengthens the worklist
if and only if `p` resolves. -/
theorem visitPotential_resolved_pushes_user_data (H : Heap) (hH : H.ResolvesOwnUserData)
    (p : Nat) (stack : TraceStack) :
    (∀ a, H.getAllocationFromInteriorPointer p = some a →
        TraceStackGCVisitor.visitPotential H p stack = .ok ⟨stack.v ++ [a.user_data]⟩) ∧
      ((∃ stack1, TraceStackGCVisitor.visitPotential H p stack = .ok stack1 ∧
          stack1.v.length = stack.v.length + 1) ↔
        (H.getAllocationFromInteriorPointer p).isSome = true) := by
  refine ⟨fun a h => visitPotential_of_resolves hH stack h, ?_⟩
  cases hr : H.getAllocationFromInteriorPointer p with
  | none => simp [visitPotential_of_unresolved stack hr]
  | some a => simp [visitPotential_of_resolves hH stack hr, TraceStack.push]

theorem visitPotential_resolved_pushes_user_data_witness :
    TraceStackGCVisitor.visitPotential exHeap 40 ⟨[32]⟩ = .ok ⟨[32, 32]⟩ :=
  (visitPotential_resolved_pushes_user_data exHeap exHeap_resolvesOwnUserData 40 ⟨[32]⟩).1
    ⟨32⟩ rfl

/-- C7: `visit(p)` returns normally exactly when the address of the member `user_data` of the
result of `getAllocationFromInteriorPointer(p)` is `p`: when the heap resolves `p` to an
allocation whose user-data address is `p`, and also when the heap does not resolve `p` and `p`
is `offsetof(GCAllocation, user_data)`, the address of the member of the null result; the
worklist it then returns is the previous one with `p` appended once, whatever the mark flags
and the previous worklist are.  On the example heap `visit(8)` returns normally and pushes 8,
which the heap does not resolve. -/
theorem visit_accepts_null_member_address :
    (∀ (H : Heap) (p : Nat) (stack stack1 : TraceStack),
      TraceStackGCVisitor.visit H p stack = .ok stack1 ↔
        ((∃ a, H.getAllocationFromInteriorPointer p = some a ∧ a.user_data = p) ∨
            (H.getAllocationFromInteriorPointer p = none ∧
              p = GCAllocation.user_data_offset)) ∧
          stack1.v = stack.v ++ [p]) ∧
      exHeap.getAllocationFromInteriorPointer 8 = none ∧
      (¬ ∃ a, exHeap.getAllocationFromInteriorPointer 8 = some a ∧ a.user_data = 8) ∧
      TraceStackGCVisitor.visit exHeap 8 ⟨[16]⟩ = .ok ⟨[16, 8]⟩ ∧
      TraceStackGCVisitor.visit exHeap 0 ⟨[16]⟩ = .error .visitAssert :=
  ⟨fun H p stack stack1 => visit_eq_ok H p stack stack1, rfl, by simp [exHeap], rfl, rfl⟩

/-- C9: `visitPotentialRange(start, end)` has exactly the effect of `visitPotential` applied
to the value of each pointer-sized slot of `[start, end)` in ascending address order; on a
heap that resolves each allocation's own user-data address it returns normally and the
worklist gains, in slot order, the user-data address of the enclosing allocation for each
slot whose value resolves and nothing for the others; when `end ≤ start` the worklist is
unchanged. -/
theorem visitPotentialRange_spec (H : Heap) (M : Memory) (start end_ : Nat)
    (stack : TraceStack) :
    TraceStackGCVisitor.visitPotentialRange H M start end_ stack =
        forEach (fun a st => TraceStackGCVisitor.visitPotential H (M.word a) st)
          (rangeSlots start end_) stack ∧
      (H.ResolvesOwnUserData →
        TraceStackGCVisitor.visitPotentialRange H M start end_ stack =
          .ok ⟨stack.v ++ (rangeSlots start end_).filterMap (fun a =>
            (H.getAllocationFromInteriorPointer (M.word a)).map GCAllocation.user_data)⟩) ∧
      (end_ ≤ start →
        TraceStackGCVisitor.visitPotentialRange H M start end_ stack = .ok stack) := by
  refine ⟨visitPotentialRange_eq_forEach H M start end_ stack, ?_, ?_⟩
  · intro hH
    rw [visitPotentialRange_eq_forEach, forEach_visitPotential hH M.word]
    simp [potentialTargets, List.filterMap_map, Function.comp_def]
  · intro hle
    rw [visitPotentialRange_eq_forEach, rangeSlots_of_le hle]
    rfl

theorem visitPotentialRange_spec_witness :
    TraceStackGCVisitor.visitPotentialRange exHeap exMemory 200 216 ⟨[16]⟩ = .ok ⟨[16, 32]⟩ ∧
      TraceStackGCVisitor.visitPotentialRange exHeap exMemory 216 200 ⟨[16]⟩ = .ok ⟨[16]⟩ :=
  ⟨(visitPotentialRange_spec exHeap exMemory 200 216 ⟨[16]⟩).2.1 exHeap_resolvesOwnUserData,
    (visitPotentialRange_spec exHeap exMemory 216 200 ⟨[16]⟩).2.2 (by decide)⟩

/-- C8: in the build with assertions, on the example heap, `visitRange` over the one slot at
200, which holds 40, a pointer into the interior of the allocation at 32, passes its
assertion and pushes 40 onto the worklist, although `visit(40)` fails its assertion: the
check of `visitRange` is `isValid`, which only asks that the slot resolves. -/
theorem visitRange_accepts_interior_pointer :
    exMemory.word 200 = 40 ∧
      exHeap.getAllocationFromInteriorPointer 40 = some ⟨32⟩ ∧
      TraceStackGCVisitor.visit exHeap 40 ⟨[]⟩ = .error .visitAssert ∧
      TraceStackGCVisitor.visitRange exHeap exMemory 200 208 ⟨[]⟩ = .ok ⟨[40]⟩ :=
  ⟨rfl, rfl, rfl, rfl⟩

/-- C10: on the example heap, `registerStaticRootObj(40)`, where 40 points into the interior
of the allocation at 32, passes its assertion and appends 40 to the permanent roots, although
40 is not the user-data address of an allocation (`visit(40)` fails its assertion): the check
of `registerStaticRootObj` only asks that the pointer resolves. -/
theorem registerStaticRootObj_accepts_interior_pointer :
    exHeap.getAllocationFromInteriorPointer 40 = some ⟨32⟩ ∧
      TraceStackGCVisitor.visit exHeap 40 ⟨[]⟩ = .error .visitAssert ∧
      (registerStaticRootObj exHeap exCollector 40).map (fun C => C.roots) = .ok ⟨[16, 40]⟩ :=
  ⟨rfl, rfl, rfl⟩

/-! ## The drain loop (claims C3 and C4) -/

/-- C3: on a finite heap (the addresses the heap resolves are those of a finite list `U`) the
drain loop of the mark phase terminates from every heap state and worklist, cyclic reference
graphs and duplicate entries included: some amount of fuel, and every larger one, gives the
same result, a completed run or a failed assertion.  A marked allocation is skipped, which
pushes nothing and changes no mark; and a step that leaves a worklist other than the popped
one strictly decreases the number of unmarked addresses of every list that contains the
popped address. -/
theorem markLoop_terminates (M : Memory) (H : Heap) (stack : TraceStack) (U : List Nat)
    (hfin : ∀ p, (H.getAllocationFromInteriorPointer p).isSome = true → p ∈ U) :
    (∃ fuel r, ∀ fuel1, fuel ≤ fuel1 → markLoop M fuel1 H stack = some r) ∧
      (∀ (H1 : Heap) (v : List Nat) (p : Nat), p ≠ 0 → p % 8 = 0 →
        H1.isMarked (GCAllocation.fromUserData p) = true →
        markStep M H1 ⟨v ++ [p]⟩ = .ok (some (H1, ⟨v⟩))) ∧
      (∀ (H1 H2 : Heap) (st st2 : TraceStack),
        markStep M H1 st = .ok (some (H2, st2)) → st2 ≠ st.pop.2 →
        ∀ W : List Nat, st.pop.1 ∈ W → unmarkedCount H2 W < unmarkedCount H1 W) := by
  refine ⟨?_, ?_, ?_⟩
  · obtain ⟨fuel, hf⟩ := markLoop_terminates_aux M
      (GCAllocation.user_data_offset :: (U ++ stack.v))
      (unmarkedCount H (GCAllocation.user_data_offset :: (U ++ stack.v))) stack.v.length H stack
      (fun p hp => by
        rcases hp with hp | hp
        · exact List.mem_cons_of_mem _ (List.mem_append.2 (Or.inl (hfin p hp)))
        · rw [hp]; exact List.mem_cons_self _ _)
      (fun x hx => List.mem_cons_of_mem _ (List.mem_append.2 (Or.inr hx))) le_rfl le_rfl
    obtain ⟨r, hr⟩ := Option.isSome_iff_exists.1 hf
    exact ⟨fuel, r, fun fuel1 hle => markLoop_mono M fuel H stack r hr fuel1 hle⟩
  · intro H1 v p hp hal hm
    exact markStep_snoc_marked M H1 v hp hal hm
  · intro H1 H2 st st2 hs hne W hW
    obtain ⟨v, p, hv, _, _, hc⟩ := markStep_ok_some hs
    obtain ⟨w⟩ := st
    simp only at hv
    subst hv
    rw [TraceStack.pop_snoc] at hne hW
    rcases hc with ⟨_, _, rfl⟩ | ⟨hm, rfl, _⟩
    · exact absurd rfl hne
    · exact unmarkedCount_setMark_lt H1 p W hW hm

theorem markLoop_terminates_witness :
    ∃ fuel r, ∀ fuel1, fuel ≤ fuel1 →
      markLoop cycMemory fuel1 cycHeap ⟨[16, 32, 16]⟩ = some r :=
  (markLoop_terminates cycMemory cycHeap ⟨[16, 32, 16]⟩ (List.range 40) cycHeap_finite).1

/-- C4: the drain loop with the record of its tracer runs is the drain loop: its result is
that of `markLoop`, and its body without the record is `markStep`.  An iteration that
records nothing leaves the worklist without the popped entry; one that records an allocation
popped that allocation unmarked, set its mark, and leaves the worklist that the conservative
walk of its extent, or its tracing callback, returned.  In every run, from every heap state
(so also from one with all mark flags unset) and every worklist, completed or not, the
record has no repetition: the tracer of an allocation runs at most once, however often its
address is on the worklist.  In a run that completes, on a heap that does not resolve the
null address and from a worklist without null entry, the tracer of an unmarked allocation of
a scanned shape whose address is on the worklist, once or several times, runs exactly
once. -/
theorem scan_at_most_once (M : Memory) (fuel : Nat) (H : Heap) (stack : TraceStack) :
    (markLoopTraced M fuel H stack []).2 = markLoop M fuel H stack ∧
      (markStepTraced M H stack).map (Option.map (fun r => (r.1, r.2.1))) =
        markStep M H stack ∧
      (∀ (H1 : Heap) (stack1 : TraceStack),
        markStepTraced M H stack = .ok (some (H1, stack1, none)) → stack1 = stack.pop.2) ∧
      (∀ (H1 : Heap) (stack1 : TraceStack) (al : GCAllocation),
        markStepTraced M H stack = .ok (some (H1, stack1, some al)) →
        al = GCAllocation.fromUserData stack.pop.1 ∧ H.isMarked al = false ∧
        H1 = H.setMark al ∧
        ((H.kind_id al = .CONSERVATIVE ∧
            TraceStackGCVisitor.visitPotentialRange H1 M stack.pop.1
              (stack.pop.1 + H.kind_data al) stack.pop.2 = .ok stack1) ∨
          (H.kind_id al = .PYTHON ∧ M.word stack.pop.1 ≠ NULL ∧
            ∃ gc_visit, M.gc_visit (M.word stack.pop.1) = some gc_visit ∧
              forEach (VisitCall.run H1 M) (gc_visit stack.pop.1) stack.pop.2 =
                .ok stack1))) ∧
      (markLoopTraced M fuel H stack []).1.Nodup ∧
      (∀ (p : Nat) (H1 : Heap), H.getAllocationFromInteriorPointer 0 = none → 0 ∉ stack.v →
        markLoop M fuel H stack = some (.ok H1) → p ∈ stack.v →
        H.isMarked (GCAllocation.fromUserData p) = false →
        Scannable M H (GCAllocation.fromUserData p) →
        (markLoopTraced M fuel H stack []).1.count (GCAllocation.fromUserData p) = 1) := by
  refine ⟨markLoopTraced_result M fuel H stack [], markStepTraced_erase M H stack,
    fun H1 stack1 h => (markStepTraced_record h).1 rfl,
    fun H1 stack1 al h => (markStepTraced_record h).2 al rfl,
    markLoopTraced_nodup M fuel H stack, ?_⟩
  intro p H1 h0 hst hrun hp hm hsc
  obtain ⟨_, hstk, hlog⟩ := markLoop_ok_marks M fuel H stack H1 h0 hst hrun
  refine List.count_eq_one_of_mem (markLoopTraced_nodup M fuel H stack) ?_
  rw [markLoopTraced_log_ok M fuel H stack [] H1 hrun, List.nil_append]
  exact hlog _ (hstk p hp) hm hsc

theorem scan_at_most_once_witness :
    (markLoopTraced exMemory 4 exHeap ⟨[16, 16]⟩ []).1 = [⟨16⟩, ⟨32⟩] ∧
      markStepTraced exMemory exHeap ⟨[16, 16]⟩ =
        .ok (some (exHeap.setMark ⟨16⟩, ⟨[16, 32]⟩, some ⟨16⟩)) ∧
      forEach (VisitCall.run (exHeap.setMark ⟨16⟩) exMemory) [VisitCall.visit 32] ⟨[16]⟩ =
        .ok ⟨[16, 32]⟩ ∧
      (markLoopTraced exMemory 4 exHeap ⟨[16, 16]⟩ []).1.count
        (GCAllocation.fromUserData 16) = 1 ∧
      (⟨16⟩ : GCAllocation) = GCAllocation.fromUserData (TraceStack.pop ⟨[16, 16]⟩).1 ∧
      exHeap.isMarked ⟨16⟩ = false ∧
      markStepTraced exMemory exHeap ⟨[16, 48]⟩ = .ok (some (exHeap.setMark ⟨48⟩, ⟨[16]⟩, none)) ∧
      (⟨[16]⟩ : TraceStack) = (TraceStack.pop ⟨[16, 48]⟩).2 :=
  ⟨rfl, rfl, rfl,
    (scan_at_most_once exMemory 4 exHeap ⟨[16, 16]⟩).2.2.2.2.2 16
      (exHeap.setMark ⟨16⟩ |>.setMark ⟨32⟩) rfl (by decide) rfl (by decide) rfl
      (Or.inr ⟨rfl, by decide, rfl⟩),
    ((scan_at_most_once exMemory 4 exHeap ⟨[16, 16]⟩).2.2.2.1
      (exHeap.setMark ⟨16⟩) ⟨[16, 32]⟩ ⟨16⟩ rfl).1,
    ((scan_at_most_once exMemory 4 exHeap ⟨[16, 16]⟩).2.2.2.1
      (exHeap.setMark ⟨16⟩) ⟨[16, 32]⟩ ⟨16⟩ rfl).2.1,
    rfl,
    (scan_at_most_once exMemory 4 exHeap ⟨[16, 48]⟩).2.2.1 (exHeap.setMark ⟨48⟩) ⟨[16]⟩ rfl⟩

/-! ## Reachability and root permanence (claims C1 and C2) -/

/-- C1: on a finite heap whose managed allocations are all unmarked and which, with the
registered roots and the tracing callbacks, respects the contracts of the collector, the
mark phase of `runCollection()` completes and an allocation of the heap is marked when it
ends if and only if it is reachable from a root (a pointer registered with
`registerStaticRootObj`, or an allocation resolved from a stack root, from a word of a
registered static memory range or from the value of a live handle) along a chain of reported
references; and the allocations that survive the sweep are exactly the reachable ones. -/
theorem runCollection_survives_iff_reachable (M : Memory) (C : Collector)
    (candidates : List Nat) (H : Heap) (hwf : WellFormed H M)
    (hroots : ∀ p ∈ C.roots.v, H.IsUserData p)
    (hclean : ∀ a ∈ H.allocs, H.isMarked a = false) :
    ∃ fuel H1, markPhase M C candidates fuel H = some (.ok H1) ∧
      (∀ a ∈ H.allocs, H1.isMarked a = true ↔ Reachable H M C candidates a) ∧
      ∃ C1 H2, runCollection M candidates fuel C H = some (.ok (C1, H2)) ∧
        ∀ a, a ∈ H2.allocs ↔ a ∈ H.allocs ∧ Reachable H M C candidates a := by
  obtain ⟨fuel, H1, hrun, hshape, hrootsm, hcl, hsound⟩ := markPhase_wf hwf C candidates hroots
  have hmem : ∀ a, Reachable H M C candidates a → a ∈ H.allocs := fun a ha =>
    hwf.managed _ _ (reachable_isUserData hwf hroots ha)
  have hreach : ∀ a, Reachable H M C candidates a → H1.isMarked a = true := by
    intro a ha
    induction ha with
    | root hp => exact hrootsm _ hp
    | reference ha hq ih => exact hcl _ ih (hclean _ (hmem _ ha)) _ hq
  have hiff : ∀ a ∈ H.allocs, H1.isMarked a = true ↔ Reachable H M C candidates a := by
    intro a ha
    refine ⟨fun hm => ?_, hreach a⟩
    rcases hsound a hm with h | h
    · rw [hclean a ha] at h
      exact absurd h (by decide)
    · exact h
  refine ⟨fuel, H1, hrun, hiff, { C with ncollections := C.ncollections + 1 }, sweepPhase H1,
    ?_, ?_⟩
  · have hrun1 : markPhase M { C with ncollections := C.ncollections + 1 } candidates fuel H =
        some (.ok H1) := hrun
    simp only [runCollection, hrun1]
  · intro a
    simp only [sweepPhase, Heap.freeUnmarked, List.mem_filter, hshape.1]
    constructor
    · rintro ⟨ha, hm⟩
      exact ⟨ha, (hiff a ha).1 hm⟩
    · rintro ⟨ha, hr⟩
      exact ⟨ha, hreach a hr⟩

theorem runCollection_survives_iff_reachable_witness :
    ∃ fuel H1, markPhase exMemory exCollector [7, 50] fuel exHeap = some (.ok H1) ∧
      (∀ a ∈ exHeap.allocs,
        H1.isMarked a = true ↔ Reachable exHeap exMemory exCollector [7, 50] a) ∧
      ∃ C1 H2, runCollection exMemory [7, 50] fuel exCollector exHeap = some (.ok (C1, H2)) ∧
        ∀ a, a ∈ H2.allocs ↔
          a ∈ exHeap.allocs ∧ Reachable exHeap exMemory exCollector [7, 50] a :=
  runCollection_survives_iff_reachable exMemory exCollector [7, 50] exHeap exHeap_wellFormed
    exCollector_roots (by decide)

/-- C2: from a state in which every contract is respected and no managed allocation is marked,
any number of successive `runCollection()` calls complete, whatever the stack scanner
enumerates in each, and after each of them every pointer registered with
`registerStaticRootObj` is still registered and its allocation is still managed by the heap:
it survived the sweep, which keeps an allocation exactly when it was marked at the end of that
call's mark phase.  Nothing is assumed about references to the root from elsewhere. -/
theorem root_survives_every_cycle (M : Memory) (C : Collector) (H : Heap)
    (hready : CycleReady M C H) (p : Nat) (hp : p ∈ C.roots.v) (cycles : List (List Nat)) :
    (∃ fuel states, runCollections M fuel cycles C H = some (.ok states) ∧
        states.length = cycles.length ∧
        ∀ s ∈ states, p ∈ s.1.roots.v ∧ GCAllocation.fromUserData p ∈ s.2.allocs) ∧
      (∀ (C0 C1 : Collector) (H0 H2 : Heap) (candidates : List Nat) (fuel : Nat),
        runCollection M candidates fuel C0 H0 = some (.ok (C1, H2)) →
        ∃ H1, markPhase M C0 candidates fuel H0 = some (.ok H1) ∧
          ∀ a, a ∈ H2.allocs ↔ a ∈ H1.allocs ∧ H1.isMarked a = true) := by
  refine ⟨?_, ?_⟩
  · obtain ⟨fuel, states, hrun, hlen, hst⟩ := runCollections_ready M cycles C H hready
    refine ⟨fuel, states, hrun, hlen, fun s hs => ?_⟩
    obtain ⟨hr, hal⟩ := hst s hs
    exact ⟨by rw [hr]; exact hp, hal p hp⟩
  · intro C0 C1 H0 H2 candidates fuel h
    simp only [runCollection] at h
    cases hm : markPhase M { C0 with ncollections := C0.ncollections + 1 } candidates fuel H0 with
    | none => simp [hm] at h
    | some r =>
      cases r with
      | error e => simp [hm] at h
      | ok H1 =>
        simp only [hm, Option.some.injEq, Except.ok.injEq, Prod.mk.injEq] at h
        refine ⟨H1, hm, fun a => ?_⟩
        rw [← h.2]
        simp [sweepPhase, Heap.freeUnmarked, List.mem_filter]

theorem root_survives_every_cycle_witness :
    ∃ fuel states, runCollections exMemory fuel [[7, 50], [], [40]] exCollector exHeap =
        some (.ok states) ∧
      states.length = 3 ∧
      ∀ s ∈ states, 16 ∈ s.1.roots.v ∧ GCAllocation.fromUserData 16 ∈ s.2.allocs :=
  (root_survives_every_cycle exMemory exCollector exHeap
    ⟨exHeap_wellFormed, exCollector_roots, by decide⟩ 16 (by decide) [[7, 50], [], [40]]).1

/-! ## The root registry (claims C11 to C13) -/

/-- C11, as stated, fails on the example heap, whose allocations occupy `[16, 64)`: the range
`[8, 100)` contains all three allocations and is accepted, because neither 8 nor 100 lies in
an allocation; and the range `[8, 16)` contains no byte of an allocation and is rejected,
because its exclusive end 16 is the first byte of an allocation. -/
theorem registerStaticRootMemory_overlap_counterexample :
    (¬ NoByteManaged exHeap 8 100 ∧
        (registerStaticRootMemory exHeap exCollector 8 100).map
          (fun C => C.static_root_memory) = .ok [(8, 100)]) ∧
      (NoByteManaged exHeap 8 16 ∧
        (registerStaticRootMemory exHeap exCollector 8 16).map
          (fun C => C.static_root_memory) = .error .rangeInHeapAssert) := by
  refine ⟨⟨?_, rfl⟩, ?_, rfl⟩
  · intro h
    exact absurd (h 16 (by decide) (by decide)) (by decide)
  · intro b h1 h2
    simp only [exHeap]
    split_ifs <;> first | rfl | omega

/-- C11, amended: for `start < end`, `registerStaticRootMemory(start, end)` succeeds if and only
if neither the address `start` nor the address `end` itself lies in a managed allocation; the
bytes in between are not examined. -/
theorem registerStaticRootMemory_ok_iff (H : Heap) (C : Collector) (start end_ : Nat)
    (h : start < end_) :
    (∃ C1, registerStaticRootMemory H C start end_ = .ok C1) ↔
      H.getAllocationFromInteriorPointer start = none ∧
        H.getAllocationFromInteriorPointer end_ = none := by
  simp only [registerStaticRootMemory, h, not_true_eq_false, if_false]
  cases hs : H.getAllocationFromInteriorPointer start with
  | some a => simp
  | none =>
    cases he : H.getAllocationFromInteriorPointer end_ with
    | some a => simp
    | none => simp

theorem registerStaticRootMemory_ok_iff_witness :
    (∃ C1, registerStaticRootMemory exHeap exCollector 8 100 = .ok C1) ↔
      exHeap.getAllocationFromInteriorPointer 8 = none ∧
        exHeap.getAllocationFromInteriorPointer 100 = none :=
  registerStaticRootMemory_ok_iff exHeap exCollector 8 100 (by decide)

/-- C12: `registerStaticRootMemory(start, end)` fails its assertion whenever `end ≤ start`;
when it succeeds the list of static root ranges is the previous list with `(start, end)`
appended; and `registerStaticRootObj`, the construction and the destruction of a handle and
`runCollection()` leave the list of ranges as it is, so no operation removes a range. -/
theorem registerStaticRootMemory_appends (H : Heap) (C : Collector) (start end_ : Nat) :
    (end_ ≤ start → registerStaticRootMemory H C start end_ = .error .rangeOrderAssert) ∧
      (∀ C1, registerStaticRootMemory H C start end_ = .ok C1 →
        C1.static_root_memory = C.static_root_memory ++ [(start, end_)]) ∧
      (∀ obj C1, registerStaticRootObj H C obj = .ok C1 →
        C1.static_root_memory = C.static_root_memory) ∧
      (∀ this, (StaticRootHandle.construct C this).static_root_memory = C.static_root_memory ∧
        (StaticRootHandle.destruct C this).static_root_memory = C.static_root_memory) ∧
      (∀ M candidates fuel C1 H1, runCollection M candidates fuel C H = some (.ok (C1, H1)) →
        C1.static_root_memory = C.static_root_memory) := by
  refine ⟨?_, ?_, ?_, ?_, ?_⟩
  · intro hle
    simp [registerStaticRootMemory, Nat.not_lt.2 hle]
  · intro C1 h
    simp only [registerStaticRootMemory] at h
    split_ifs at h
    simp only [Except.ok.injEq] at h
    rw [← h]
  · intro obj C1 h
    simp only [registerStaticRootObj] at h
    split_ifs at h
    simp only [Except.ok.injEq] at h
    rw [← h]
  · intro this
    refine ⟨?_, rfl⟩
    simp only [StaticRootHandle.construct]
    split_ifs <;> rfl
  · intro M candidates fuel C1 H1 h
    simp only [runCollection] at h
    split at h
    · simp at h
    · simp at h
    · simp only [Option.some.injEq, Except.ok.injEq, Prod.mk.injEq] at h
      rw [← h.1]

theorem registerStaticRootMemory_appends_witness :
    registerStaticRootMemory exHeap exCollector 100 8 = .error .rangeOrderAssert ∧
      ∃ C1, registerStaticRootMemory exHeap ⟨⟨[16]⟩, [(200, 216)], [], 0⟩ 8 100 = .ok C1 ∧
        C1.static_root_memory = [(200, 216), (8, 100)] :=
  ⟨(registerStaticRootMemory_appends exHeap exCollector 100 8).1 (by decide),
    ⟨_, rfl,
      (registerStaticRootMemory_appends exHeap ⟨⟨[16]⟩, [(200, 216)], [], 0⟩ 8 100).2.1 _ rfl⟩⟩

/-! ## Steps of the drain loop (claims C16 and C20) -/

/-- C16: for a typed allocation at `p` whose class is set and has no tracing callback
registered, the step of the drain loop that pops `p` while the allocation is unmarked fails
the assertion on `cls->gc_visit`, and the drain loop and the collection fail with it; and in
no run of the drain loop that completes has such an allocation been marked by the run. -/
theorem markStep_missing_gc_visit_aborts (M : Memory) (p : Nat) (hcls : M.word p ≠ NULL)
    (hg : M.gc_visit (M.word p) = none) :
    (∀ (H : Heap) (v : List Nat), p ≠ 0 → p % 8 = 0 →
        H.isMarked (GCAllocation.fromUserData p) = false →
        H.kind_id (GCAllocation.fromUserData p) = .PYTHON →
        markStep M H ⟨v ++ [p]⟩ = .error .gcVisitAssert ∧
          (∀ fuel, markLoop M (fuel + 1) H ⟨v ++ [p]⟩ = some (.error .gcVisitAssert)) ∧
          (∀ C candidates fuel, markPhaseRoots M C candidates H = .ok ⟨v ++ [p]⟩ →
            runCollection M candidates (fuel + 1) C H = some (.error .gcVisitAssert))) ∧
      (∀ (fuel : Nat) (H : Heap) (stack : TraceStack) (H1 : Heap),
        markLoop M fuel H stack = some (.ok H1) →
        H.kind_id (GCAllocation.fromUserData p) = .PYTHON →
        H1.isMarked (GCAllocation.fromUserData p) = true →
        H.isMarked (GCAllocation.fromUserData p) = true) := by
  refine ⟨?_, markLoop_ok_not_uncallable M hcls hg⟩
  intro H v hp hal hm hk
  have hs := markStep_no_gc_visit M H v hp hal hm hk hcls hg
  refine ⟨hs, fun fuel => by simp [markLoop, hs], ?_⟩
  intro C candidates fuel hroots
  have hroots1 : markPhaseRoots M { C with ncollections := C.ncollections + 1 } candidates H =
      .ok ⟨v ++ [p]⟩ := hroots
  simp [runCollection, markPhase, hroots1, markLoop, hs]

theorem markStep_missing_gc_visit_aborts_witness :
    markStep exMemoryNoVisit exHeap ⟨[32] ++ [16]⟩ = .error .gcVisitAssert ∧
      runCollection exMemoryNoVisit [] 1 exCollector exHeap = some (.error .gcVisitAssert) :=
  ⟨((markStep_missing_gc_visit_aborts exMemoryNoVisit 16 (by decide) rfl).1 exHeap [32]
      (by decide) (by decide) rfl rfl).1,
    ((markStep_missing_gc_visit_aborts exMemoryNoVisit 16 (by decide) rfl).1 exHeap []
      (by decide) (by decide) rfl rfl).2.2 exCollector [] 0 rfl⟩

/-- C20: a step of the drain loop clears no mark flag, and the only allocation it can mark is
the one whose address it popped; so the marked set after the step contains the marked set
before it, and so does the marked set at the end of every run of the drain loop and of the
mark phase. -/
theorem marks_never_cleared (M : Memory) (H : Heap) (stack : TraceStack) :
    (∀ H1 stack1, markStep M H stack = .ok (some (H1, stack1)) →
        (∀ a, H.isMarked a = true → H1.isMarked a = true) ∧
          (∀ a, H1.isMarked a = true → H.isMarked a = false →
            a = GCAllocation.fromUserData stack.pop.1)) ∧
      (∀ fuel H1, markLoop M fuel H stack = some (.ok H1) →
        ∀ a, H.isMarked a = true → H1.isMarked a = true) ∧
      (∀ C candidates fuel H1, markPhase M C candidates fuel H = some (.ok H1) →
        ∀ a, H.isMarked a = true → H1.isMarked a = true) := by
  refine ⟨fun H1 stack1 h => markStep_marks h,
    fun fuel H1 h => markLoop_marks_superset M fuel H stack H1 h, ?_⟩
  intro C candidates fuel H1 h
  simp only [markPhase] at h
  cases hr : markPhaseRoots M C candidates H with
  | error e => simp [hr] at h
  | ok st =>
    simp only [hr] at h
    exact markLoop_marks_superset M fuel H st H1 h

theorem marks_never_cleared_witness :
    (⟨16⟩ : GCAllocation) = GCAllocation.fromUserData (TraceStack.pop ⟨[48, 16]⟩).1 :=
  ((marks_never_cleared exMemory exHeap ⟨[48, 16]⟩).1 (exHeap.setMark ⟨16⟩) ⟨[48, 32]⟩ rfl).2
    ⟨16⟩ rfl rfl

/-- C13: constructing the handle at `this` adds exactly `this` to the set of live handles and
destroying it removes exactly `this`, every other handle staying in or out of the set as it
was; so after any sequence of constructions and destructions the set holds exactly the
handles constructed and not yet destroyed.  The worklist the mark phase builds from the roots
takes the handle values from exactly the handles of that set; and for a handle that is not in
the set (as after its destruction) and whose storage is not a slot of a registered range,
that worklist does not depend on what the storage holds. -/
theorem handle_lifecycle (C : Collector) (this : Nat) :
    (∀ h, h ∈ (StaticRootHandle.construct C this).root_handles ↔
        h = this ∨ h ∈ C.root_handles) ∧
      (∀ h, h ∈ (StaticRootHandle.destruct C this).root_handles ↔
        h ≠ this ∧ h ∈ C.root_handles) ∧
      (∀ events h, h ∈ (handleEvents C events).root_handles ↔
        ConstructedNotDestroyed C.root_handles events h) ∧
      (∀ (H : Heap) (M : Memory) (candidates : List Nat), H.ResolvesOwnUserData →
        markPhaseRoots M C candidates H =
          .ok ⟨C.roots.v ++ potentialTargets H candidates ++
            potentialTargets H
              (C.static_root_memory.flatMap (fun r => (rangeSlots r.1 r.2).map M.word)) ++
            potentialTargets H (C.root_handles.map M.word)⟩) ∧
      (∀ (C1 : Collector) (H : Heap) (M : Memory) (candidates : List Nat) (v : Nat),
        this ∉ C1.root_handles → (∀ r ∈ C1.static_root_memory, this ∉ rangeSlots r.1 r.2) →
        markPhaseRoots (StaticRootHandle.assign M this v) C1 candidates H =
          markPhaseRoots M C1 candidates H) := by
  refine ⟨mem_construct C this, mem_destruct C this, fun events h => mem_handleEvents events C h,
    ?_, ?_⟩
  · intro H M candidates hH
    exact markPhaseRoots_eq hH M C candidates
  · intro C1 H M candidates v hh hr
    exact markPhaseRoots_assign H M C1 candidates this v hh hr

theorem handle_lifecycle_witness :
    markPhaseRoots (StaticRootHandle.assign exMemory 300 16)
        (StaticRootHandle.destruct ⟨⟨[]⟩, [(200, 216)], [300, 308], 0⟩ 300) [] exHeap =
      markPhaseRoots exMemory
        (StaticRootHandle.destruct ⟨⟨[]⟩, [(200, 216)], [300, 308], 0⟩ 300) [] exHeap :=
  (handle_lifecycle ⟨⟨[]⟩, [(200, 216)], [300, 308], 0⟩ 300).2.2.2.2
    (StaticRootHandle.destruct ⟨⟨[]⟩, [(200, 216)], [300, 308], 0⟩ 300) exHeap exMemory [] 16
    (by decide) (by decide)

/-! ## The conservative scan and the worklist entries (claims C18 and C19) -/

/-- C18, as stated, fails for a conservative block of 12 bytes at 32: the only word entirely
inside `[32, 44)` is the one at 32, but the step that scans the block also applies
`visitPotential` to the word at 40, which extends to byte 47, and pushes the allocation that
word resolves to. -/
theorem conservative_scan_floor_counterexample :
    (oddHeap.kind_id ⟨32⟩ = .CONSERVATIVE ∧ oddHeap.kind_data ⟨32⟩ = 12 ∧
        oddHeap.isMarked ⟨32⟩ = false) ∧
      (wordsInside 32 12 = [32] ∧
        forEach (fun a st => TraceStackGCVisitor.visitPotential oddHeap (oddMemory.word a) st)
          (wordsInside 32 12) ⟨[]⟩ = .ok ⟨[]⟩) ∧
      (oddMemory.word 40 = 48 ∧ ¬ 40 + 8 ≤ 32 + 12 ∧
        markStep oddMemory oddHeap ⟨[32]⟩ = .ok (some (oddHeap.setMark ⟨32⟩, ⟨[48]⟩))) :=
  ⟨⟨rfl, rfl, rfl⟩, ⟨rfl, rfl⟩, rfl, by decide, rfl⟩

/-- C18, amended: the step of the drain loop that scans an unmarked conservative block with
user-data address `p` and recorded length `n` marks it and applies `visitPotential`, in
ascending order, to exactly the words at `p`, `p + 8`, ... that begin before `p + n`; there
are `(n + 7) / 8` of them, each begins inside `[p, p + n)`, and when `n` is a multiple of 8
they are the `n / 8` words that lie entirely inside `[p, p + n)`, so that no byte at or beyond
`p + n` is read. -/
theorem conservative_scan_words (M : Memory) (H : Heap) (v : List Nat) (p : Nat)
    (hp : p ≠ 0) (hal : p % 8 = 0) (hm : H.isMarked (GCAllocation.fromUserData p) = false)
    (hk : H.kind_id (GCAllocation.fromUserData p) = .CONSERVATIVE) :
    markStep M H ⟨v ++ [p]⟩ =
        (match forEach (fun a st => TraceStackGCVisitor.visitPotential H (M.word a) st)
            (rangeSlots p (p + H.kind_data (GCAllocation.fromUserData p))) ⟨v⟩ with
        | .error e => .error e
        | .ok stack1 => .ok (some (H.setMark (GCAllocation.fromUserData p), stack1))) ∧
      (rangeSlots p (p + H.kind_data (GCAllocation.fromUserData p))).length =
        (H.kind_data (GCAllocation.fromUserData p) + 7) / 8 ∧
      (∀ a ∈ rangeSlots p (p + H.kind_data (GCAllocation.fromUserData p)),
        p ≤ a ∧ a < p + H.kind_data (GCAllocation.fromUserData p)) ∧
      (H.kind_data (GCAllocation.fromUserData p) % 8 = 0 →
        rangeSlots p (p + H.kind_data (GCAllocation.fromUserData p)) =
            wordsInside p (H.kind_data (GCAllocation.fromUserData p)) ∧
          ∀ a ∈ rangeSlots p (p + H.kind_data (GCAllocation.fromUserData p)),
            a + 8 ≤ p + H.kind_data (GCAllocation.fromUserData p)) := by
  refine ⟨markStep_conservative M H v hp hal hm hk, ?_, ?_, ?_⟩
  · rw [rangeSlots_length]
    congr 1
    omega
  · intro a ha
    obtain ⟨i, rfl, hi⟩ := mem_rangeSlots.1 ha
    exact ⟨by omega, hi⟩
  · intro h8
    refine ⟨rangeSlots_eq_wordsInside p _ h8, ?_⟩
    intro a ha
    obtain ⟨i, rfl, hi⟩ := mem_rangeSlots.1 ha
    omega

theorem conservative_scan_words_witness :
    rangeSlots 32 (32 + exHeap.kind_data (GCAllocation.fromUserData 32)) = wordsInside 32 16 ∧
      (rangeSlots 32 (32 + oddHeap.kind_data (GCAllocation.fromUserData 32))).length = 2 :=
  ⟨((conservative_scan_words exMemory exHeap [] 32 (by decide) (by decide) rfl rfl).2.2.2
      (by decide)).1,
    (conservative_scan_words oddMemory oddHeap [] 32 (by decide) (by decide) rfl rfl).2.1⟩

/-- C19: on the example heap the worklist of the mark phase comes to hold 40, which is not the
user-data address of an allocation but a pointer into the interior of the allocation at 32,
in two ways: `registerStaticRootObj(40)` is accepted and the mark phase copies the root onto
its worklist; and a tracing callback reports the slot at 200, which holds 40, through
`visitRange`, whose assertion passes. -/
theorem worklist_holds_interior_pointer :
    (exHeap.getAllocationFromInteriorPointer 40 = some ⟨32⟩ ∧
        TraceStackGCVisitor.visit exHeap 40 ⟨[]⟩ = .error .visitAssert) ∧
      ((registerStaticRootObj exHeap ⟨⟨[]⟩, [], [], 0⟩ 40).map (fun C => C.roots) = .ok ⟨[40]⟩ ∧
        markPhaseRoots exMemory ⟨⟨[40]⟩, [], [], 0⟩ [] exHeap = .ok ⟨[40]⟩) ∧
      markStep exMemoryRange exHeap ⟨[16]⟩ = .ok (some (exHeap.setMark ⟨16⟩, ⟨[40]⟩)) :=
  ⟨⟨rfl, rfl⟩, ⟨rfl, rfl⟩, rfl⟩

/-! ## Scenarios and the order of the worklist (claims C14, C15 and C17) -/

/-- C14: on a contract-respecting heap of three unmarked allocations `X`, `Y` and `Z`, where
`X` is typed and its tracing callback reports one reference, to `Y`, where `Y` is a
conservative block none of whose words resolves, with `X` registered as the only root and no
ranges, handles or stack roots, the mark phase of `runCollection()` ends with `X` and `Y`
marked and `Z` unmarked, and the sweep retains `X` and `Y` and reclaims `Z`. -/
theorem end_to_end_scenario (M : Memory) (H : Heap) (C : Collector) (x y z : Nat)
    (hwf : WellFormed H M) (hallocs : H.allocs = [⟨x⟩, ⟨y⟩, ⟨z⟩])
    (hxy : x ≠ y) (hxz : x ≠ z) (hyz : y ≠ z)
    (hx : H.IsUserData x) (hy : H.IsUserData y)
    (hclean : ∀ a ∈ H.allocs, H.isMarked a = false)
    (hkx : H.kind_id ⟨x⟩ = .PYTHON) (hcls : M.word x ≠ NULL)
    (hfx : ∃ f, M.gc_visit (M.word x) = some f ∧ f x = [VisitCall.visit y])
    (hky : H.kind_id ⟨y⟩ = .CONSERVATIVE)
    (hwy : ∀ a ∈ rangeSlots y (y + H.kind_data ⟨y⟩),
      H.getAllocationFromInteriorPointer (M.word a) = none)
    (hroots : C.roots = ⟨[x]⟩) (hsrm : C.static_root_memory = [])
    (hh : C.root_handles = []) :
    ∃ H1, markPhase M C [] 3 H = some (.ok H1) ∧
      (H1.isMarked ⟨x⟩ = true ∧ H1.isMarked ⟨y⟩ = true ∧ H1.isMarked ⟨z⟩ = false) ∧
      ∃ C1 H2, runCollection M [] 3 C H = some (.ok (C1, H2)) ∧ H2.allocs = [⟨x⟩, ⟨y⟩] := by
  have hrx : references H M ⟨x⟩ = [y] := by
    obtain ⟨f, hf, hfx⟩ := hfx
    simp [references, hkx, hcls, hf, hfx, VisitCall.reported]
  have hry : references H M ⟨y⟩ = [] := by
    simp only [references, hky]
    exact potentialTargets_eq_nil (fun w hw => by
      obtain ⟨a, ha, rfl⟩ := List.mem_map.1 hw
      exact hwy a ha)
  have hmx : H.isMarked ⟨x⟩ = false := hclean _ (by simp [hallocs])
  have hmy : H.isMarked ⟨y⟩ = false := hclean _ (by simp [hallocs])
  have hmz : H.isMarked ⟨z⟩ = false := hclean _ (by simp [hallocs])
  have hstack : markPhaseRoots M C [] H = .ok ⟨[x]⟩ := by
    rw [markPhaseRoots_eq hwf.own]
    simp [rootEntries, hroots, hsrm, hh, potentialTargets]
  have hmy1 : (H.setMark ⟨x⟩).isMarked ⟨y⟩ = false := by
    have hne : (⟨y⟩ : GCAllocation) ≠ ⟨x⟩ := fun he =>
      hxy (congrArg GCAllocation.user_data he).symm
    simp [Heap.setMark, hne, hmy]
  have hs1 := markStep_wf_unmarked hwf [] hx hmx
  have hs2 := markStep_wf_unmarked (hwf.setMark ⟨x⟩) [] (p := y) hy hmy1
  have hry1 : references (H.setMark ⟨x⟩) M ⟨y⟩ = [] := hry
  rw [hrx] at hs1
  rw [hry1] at hs2
  simp only [List.nil_append] at hs1 hs2
  have hloop : markLoop M 3 H ⟨[x]⟩ = some (.ok ((H.setMark ⟨x⟩).setMark ⟨y⟩)) := by
    simp only [markLoop, hs1, hs2, markStep_nil]
  have hrun : markPhase M C [] 3 H = some (.ok ((H.setMark ⟨x⟩).setMark ⟨y⟩)) := by
    simp only [markPhase, hstack, hloop]
  have hnxz : (⟨z⟩ : GCAllocation) ≠ ⟨x⟩ := fun he =>
    hxz (congrArg GCAllocation.user_data he).symm
  have hnyz : (⟨z⟩ : GCAllocation) ≠ ⟨y⟩ := fun he =>
    hyz (congrArg GCAllocation.user_data he).symm
  have hm1x : ((H.setMark ⟨x⟩).setMark ⟨y⟩).isMarked ⟨x⟩ = true := by simp [Heap.setMark]
  have hm1y : ((H.setMark ⟨x⟩).setMark ⟨y⟩).isMarked ⟨y⟩ = true := by simp [Heap.setMark]
  have hm1z : ((H.setMark ⟨x⟩).setMark ⟨y⟩).isMarked ⟨z⟩ = false := by
    simp [Heap.setMark, hnxz, hnyz, hmz]
  refine ⟨_, hrun, ⟨hm1x, hm1y, hm1z⟩, { C with ncollections := C.ncollections + 1 },
    sweepPhase ((H.setMark ⟨x⟩).setMark ⟨y⟩), ?_, ?_⟩
  · have hrun1 : markPhase M { C with ncollections := C.ncollections + 1 } [] 3 H =
        some (.ok ((H.setMark ⟨x⟩).setMark ⟨y⟩)) := hrun
    simp only [runCollection, hrun1]
  · have hal : ((H.setMark ⟨x⟩).setMark ⟨y⟩).allocs = [⟨x⟩, ⟨y⟩, ⟨z⟩] := hallocs
    simp only [sweepPhase, Heap.freeUnmarked, hal, List.filter, hm1x, hm1y, hm1z]

theorem end_to_end_scenario_witness :
    ∃ H1, markPhase exMemory exCollector [] 3 exHeap = some (.ok H1) ∧
      (H1.isMarked ⟨16⟩ = true ∧ H1.isMarked ⟨32⟩ = true ∧ H1.isMarked ⟨48⟩ = false) ∧
      ∃ C1 H2, runCollection exMemory [] 3 exCollector exHeap = some (.ok (C1, H2)) ∧
        H2.allocs = [⟨16⟩, ⟨32⟩] :=
  end_to_end_scenario exMemory exHeap exCollector 16 32 48 exHeap_wellFormed rfl (by decide)
    (by decide) (by decide) rfl rfl (by decide) rfl (by decide) ⟨_, rfl, rfl⟩ rfl
    (by decide) rfl rfl rfl

/-- C15: on a contract-respecting heap with two unmarked allocations `A` and `B`, where the
only reference of `A` is to `B` and the only reference of `B` is to `A`, and the handle at
`h`, the only root, holds `A`: the collection completes with `A` and `B` marked at the end of
its mark phase and retained by its sweep; and after the handle is assigned null, the next
collection completes with `A` and `B` unmarked at the end of its mark phase, so that its sweep
reclaims both. -/
theorem cycle_scenario (M : Memory) (H : Heap) (C : Collector) (a b h : Nat)
    (hwf : WellFormed H M) (hab : a ≠ b) (ha : H.IsUserData a) (hb : H.IsUserData b)
    (hclean : ∀ x ∈ H.allocs, H.isMarked x = false)
    (hrefa : references H M ⟨a⟩ = [b]) (hrefb : references H M ⟨b⟩ = [a])
    (hroots : C.roots = ⟨[]⟩) (hsrm : C.static_root_memory = [])
    (hh : C.root_handles = [h]) (hval : M.word h = a) :
    ∃ H1 C1 H2, markPhase M C [] 4 H = some (.ok H1) ∧
      (H1.isMarked ⟨a⟩ = true ∧ H1.isMarked ⟨b⟩ = true) ∧
      runCollection M [] 4 C H = some (.ok (C1, H2)) ∧
      ((⟨a⟩ : GCAllocation) ∈ H2.allocs ∧ (⟨b⟩ : GCAllocation) ∈ H2.allocs) ∧
      ∃ H3 C2 H4, markPhase (StaticRootHandle.assign M h NULL) C1 [] 1 H2 = some (.ok H3) ∧
        (H3.isMarked ⟨a⟩ = false ∧ H3.isMarked ⟨b⟩ = false) ∧
        runCollection (StaticRootHandle.assign M h NULL) [] 1 C1 H2 = some (.ok (C2, H4)) ∧
        ((⟨a⟩ : GCAllocation) ∉ H4.allocs ∧ (⟨b⟩ : GCAllocation) ∉ H4.allocs) := by
  have hma : H.isMarked ⟨a⟩ = false := hclean _ (hwf.managed _ _ ha)
  have hmb : H.isMarked ⟨b⟩ = false := hclean _ (hwf.managed _ _ hb)
  have hnba : (⟨b⟩ : GCAllocation) ≠ ⟨a⟩ := fun he =>
    hab (congrArg GCAllocation.user_data he).symm
  have hstack : markPhaseRoots M C [] H = .ok ⟨[a]⟩ := by
    rw [markPhaseRoots_eq hwf.own]
    simp only [Heap.IsUserData] at ha
    simp [rootEntries, hroots, hsrm, hh, hval, potentialTargets, ha]
  have hmb1 : (H.setMark ⟨a⟩).isMarked ⟨b⟩ = false := by simp [Heap.setMark, hnba, hmb]
  have hs1 := markStep_wf_unmarked hwf [] ha hma
  have hs2 := markStep_wf_unmarked (hwf.setMark ⟨a⟩) [] (p := b) hb hmb1
  have hrefb1 : references (H.setMark ⟨a⟩) M ⟨b⟩ = [a] := hrefb
  rw [hrefa] at hs1
  rw [hrefb1] at hs2
  simp only [List.nil_append] at hs1 hs2
  have hm1a : ((H.setMark ⟨a⟩).setMark ⟨b⟩).isMarked ⟨a⟩ = true := by simp [Heap.setMark]
  have hm1b : ((H.setMark ⟨a⟩).setMark ⟨b⟩).isMarked ⟨b⟩ = true := by simp [Heap.setMark]
  have hs3 := markStep_snoc_marked M ((H.setMark ⟨a⟩).setMark ⟨b⟩) [] (hwf.ne_null ha)
    (hwf.aligned a ⟨a⟩ ha) hm1a
  simp only [List.nil_append] at hs3
  have hloop : markLoop M 4 H ⟨[a]⟩ = some (.ok ((H.setMark ⟨a⟩).setMark ⟨b⟩)) := by
    simp only [markLoop, hs1, hs2, hs3, markStep_nil]
  have hrun : markPhase M { C with ncollections := C.ncollections + 1 } [] 4 H =
      some (.ok ((H.setMark ⟨a⟩).setMark ⟨b⟩)) := by
    have hstack1 : markPhaseRoots M { C with ncollections := C.ncollections + 1 } [] H =
        .ok ⟨[a]⟩ := hstack
    simp only [markPhase, hstack1, hloop]
  have hstack2 : markPhaseRoots (StaticRootHandle.assign M h NULL)
      { C with ncollections := C.ncollections + 1 + 1 } []
      (sweepPhase ((H.setMark ⟨a⟩).setMark ⟨b⟩)) = .ok ⟨[]⟩ :=
    markPhaseRoots_sweep_null ((H.setMark ⟨a⟩).setMark ⟨b⟩) hwf.null hroots hsrm hh
      (by simp [StaticRootHandle.assign])
  have hrun2 : markPhase (StaticRootHandle.assign M h NULL)
      { C with ncollections := C.ncollections + 1 + 1 } [] 1
      (sweepPhase ((H.setMark ⟨a⟩).setMark ⟨b⟩)) =
      some (.ok (sweepPhase ((H.setMark ⟨a⟩).setMark ⟨b⟩))) := by
    simp only [markPhase, hstack2, markLoop, markStep_nil]
  refine ⟨_, { C with ncollections := C.ncollections + 1 },
    sweepPhase ((H.setMark ⟨a⟩).setMark ⟨b⟩), hrun, ⟨hm1a, hm1b⟩, ?_, ⟨?_, ?_⟩,
    sweepPhase ((H.setMark ⟨a⟩).setMark ⟨b⟩),
    { C with ncollections := C.ncollections + 1 + 1 },
    sweepPhase (sweepPhase ((H.setMark ⟨a⟩).setMark ⟨b⟩)), hrun2, ⟨rfl, rfl⟩, ?_, ?_⟩
  · simp only [runCollection, hrun]
  · simp only [sweepPhase, Heap.freeUnmarked, List.mem_filter]
    exact ⟨hwf.managed _ _ ha, hm1a⟩
  · simp only [sweepPhase, Heap.freeUnmarked, List.mem_filter]
    exact ⟨hwf.managed _ _ hb, hm1b⟩
  · simp only [runCollection, hrun2]
  · simp [sweepPhase, Heap.freeUnmarked]

theorem cycle_scenario_witness :
    ∃ H1 C1 H2, markPhase cycMemoryHandle cycCollector [] 4 cycHeap = some (.ok H1) ∧
      (H1.isMarked ⟨16⟩ = true ∧ H1.isMarked ⟨32⟩ = true) ∧
      runCollection cycMemoryHandle [] 4 cycCollector cycHeap = some (.ok (C1, H2)) ∧
      ((⟨16⟩ : GCAllocation) ∈ H2.allocs ∧ (⟨32⟩ : GCAllocation) ∈ H2.allocs) ∧
      ∃ H3 C2 H4,
        markPhase (StaticRootHandle.assign cycMemoryHandle 300 NULL) C1 [] 1 H2 =
          some (.ok H3) ∧
        (H3.isMarked ⟨16⟩ = false ∧ H3.isMarked ⟨32⟩ = false) ∧
        runCollection (StaticRootHandle.assign cycMemoryHandle 300 NULL) [] 1 C1 H2 =
          some (.ok (C2, H4)) ∧
        ((⟨16⟩ : GCAllocation) ∉ H4.allocs ∧ (⟨32⟩ : GCAllocation) ∉ H4.allocs) :=
  cycle_scenario cycMemoryHandle cycHeap cycCollector 16 32 300 cycHeap_wellFormed
    (by decide) rfl rfl (by decide) rfl rfl rfl rfl rfl rfl

/-- C17: on a finite heap with all mark flags unset that does not resolve the null address,
the drain loop terminates from every worklist without null entry, and for two worklists with
the same entries, whatever their order and however often an entry is repeated, either both
runs fail an assertion or both complete, and then they end with the same marked set, the
addresses reachable from the entries along the entries that scanning pushes; the same holds
for two mark phases whose roots give worklists with the same entries.  When moreover the
contracts of the collector are respected, the run completes and the marked set is the set of
allocations reachable from the entries along reported references. -/
theorem mark_set_order_independent (M : Memory) (H : Heap) (U : List Nat)
    (hfin : ∀ p, (H.getAllocationFromInteriorPointer p).isSome = true → p ∈ U)
    (hnull : H.getAllocationFromInteriorPointer NULL = none)
    (hclean : ∀ a, H.isMarked a = false) :
    (∀ (s1 s2 : TraceStack), NULL ∉ s1.v → (∀ p, p ∈ s1.v ↔ p ∈ s2.v) →
        ∃ fuel r1 r2, markLoop M fuel H s1 = some r1 ∧ markLoop M fuel H s2 = some r2 ∧
          ((∃ H1, r1 = .ok H1) ↔ (∃ H2, r2 = .ok H2)) ∧
          (∀ H1 H2, r1 = .ok H1 → r2 = .ok H2 →
            (∀ a, H1.isMarked a = H2.isMarked a) ∧
              (∀ p, H1.isMarked ⟨p⟩ = true ↔ PushReachable M H s1.v p))) ∧
      (∀ (C1 C2 : Collector) (candidates1 candidates2 : List Nat) (s1 s2 : TraceStack),
        markPhaseRoots M C1 candidates1 H = .ok s1 →
        markPhaseRoots M C2 candidates2 H = .ok s2 →
        NULL ∉ s1.v → (∀ p, p ∈ s1.v ↔ p ∈ s2.v) →
        ∃ fuel r1 r2, markPhase M C1 candidates1 fuel H = some r1 ∧
          markPhase M C2 candidates2 fuel H = some r2 ∧
          ((∃ H1, r1 = .ok H1) ↔ (∃ H2, r2 = .ok H2)) ∧
          (∀ H1 H2, r1 = .ok H1 → r2 = .ok H2 → ∀ a, H1.isMarked a = H2.isMarked a)) ∧
      (WellFormed H M → ∀ (s1 : TraceStack), (∀ p ∈ s1.v, H.IsUserData p) →
        ∃ fuel H1, markLoop M fuel H s1 = some (.ok H1) ∧
          ∀ a, H1.isMarked a = true ↔ ReachableFrom H M s1.v a) := by
  have key : ∀ (s1 s2 : TraceStack), NULL ∉ s1.v → (∀ p, p ∈ s1.v ↔ p ∈ s2.v) →
      ∃ fuel r1 r2, markLoop M fuel H s1 = some r1 ∧ markLoop M fuel H s2 = some r2 ∧
        ((∃ H1, r1 = .ok H1) ↔ (∃ H2, r2 = .ok H2)) ∧
        (∀ H1 H2, r1 = .ok H1 → r2 = .ok H2 →
          (∀ a, H1.isMarked a = H2.isMarked a) ∧
            (∀ p, H1.isMarked ⟨p⟩ = true ↔ PushReachable M H s1.v p)) := by
    intro s1 s2 hst hsame
    have hst2 : NULL ∉ s2.v := fun h => hst ((hsame NULL).2 h)
    have hterm : ∀ s : TraceStack, ∃ fuel r, markLoop M fuel H s = some r := by
      intro s
      obtain ⟨fuel, hf⟩ := markLoop_terminates_aux M
        (GCAllocation.user_data_offset :: (U ++ s.v))
        (unmarkedCount H (GCAllocation.user_data_offset :: (U ++ s.v))) s.v.length H s
        (fun p hp => by
          rcases hp with hp | hp
          · exact List.mem_cons_of_mem _ (List.mem_append.2 (Or.inl (hfin p hp)))
          · rw [hp]; exact List.mem_cons_self _ _)
        (fun x hx => List.mem_cons_of_mem _ (List.mem_append.2 (Or.inr hx))) le_rfl le_rfl
      obtain ⟨r, hr⟩ := Option.isSome_iff_exists.1 hf
      exact ⟨fuel, r, hr⟩
    obtain ⟨f1, r1, hr1⟩ := hterm s1
    obtain ⟨f2, r2, hr2⟩ := hterm s2
    refine ⟨max f1 f2, r1, r2, markLoop_mono M f1 H s1 r1 hr1 _ (le_max_left f1 f2),
      markLoop_mono M f2 H s2 r2 hr2 _ (le_max_right f1 f2), ⟨?_, ?_⟩, ?_⟩
    · rintro ⟨H1, rfl⟩
      obtain ⟨H2, h2, _⟩ := markLoop_same_entries hnull hclean hst hsame hr1 hr2
      exact ⟨H2, h2⟩
    · rintro ⟨H2, rfl⟩
      obtain ⟨H1, h1, _⟩ := markLoop_same_entries hnull hclean hst2
        (fun p => (hsame p).symm) hr2 hr1
      exact ⟨H1, h1⟩
    · rintro H1 H2 rfl rfl
      obtain ⟨H3, h3, heq⟩ := markLoop_same_entries hnull hclean hst hsame hr1 hr2
      simp only [Except.ok.injEq] at h3
      subst h3
      exact ⟨heq, markLoop_push_reach hnull hclean hst hr1⟩
  refine ⟨key, ?_, ?_⟩
  · intro C1 C2 candidates1 candidates2 s1 s2 h1 h2 hst hsame
    obtain ⟨fuel, r1, r2, hr1, hr2, hok, heq⟩ := key s1 s2 hst hsame
    refine ⟨fuel, r1, r2, ?_, ?_, hok, fun H1 H2 e1 e2 => (heq H1 H2 e1 e2).1⟩
    · simp only [markPhase, h1, hr1]
    · simp only [markPhase, h2, hr2]
  · intro hwf s1 hst
    obtain ⟨fuel, H1, hrun, hm⟩ := markLoop_wf_reach hwf (fun a _ => hclean a) s1 hst
    refine ⟨fuel, H1, hrun, fun a => ?_⟩
    rw [hm a, hclean a]
    simp

theorem mark_set_order_independent_witness :
    ∃ fuel r1 r2, markLoop exMemory fuel exHeap ⟨[16, 48]⟩ = some r1 ∧
      markLoop exMemory fuel exHeap ⟨[48, 16, 16]⟩ = some r2 ∧
      ((∃ H1, r1 = .ok H1) ↔ (∃ H2, r2 = .ok H2)) ∧
      (∀ H1 H2, r1 = .ok H1 → r2 = .ok H2 →
        (∀ a, H1.isMarked a = H2.isMarked a) ∧
          (∀ p, H1.isMarked ⟨p⟩ = true ↔ PushReachable exMemory exHeap [16, 48] p)) :=
  (mark_set_order_independent exMemory exHeap (List.range 64) exHeap_finite rfl
    (fun _ => rfl)).1 ⟨[16, 48]⟩ ⟨[48, 16, 16]⟩ (by decide)
    (by
      intro p
      simp only [List.mem_cons, List.mem_singleton, List.not_mem_nil, or_false]
      tauto)

/-! ## Frame, special shapes, null entries and the stack (claims C21 to C25) -/

/-- C21: a completed `runCollection()` leaves the root registry as it found it: the permanent
roots, the static memory ranges and the set of live handles are the same before and after
(only the collection counter changes), the memory that holds the handle values is read and
never written by the collection, and the worklist a later mark phase builds from the registry
is the one it would have built before: the drain loop works on a copy of the roots. -/
theorem runCollection_preserves_registry (M : Memory) (candidates : List Nat) (fuel : Nat)
    (C C1 : Collector) (H H1 : Heap)
    (h : runCollection M candidates fuel C H = some (.ok (C1, H1))) :
    C1.roots = C.roots ∧ C1.static_root_memory = C.static_root_memory ∧
      C1.root_handles = C.root_handles ∧ C1.ncollections = C.ncollections + 1 ∧
      (∀ (M2 : Memory) (candidates2 : List Nat) (H2 : Heap),
        markPhaseRoots M2 C1 candidates2 H2 = markPhaseRoots M2 C candidates2 H2) := by
  simp only [runCollection] at h
  split at h
  · simp at h
  · simp at h
  · simp only [Option.some.injEq, Except.ok.injEq, Prod.mk.injEq] at h
    obtain ⟨hC, _⟩ := h
    subst hC
    exact ⟨rfl, rfl, rfl, rfl, fun _ _ _ => rfl⟩

theorem runCollection_preserves_registry_witness :
    runCollection exMemory [] 3 exCollector exHeap =
        some (.ok ({ exCollector with ncollections := exCollector.ncollections + 1 },
          sweepPhase ((exHeap.setMark ⟨16⟩).setMark ⟨32⟩))) ∧
      ({ exCollector with ncollections := exCollector.ncollections + 1 } : Collector).roots =
        exCollector.roots ∧
      ({ exCollector with ncollections := exCollector.ncollections + 1 } :
        Collector).static_root_memory = exCollector.static_root_memory ∧
      ({ exCollector with ncollections := exCollector.ncollections + 1 } :
        Collector).root_handles = exCollector.root_handles :=
  have h := runCollection_preserves_registry exMemory [] 3 exCollector
    { exCollector with ncollections := exCollector.ncollections + 1 } exHeap
    (sweepPhase ((exHeap.setMark ⟨16⟩).setMark ⟨32⟩)) rfl
  ⟨rfl, h.1, h.2.1, h.2.2.1⟩

/-- C22: the step of the drain loop that pops an unmarked typed allocation whose class word
is still null sets the mark flag of that allocation, invokes no tracing callback, pushes
nothing and fails no assertion: it returns the worklist without the popped entry, and the
drain loop goes on from there. -/
theorem markStep_typed_null_cls (M : Memory) (H : Heap) (v : List Nat) (p : Nat)
    (hp : p ≠ 0) (hal : p % 8 = 0) (hm : H.isMarked (GCAllocation.fromUserData p) = false)
    (hk : H.kind_id (GCAllocation.fromUserData p) = .PYTHON) (hcls : M.word p = NULL) :
    markStep M H ⟨v ++ [p]⟩ = .ok (some (H.setMark (GCAllocation.fromUserData p), ⟨v⟩)) ∧
      (H.setMark (GCAllocation.fromUserData p)).isMarked (GCAllocation.fromUserData p) = true ∧
      markStepScans M H ⟨v ++ [p]⟩ = none ∧
      (∀ fuel, markLoop M (fuel + 1) H ⟨v ++ [p]⟩ =
        markLoop M fuel (H.setMark (GCAllocation.fromUserData p)) ⟨v⟩) := by
  have hk1 : (H.setMark ⟨p⟩).kind_id ⟨p⟩ = .PYTHON := hk
  have hk2 : H.kind_id ⟨p⟩ = .PYTHON := hk
  have hm1 : H.isMarked ⟨p⟩ = false := hm
  have hs : markStep M H ⟨v ++ [p]⟩ =
      .ok (some (H.setMark (GCAllocation.fromUserData p), ⟨v⟩)) := by
    simp [markStep, TraceStack.pop_snoc, NULL, hp, hal, GCAllocation.fromUserData, hm1, hk1,
      hcls]
  refine ⟨hs, by simp [Heap.setMark], ?_, fun fuel => by simp only [markLoop, hs]⟩
  simp [markStepScans, TraceStack.pop_snoc, NULL, hp, hal, GCAllocation.fromUserData, hm1, hk2,
    hcls]

theorem markStep_typed_null_cls_witness :
    markStep oddMemory exHeap ⟨[48] ++ [16]⟩ =
      .ok (some (exHeap.setMark (GCAllocation.fromUserData 16), ⟨[48]⟩)) :=
  (markStep_typed_null_cls oddMemory exHeap [48] 16 (by decide) (by decide) rfl rfl rfl).1

/-- C23: the step of the drain loop that pops an unmarked opaque-untracked allocation sets the
mark flag of that allocation and pushes nothing, whatever the memory holds: it returns the
worklist without the popped entry, scans nothing, and the drain loop goes on from there. -/
theorem markStep_untracked (M : Memory) (H : Heap) (v : List Nat) (p : Nat)
    (hp : p ≠ 0) (hal : p % 8 = 0) (hm : H.isMarked (GCAllocation.fromUserData p) = false)
    (hk : H.kind_id (GCAllocation.fromUserData p) = .UNTRACKED) :
    markStep M H ⟨v ++ [p]⟩ = .ok (some (H.setMark (GCAllocation.fromUserData p), ⟨v⟩)) ∧
      (H.setMark (GCAllocation.fromUserData p)).isMarked (GCAllocation.fromUserData p) = true ∧
      markStepScans M H ⟨v ++ [p]⟩ = none ∧
      (∀ fuel, markLoop M (fuel + 1) H ⟨v ++ [p]⟩ =
        markLoop M fuel (H.setMark (GCAllocation.fromUserData p)) ⟨v⟩) := by
  have hk1 : (H.setMark ⟨p⟩).kind_id ⟨p⟩ = .UNTRACKED := hk
  have hk2 : H.kind_id ⟨p⟩ = .UNTRACKED := hk
  have hm1 : H.isMarked ⟨p⟩ = false := hm
  have hs : markStep M H ⟨v ++ [p]⟩ =
      .ok (some (H.setMark (GCAllocation.fromUserData p), ⟨v⟩)) := by
    simp [markStep, TraceStack.pop_snoc, NULL, hp, hal, GCAllocation.fromUserData, hm1, hk1]
  refine ⟨hs, by simp [Heap.setMark], ?_, fun fuel => by simp only [markLoop, hs]⟩
  simp [markStepScans, TraceStack.pop_snoc, NULL, hp, hal, GCAllocation.fromUserData, hm1, hk2]

theorem markStep_untracked_witness :
    markStep oddMemory exHeap ⟨[16, 32] ++ [48]⟩ =
      .ok (some (exHeap.setMark (GCAllocation.fromUserData 48), ⟨[16, 32]⟩)) :=
  (markStep_untracked oddMemory exHeap [16, 32] 48 (by decide) (by decide) rfl rfl).1

/-- C24: on a heap that does not resolve the null address, none of `registerStaticRootObj`,
`visit`, `visitRange`, `visitPotential`, `visitPotentialRange` and the stack scanner, when it
returns normally, puts a null pointer on a worklist that holds none, and neither does the
building of the worklist from the roots nor a step of the drain loop; so the drain loop,
started without null entry, leaves its loop only on the empty worklist, and when it completes
every entry it was started with has been processed: its allocation is marked. -/
theorem no_null_on_worklist (H : Heap) (M : Memory)
    (h0 : H.getAllocationFromInteriorPointer NULL = none) :
    (∀ C obj C1, registerStaticRootObj H C obj = .ok C1 → NULL ∉ C.roots.v →
        NULL ∉ C1.roots.v) ∧
      (∀ p st st1, TraceStackGCVisitor.visit H p st = .ok st1 → NULL ∉ st.v →
        NULL ∉ st1.v) ∧
      (∀ start end_ st st1, TraceStackGCVisitor.visitRange H M start end_ st = .ok st1 →
        NULL ∉ st.v → NULL ∉ st1.v) ∧
      (∀ p st st1, TraceStackGCVisitor.visitPotential H p st = .ok st1 → NULL ∉ st.v →
        NULL ∉ st1.v) ∧
      (∀ start end_ st st1,
        TraceStackGCVisitor.visitPotentialRange H M start end_ st = .ok st1 →
        NULL ∉ st.v → NULL ∉ st1.v) ∧
      (∀ candidates st st1, collectStackRoots H candidates st = .ok st1 → NULL ∉ st.v →
        NULL ∉ st1.v) ∧
      (∀ C candidates st, markPhaseRoots M C candidates H = .ok st → NULL ∉ C.roots.v →
        NULL ∉ st.v) ∧
      (∀ st H1 st1, markStep M H st = .ok (some (H1, st1)) → NULL ∉ st.v →
        NULL ∉ st1.v ∧ H1.getAllocationFromInteriorPointer NULL = none) ∧
      (∀ st, markStep M H st = .ok none → NULL ∉ st.v → st.v = []) ∧
      (∀ fuel st H1, markLoop M fuel H st = some (.ok H1) → NULL ∉ st.v →
        ∀ p ∈ st.v, H1.isMarked (GCAllocation.fromUserData p) = true) := by
  refine ⟨?_, ?_, ?_, ?_, ?_, ?_, ?_, ?_, ?_, ?_⟩
  · intro C obj C1 h hC
    simp only [registerStaticRootObj] at h
    split_ifs at h with hres
    simp only [Except.ok.injEq] at h
    subst h
    simp only [TraceStack.push, List.mem_append, List.mem_singleton, not_or]
    refine ⟨hC, fun he => ?_⟩
    rw [← he, h0] at hres
    simp at hres
  · intro p st st1 h hst
    exact appends_no_null h0 (visit_appends H p) h hst
  · intro start end_ st st1 h hst
    exact appends_no_null h0 (visitRange_appends H M start end_) h hst
  · intro p st st1 h hst
    exact appends_no_null h0 (visitPotential_appends H p) h hst
  · intro start end_ st st1 h hst
    exact appends_no_null h0 (visitPotentialRange_appends H M start end_) h hst
  · intro candidates st st1 h hst
    exact appends_no_null h0
      (forEach_appends H _ candidates (fun w _ => visitPotential_appends H w)) h hst
  · intro C candidates st h hC
    obtain ⟨L, hL, hres⟩ := markPhaseRoots_appends H M C candidates h
    rw [hL]
    intro hx
    rcases List.mem_append.1 hx with hx | hx
    · exact hC hx
    · exact (hres NULL hx).nonnull h0 rfl
  · intro st H1 st1 h hst
    refine ⟨markStep_no_null h0 h hst, ?_⟩
    obtain ⟨_, _, _, _, _, hc⟩ := markStep_ok_some h
    rcases hc with ⟨_, rfl, _⟩ | ⟨_, rfl, _⟩
    · exact h0
    · exact h0
  · intro st h hst
    exact markStep_ok_none h hst
  · intro fuel st H1 h hst
    exact (markLoop_ok_marks M fuel H st H1 h0 hst h).2.1

theorem no_null_on_worklist_witness :
    NULL ∉ (⟨[16, 32]⟩ : TraceStack).v ∧ (⟨[]⟩ : TraceStack).v = [] :=
  ⟨(no_null_on_worklist exHeap exMemory rfl).2.1 32 ⟨[16]⟩ ⟨[16, 32]⟩ rfl (by decide),
    (no_null_on_worklist exHeap exMemory rfl).2.2.2.2.2.2.2.2.1 ⟨[]⟩ rfl (by decide)⟩

/-- C25: `TraceStack` is last-in-first-out: `push(p)` followed by `pop()` returns `p` and leaves
the stack as it was; `pushall` over a range followed by as many calls of `pop()` as slots were
copied returns the values of the slots in reverse order and leaves the stack as it was; and
`pop()` on the empty stack returns `NULL` and leaves the stack empty. -/
theorem traceStack_lifo (M : Memory) (s : TraceStack) (p start end_ : Nat) :
    (s.push p).pop = (p, s) ∧
      ((s.pushall M start end_).v = s.v ++ pushallSlots M start end_ ∧
        (pushallSlots M start end_).length = (end_ - start) / 8 ∧
        TraceStack.popN ((end_ - start) / 8) (s.pushall M start end_) =
          ((pushallSlots M start end_).reverse, s)) ∧
      TraceStack.pop ⟨[]⟩ = (NULL, ⟨[]⟩) := by
  refine ⟨?_, ⟨rfl, by simp [pushallSlots], ?_⟩, rfl⟩
  · simp only [TraceStack.push]
    exact TraceStack.pop_snoc s.v p
  · have hlen : (pushallSlots M start end_).length = (end_ - start) / 8 := by
      simp [pushallSlots]
    have hv : s.pushall M start end_ = ⟨s.v ++ pushallSlots M start end_⟩ := rfl
    rw [hv, ← hlen]
    exact TraceStack.popN_append_reverse s.v (pushallSlots M start end_)

end gc

/-! ## The runtime (claims C26 to C28) -/

/-! ### The format units `O` (claim C26) -/

theorem formatO_succ (n : Nat) : formatO (n + 1) = 'O' :: formatO n := by
  simp [formatO, List.replicate_succ]

/-- With a tuple that is not empty, every unit `O` stores the element `0` of the tuple: the
loop reads `tuple->elts[arg_idx]` and `arg_idx` stays `0`. -/
theorem vPyArg_ParseTupleLoop_O_units (R : Runtime) (tuple : Nat)
    (hne : 0 < (R.tupleElts tuple).length) (ps : List Nat) :
    ∀ (now_optional : Bool) (stores : List ArgStore),
      vPyArg_ParseTupleLoop R tuple (formatO ps.length) now_optional 0 ps stores
        = .ok (stores ++ ps.map (fun p => ArgStore.object p (tupleElt R tuple 0))) := by
  induction ps with
  | nil => intro now_optional stores; simp [formatO]; rfl
  | cons p ps ih =>
    intro now_optional stores
    have h1 : ¬ ('O' = Char.ofNat 0) := by decide
    have h2 : ¬ ('O' = ':') := by decide
    have h3 : ¬ ('O' = '|') := by decide
    have h4 : ¬ ('O' = 's') := by decide
    have h5 : ¬ (0 ≥ (R.tupleElts tuple).length) := by omega
    rw [List.length_cons, formatO_succ]
    rw [vPyArg_ParseTupleLoop.eq_def]
    simp only [h1, h2, h3, h4, h5, if_false, if_true]
    rw [ih]
    simp

theorem vPyArg_ParseTuple_O_units (R : Runtime) (tuple : Nat)
    (hcls : R.cls tuple = R.tuple_cls) (hne : 0 < (R.tupleElts tuple).length) (ps : List Nat) :
    vPyArg_ParseTuple R tuple (formatO ps.length) ps
      = .ok (1, ps.map (fun p => ArgStore.object p (tupleElt R tuple 0))) := by
  simp [vPyArg_ParseTuple, hcls, vPyArg_ParseTupleLoop_O_units R tuple hne ps]

/-- Claim C26 fails at `n = 2`: with the tuple `10 = (20, 21)` of the example runtime, a
format made of units `O` and as many output pointers `ps`, both `vPyArg_ParseTuple` and
`PyArg_ParseTuple` return 1 but store the element `20` of index 0 through every pointer,
because `arg_idx` is never advanced; for the format `OO` and the pointers `100` and `101`
the stores are not those that give the `i`-th element to the `i`-th pointer. -/
theorem vPyArg_ParseTuple_never_advances :
    (∀ ps : List Nat,
      vPyArg_ParseTuple exRuntime 10 (formatO ps.length) ps
        = .ok (1, ps.map (fun p => ArgStore.object p 20))) ∧
    (∀ ps : List Nat,
      PyArg_ParseTuple exRuntime 10 (formatO ps.length) ps
        = .ok (1, ps.map (fun p => ArgStore.object p 20))) ∧
    exRuntime.tupleElts 10 = [20, 21] ∧
    vPyArg_ParseTuple exRuntime 10 ['O', 'O'] [100, 101]
      = .ok (1, [ArgStore.object 100 20, ArgStore.object 101 20]) ∧
    storesInOrder [100, 101] (exRuntime.tupleElts 10)
      = [ArgStore.object 100 20, ArgStore.object 101 21] ∧
    [ArgStore.object 100 20, ArgStore.object 101 20]
      ≠ storesInOrder [100, 101] (exRuntime.tupleElts 10) := by
  have h : ∀ ps : List Nat,
      vPyArg_ParseTuple exRuntime 10 (formatO ps.length) ps
        = .ok (1, ps.map (fun p => ArgStore.object p 20)) := fun ps =>
    vPyArg_ParseTuple_O_units exRuntime 10 rfl (by decide) ps
  exact ⟨h, h, rfl, rfl, rfl, by decide⟩

/-! ### Maps (claims C27 and C28) -/

theorem DictMap.lookup_nil (R : Runtime) (k : Nat) : DictMap.lookup R [] k = none := rfl

theorem DictMap.lookup_cons (R : Runtime) (e : Nat × Nat) (d : DictMap) (k : Nat) :
    DictMap.lookup R (e :: d) k
      = if R.keyOf e.1 = R.keyOf k then some e.2 else DictMap.lookup R d k := by
  by_cases h : R.keyOf e.1 = R.keyOf k <;> simp [DictMap.lookup, DictMap.find, List.find?, h]

/-- The assignment `d[k] = v` makes the map hold `v` for the keys that are the same as `k`
and changes nothing for the others. -/
theorem DictMap.lookup_set (R : Runtime) (d : DictMap) (k v k2 : Nat) :
    DictMap.lookup R (DictMap.set R d k v) k2
      = if R.keyOf k = R.keyOf k2 then some v else DictMap.lookup R d k2 := by
  induction d with
  | nil => simp [DictMap.set, DictMap.lookup_cons, DictMap.lookup_nil]
  | cons e es ih =>
    by_cases h : R.keyOf e.1 = R.keyOf k
    · by_cases h2 : R.keyOf k = R.keyOf k2
      · simp [DictMap.set, DictMap.lookup_cons, h, h2]
      · simp [DictMap.set, DictMap.lookup_cons, h, h2]
    · by_cases h2 : R.keyOf k = R.keyOf k2
      · have h3 : ¬ R.keyOf e.1 = R.keyOf k2 := by rw [← h2]; exact h
        simp [DictMap.set, DictMap.lookup_cons, h, h2, h3, ih]
      · simp [DictMap.set, DictMap.lookup_cons, h, h2, ih]

theorem DictMap.keys_set (R : Runtime) (d : DictMap) (k v : Nat) :
    DictMap.keys R (DictMap.set R d k v)
      = if R.keyOf k ∈ DictMap.keys R d then DictMap.keys R d
        else DictMap.keys R d ++ [R.keyOf k] := by
  induction d with
  | nil => simp [DictMap.set, DictMap.keys]
  | cons e es ih =>
    by_cases h : R.keyOf e.1 = R.keyOf k
    · simp [DictMap.set, DictMap.keys, h]
    · have h2 : ¬ R.keyOf k = R.keyOf e.1 := fun h3 => h h3.symm
      simp only [DictMap.keys] at ih
      by_cases h4 : R.keyOf k ∈ List.map (fun e => R.keyOf e.1) es
      · simp [DictMap.set, DictMap.keys, h, h2, h4, ih]
      · simp [DictMap.set, DictMap.keys, h, h2, h4, ih]

theorem DictMap.uniqueKeys_set (R : Runtime) (d : DictMap) (k v : Nat)
    (h : DictMap.UniqueKeys R d) : DictMap.UniqueKeys R (DictMap.set R d k v) := by
  unfold DictMap.UniqueKeys at *
  rw [DictMap.keys_set]
  by_cases h4 : R.keyOf k ∈ DictMap.keys R d
  · simpa [h4] using h
  · simp only [h4, if_false]
    rw [List.nodup_append]
    refine ⟨h, List.nodup_singleton _, ?_⟩
    intro a ha hb
    simp at hb
    exact h4 (hb ▸ ha)

theorem dictNewKwargs_uniqueKeys (R : Runtime) (ps : DictMap) :
    ∀ r : DictMap, DictMap.UniqueKeys R r → DictMap.UniqueKeys R (dictNewKwargs R ps r) := by
  induction ps with
  | nil => intro r h; exact h
  | cons p rest ih =>
    intro r h
    exact ih _ (DictMap.uniqueKeys_set R r p.1 p.2 h)

/-- After the assignments `r->d[p.first] = p.second` for the pairs `ps` in order, the map
holds for a key the value of the last pair that carries it, and what it held before for a
key that no pair carries. -/
theorem dictNewKwargs_lookup (R : Runtime) (ps : DictMap) (k : Nat) :
    ∀ r : DictMap,
      DictMap.lookup R (dictNewKwargs R ps r) k
        = match lastValue R ps k with
          | some v => some v
          | none => DictMap.lookup R r k := by
  induction ps with
  | nil => intro r; rfl
  | cons p rest ih =>
    intro r
    simp only [dictNewKwargs, lastValue]
    rw [ih, DictMap.lookup_set]
    cases lastValue R rest k with
    | some v => rfl
    | none =>
      by_cases h : R.keyOf p.1 = R.keyOf k <;> simp [h]

theorem lastValue_none_of_not_mem (R : Runtime) (d : DictMap) (k : Nat)
    (h : R.keyOf k ∉ DictMap.keys R d) : lastValue R d k = none := by
  induction d with
  | nil => rfl
  | cons e es ih =>
    simp only [DictMap.keys, List.map_cons, List.mem_cons, not_or] at h
    have h1 : ¬ R.keyOf e.1 = R.keyOf k := fun h3 => h.1 h3.symm
    simp only [lastValue]
    rw [ih (by simpa [DictMap.keys] using h.2)]
    simp [h1]

/-- In a map without two entries of the same key, the value of the last entry with a key is
the value of the entry with that key. -/
theorem DictMap.lookup_eq_lastValue (R : Runtime) (d : DictMap) (k : Nat)
    (h : DictMap.UniqueKeys R d) : DictMap.lookup R d k = lastValue R d k := by
  induction d with
  | nil => rfl
  | cons e es ih =>
    have hnd : (R.keyOf e.1 :: DictMap.keys R es).Nodup := by
      simpa [DictMap.UniqueKeys, DictMap.keys] using h
    rw [List.nodup_cons] at hnd
    rw [DictMap.lookup_cons]
    simp only [lastValue]
    by_cases h1 : R.keyOf e.1 = R.keyOf k
    · rw [lastValue_none_of_not_mem R es k (by rw [← h1]; exact hnd.1)]
      simp [h1]
    · rw [← ih hnd.2]
      simp only [h1, if_false]
      cases DictMap.lookup R es k <;> rfl

theorem DictMap.lookup_none_of_not_mem (R : Runtime) (d : DictMap) (k : Nat)
    (h : R.keyOf k ∉ DictMap.keys R d) : DictMap.lookup R d k = none := by
  induction d with
  | nil => rfl
  | cons e es ih =>
    simp only [DictMap.keys, List.map_cons, List.mem_cons, not_or] at h
    have h1 : ¬ R.keyOf e.1 = R.keyOf k := fun h3 => h.1 h3.symm
    rw [DictMap.lookup_cons, ih (by simpa [DictMap.keys] using h.2)]
    simp [h1]

/-- The entry that `find` returns splits the map: no entry before it has the key, and `erase`
removes exactly it. -/
theorem DictMap.find_some_split (R : Runtime) (d : DictMap) (k : Nat) (it : Nat × Nat)
    (h : DictMap.find R d k = some it) :
    ∃ l1 l2, d = l1 ++ it :: l2 ∧ DictMap.erase R d k = l1 ++ l2 ∧
      R.keyOf it.1 = R.keyOf k ∧ ∀ e ∈ l1, R.keyOf e.1 ≠ R.keyOf k := by
  induction d with
  | nil => simp [DictMap.find] at h
  | cons e es ih =>
    by_cases h1 : R.keyOf e.1 = R.keyOf k
    · have : it = e := by
        simp [DictMap.find, List.find?, h1] at h
        exact h.symm
      subst this
      exact ⟨[], es, rfl, by simp [DictMap.erase, List.eraseP, h1], h1, by simp⟩
    · have h2 : DictMap.find R es k = some it := by
        simpa [DictMap.find, List.find?, h1] using h
      obtain ⟨l1, l2, e1, e2, e3, e4⟩ := ih h2
      refine ⟨e :: l1, l2, by rw [e1]; rfl, ?_, e3, ?_⟩
      · simp only [DictMap.erase] at e2
        simp [DictMap.erase, List.eraseP, h1, e2]
      · intro x hx
        rcases List.mem_cons.1 hx with hx | hx
        · rw [hx]; exact h1
        · exact e4 x hx

theorem DictMap.lookup_append (R : Runtime) (l1 l2 : DictMap) (k : Nat) :
    DictMap.lookup R (l1 ++ l2) k
      = match DictMap.lookup R l1 k with
        | some v => some v
        | none => DictMap.lookup R l2 k := by
  induction l1 with
  | nil => rfl
  | cons e es ih =>
    rw [List.cons_append, DictMap.lookup_cons, DictMap.lookup_cons, ih]
    by_cases h1 : R.keyOf e.1 = R.keyOf k <;> simp [h1]

/-! ### The functions `dictNew` and `dictPop` -/

theorem dictNewElements_pairs (R : Runtime) (hlt : R.list_cls ≠ R.tuple_cls)
    (elements : List Nat) :
    ∀ r : DictMap, (∀ e ∈ elements, IsPair R e) →
      dictNewElements R elements r
        = .ok (dictNewKwargs R (elements.map (updatePair R)) r) := by
  induction elements with
  | nil => intro r _; rfl
  | cons e es ih =>
    intro r h
    have he : IsPair R e := h e (List.mem_cons_self _ _)
    have hes : ∀ x ∈ es, IsPair R x := fun x hx => h x (List.mem_cons_of_mem _ hx)
    rcases he with ⟨hc, hl⟩ | ⟨hc, hl⟩
    · simp [dictNewElements, hc, hl, ih _ hes, dictNewKwargs, updatePair]
    · have hc2 : ¬ R.cls e = R.list_cls := by rw [hc]; exact fun h2 => hlt h2.symm
      have hc3 : ¬ R.tuple_cls = R.list_cls := fun h2 => hlt h2.symm
      simp [dictNewElements, hc, hc3, hl, ih _ hes, dictNewKwargs, updatePair]

theorem dictNewElements_badLength (R : Runtime) (hlt : R.list_cls ≠ R.tuple_cls)
    (pre : List Nat) (bad : Nat) (post : List Nat) (hbad : IsBadLength R bad) :
    ∀ r : DictMap, (∀ e ∈ pre, IsPair R e) →
      dictNewElements R (pre ++ bad :: post) r = .error (.raised .ValueError) := by
  have hc3 : ¬ R.tuple_cls = R.list_cls := fun h2 => hlt h2.symm
  induction pre with
  | nil =>
    intro r _
    rcases hbad with ⟨hc, hl⟩ | ⟨hc, hl⟩
    · simp [dictNewElements, hc, hl]
    · simp [dictNewElements, hc, hc3, hl]
  | cons e es ih =>
    intro r h
    have he : IsPair R e := h e (List.mem_cons_self _ _)
    have hes : ∀ x ∈ es, IsPair R x := fun x hx => h x (List.mem_cons_of_mem _ hx)
    rcases he with ⟨hc, hl⟩ | ⟨hc, hl⟩
    · simp [dictNewElements, hc, hl, ih _ hes]
    · simp [dictNewElements, hc, hc3, hl, ih _ hes]

theorem uniqueKeys_nil (R : Runtime) : DictMap.UniqueKeys R [] := by
  simp [DictMap.UniqueKeys, DictMap.keys]

/-- Claim C27: for a runtime in which `dict_cls` is a type object and a subclass of itself
and the list class is not the tuple class, `dictNew` called with the dict class:
(1) with one positional argument whose iteration yields `elements`, all of them lists or
tuples of two elements, and ends, and a keyword dict `kwargs`, returns a dict of class
`dict_cls` without two entries of the same key that holds, for every key `k`, the keyword
value of `k` when `kwargs` has the key and otherwise the value of the last pair of the
iterable carrying `k` (nothing when there is none);
(2) with more than one positional argument raises `TypeError`;
(3) with one positional argument whose iteration reaches, after lists and tuples of two
elements, a list or a tuple of another length, raises `ValueError`. -/
theorem dictNew_merges_keywords_over_positional (R : Runtime) (args : Nat) (kwargs : BoxedDict)
    (hty : R.isSubclass (R.cls R.dict_cls) R.type_cls = true)
    (hsub : R.isSubclass R.dict_cls R.dict_cls = true)
    (hlt : R.list_cls ≠ R.tuple_cls) :
    (∀ (it : Nat) (elements : List Nat),
      R.tupleElts args = [it] → R.pyElements it = (elements, none) →
      (∀ e ∈ elements, IsPair R e) →
      kwargs.cls = R.dict_cls → DictMap.UniqueKeys R kwargs.d →
      ∃ r : BoxedDict, dictNew R R.dict_cls args kwargs = .ok r ∧ r.cls = R.dict_cls ∧
        DictMap.UniqueKeys R r.d ∧
        ∀ k : Nat, DictMap.lookup R r.d k
          = match DictMap.lookup R kwargs.d k with
            | some v => some v
            | none => lastValue R (elements.map (updatePair R)) k) ∧
    (1 < (R.tupleElts args).length →
      dictNew R R.dict_cls args kwargs = .error (.raised .TypeError)) ∧
    (∀ (it : Nat) (pre : List Nat) (bad : Nat) (post : List Nat) (tail : Option ExcKind),
      R.tupleElts args = [it] → R.pyElements it = (pre ++ bad :: post, tail) →
      (∀ e ∈ pre, IsPair R e) → IsBadLength R bad →
      dictNew R R.dict_cls args kwargs = .error (.raised .ValueError)) := by
  refine ⟨?_, ?_, ?_⟩
  · intro it elements hargs hit hpairs hk huniq
    refine ⟨⟨R.dict_cls, dictNewKwargs R kwargs.d
      (dictNewKwargs R (elements.map (updatePair R)) [])⟩, ?_, rfl, ?_, ?_⟩
    · simp [dictNew, hty, hsub, hargs, hit, hk,
        dictNewElements_pairs R hlt elements [] hpairs]
    · exact dictNewKwargs_uniqueKeys R _ _
        (dictNewKwargs_uniqueKeys R _ _ (uniqueKeys_nil R))
    · intro k
      show DictMap.lookup R (dictNewKwargs R kwargs.d
        (dictNewKwargs R (elements.map (updatePair R)) [])) k = _
      rw [dictNewKwargs_lookup, dictNewKwargs_lookup,
        DictMap.lookup_eq_lastValue R kwargs.d k huniq, DictMap.lookup_nil]
      cases lastValue R kwargs.d k with
      | some v => rfl
      | none => cases lastValue R (elements.map (updatePair R)) k <;> rfl
  · intro h
    simp [dictNew, hty, hsub, h]
  · intro it pre bad post tail hargs hit hpairs hbad
    simp [dictNew, hty, hsub, hargs, hit,
      dictNewElements_badLength R hlt pre bad post hbad [] hpairs]

theorem dictNew_merges_keywords_over_positional_witness :
    (∃ r : BoxedDict, dictNew exRuntime exRuntime.dict_cls 11 exKwargs = .ok r ∧
        r.cls = exRuntime.dict_cls ∧ DictMap.UniqueKeys exRuntime r.d ∧
        ∀ k : Nat, DictMap.lookup exRuntime r.d k
          = match DictMap.lookup exRuntime exKwargs.d k with
            | some v => some v
            | none => lastValue exRuntime ([10, 15, 12].map (updatePair exRuntime)) k) ∧
    dictNew exRuntime exRuntime.dict_cls 11 exKwargs
      = .ok ⟨2, [(20, 22), (25, 40), (27, 41)]⟩ ∧
    dictNew exRuntime exRuntime.dict_cls 14 exKwargs = .error (.raised .TypeError) ∧
    dictNew exRuntime exRuntime.dict_cls 17 exKwargs = .error (.raised .ValueError) :=
  ⟨(dictNew_merges_keywords_over_positional exRuntime 11 exKwargs rfl rfl (by decide)).1
      30 [10, 15, 12] rfl rfl (by decide) rfl (by decide),
    rfl,
    (dictNew_merges_keywords_over_positional exRuntime 14 exKwargs rfl rfl (by decide)).2.1
      (by decide),
    (dictNew_merges_keywords_over_positional exRuntime 17 exKwargs rfl rfl (by decide)).2.2
      31 [10] 16 [] none rfl rfl (by decide) (by decide)⟩

/-- Claim C28: for a dict `self` of class `dict_cls`, `dictPop(self, k, d)`
(1) when `self` holds a value `v` for the key `k`, returns `v`, and the map afterwards is
the previous map with exactly the entry found for `k` removed: the entries before it, none
of which has the key, and the entries after it, in the same order; the other keys keep their
values, and when no two entries had the same key the dict no longer has the key `k`;
(2) when `k` is absent and a default `d` is given (`d` is not `NULL`), returns `d` and
leaves the dict unchanged;
(3) when `k` is absent and no default is given (`d` is `NULL`, the default of the
registration in `setupDict`), raises `KeyError` and leaves the dict unchanged. -/
theorem dictPop_returns_and_removes (R : Runtime) (self : BoxedDict) (k d : Nat)
    (hcls : self.cls = R.dict_cls) :
    (∀ v : Nat, DictMap.lookup R self.d k = some v →
      (dictPop R self k d).1 = .ok v ∧ (dictPop R self k d).2.cls = self.cls ∧
      (∃ (l1 : DictMap) (key : Nat) (l2 : DictMap),
        self.d = l1 ++ (key, v) :: l2 ∧ R.keyOf key = R.keyOf k ∧
        (∀ e ∈ l1, R.keyOf e.1 ≠ R.keyOf k) ∧ (dictPop R self k d).2.d = l1 ++ l2) ∧
      (∀ k2 : Nat, R.keyOf k2 ≠ R.keyOf k →
        DictMap.lookup R (dictPop R self k d).2.d k2 = DictMap.lookup R self.d k2) ∧
      (DictMap.UniqueKeys R self.d →
        DictMap.lookup R (dictPop R self k d).2.d k = none ∧
        DictMap.UniqueKeys R (dictPop R self k d).2.d)) ∧
    (DictMap.lookup R self.d k = none → d ≠ 0 → dictPop R self k d = (.ok d, self)) ∧
    (DictMap.lookup R self.d k = none → d = 0 →
      dictPop R self k d = (.error (.raised .KeyError), self)) := by
  refine ⟨?_, ?_, ?_⟩
  · intro v hv
    cases hf : DictMap.find R self.d k with
    | none => simp [DictMap.lookup, hf] at hv
    | some it =>
      have hv2 : it.2 = v := by simpa [DictMap.lookup, hf] using hv
      obtain ⟨l1, l2, e1, e2, e3, e4⟩ := DictMap.find_some_split R self.d k it hf
      have hd : (dictPop R self k d).2.d = l1 ++ l2 := by
        simp [dictPop, hcls, hf, e2]
      have hit : it = (it.1, v) := by rw [← hv2]
      refine ⟨by simp [dictPop, hcls, hf, hv2], by simp [dictPop, hcls, hf],
        ⟨l1, it.1, l2, by rw [← hit]; exact e1, e3, e4, hd⟩, ?_, ?_⟩
      · intro k2 hk2
        have h3 : ¬ R.keyOf it.1 = R.keyOf k2 := by
          rw [e3]; exact fun h => hk2 h.symm
        rw [hd, e1, DictMap.lookup_append, DictMap.lookup_append, DictMap.lookup_cons]
        simp [h3]
      · intro huniq
        have hnd : (DictMap.keys R l1 ++ R.keyOf it.1 :: DictMap.keys R l2).Nodup := by
          have := huniq
          rw [DictMap.UniqueKeys, e1] at this
          simpa [DictMap.keys] using this
        have hsub : (DictMap.keys R l1 ++ DictMap.keys R l2).Nodup :=
          hnd.sublist (List.Sublist.append (List.Sublist.refl _) (List.sublist_cons_self _ _))
        constructor
        · rw [hd]
          apply DictMap.lookup_none_of_not_mem
          have hk1 : R.keyOf k ∉ DictMap.keys R l1 := by
            intro hm
            obtain ⟨e, he, hek⟩ := List.mem_map.1 hm
            exact e4 e he hek
          have hk2 : R.keyOf k ∉ DictMap.keys R l2 := by
            intro hm
            rw [List.nodup_append] at hnd
            have h5 := (List.nodup_cons.1 hnd.2.1).1
            rw [e3] at h5
            exact h5 hm
          simp only [DictMap.keys, List.map_append, List.mem_append, not_or]
          exact ⟨hk1, hk2⟩
        · rw [hd]
          simpa [DictMap.UniqueKeys, DictMap.keys] using hsub
  · intro hn hd
    have hf : DictMap.find R self.d k = none := by
      cases hf : DictMap.find R self.d k with
      | none => rfl
      | some it => simp [DictMap.lookup, hf] at hn
    simp [dictPop, hcls, hf, hd]
  · intro hn hd
    have hf : DictMap.find R self.d k = none := by
      cases hf : DictMap.find R self.d k with
      | none => rfl
      | some it => simp [DictMap.lookup, hf] at hn
    simp [dictPop, hcls, hf, hd]

theorem dictPop_returns_and_removes_witness :
    ((dictPop exRuntime exDict 125 0).1 = .ok 26 ∧
      exDict.d = [(20, 21)] ++ (25, 26) :: [(27, 28)] ∧
      (dictPop exRuntime exDict 125 0).2.d = [(20, 21)] ++ [(27, 28)] ∧
      DictMap.lookup exRuntime (dictPop exRuntime exDict 125 0).2.d 125 = none) ∧
    dictPop exRuntime exDict 99 7 = (.ok 7, exDict) ∧
    dictPop exRuntime exDict 99 0 = (.error (.raised .KeyError), exDict) :=
  ⟨⟨((dictPop_returns_and_removes exRuntime exDict 125 0 rfl).1 26 rfl).1, rfl, rfl,
      (((dictPop_returns_and_removes exRuntime exDict 125 0 rfl).1 26 rfl).2.2.2.2
        (by decide)).1⟩,
    (dictPop_returns_and_removes exRuntime exDict 99 7 rfl).2.1 rfl (by decide),
    (dictPop_returns_and_removes exRuntime exDict 99 0 rfl).2.2 rfl rfl⟩

end pyston
